import Mathlib

/-!
# TrenchBroom: node reader and path

A shallow embedding of `common/src/IO/NodeReader.cpp` and `common/src/IO/Path.cpp`.

* Nodes live in a heap (`Heap`), a list of records indexed by allocation serial
  number; a `Model::Node*` is such an index (a `Nat`), `nullptr` is `none`.
* The status sink `ParserStatus` is the list of messages written so far.
* The parser behind `readEntities` / `readBrushes` is a collaborator that is not part
  of these files. Its run on a text is taken as a parameter: the finite trace of
  callbacks it makes (`Event`) and the `ParserException` it ends with, if any.
-/

namespace TrenchBroom

/-! ## Nodes and the heap -/

/-- The concrete node classes. -/
inductive NodeKind where
  | world
  | layer
  | group
  | entity
  | brush
  | patch
  deriving DecidableEq

/-- One node object: its class, a label standing for its payload (the layer name for a
layer), the owned children in order, the parent back-reference, and whether the object
still exists (`false` once it has been deleted). -/
structure NodeRec where
  kind : NodeKind
  label : String
  children : List Nat
  parent : Option Nat
  alive : Bool
  deriving DecidableEq

abbrev Heap := List NodeRec

/-- A freshly constructed node: no children, no parent. -/
def NodeRec.fresh (kind : NodeKind) (label : String) : NodeRec :=
  { kind := kind, label := label, children := [], parent := none, alive := true }

/-- Apply `f` to the record at `p`; the heap is unchanged when `p` is no object. -/
def Heap.update (h : Heap) (p : Nat) (f : NodeRec → NodeRec) : Heap :=
  match h[p]? with
  | none => h
  | some r => h.set p (f r)

/-- Modelled from the spec: `Model::Node::addChild` (Model/Node.cpp is not among the
sources). "The node becomes an owned child of that parent": the child is appended to
the parent's children and its parent back-reference is set. -/
def addChild (h : Heap) (parentNode child : Nat) : Heap :=
  (h.update parentNode (fun r => { r with children := r.children ++ [child] })).update child
    (fun r => { r with parent := some parentNode })

/-- Modelled from the spec: `delete node` for a `Model::Node*`. "Destroying a node
destroys its subtree": the children are deleted first, then the node itself. The first
argument bounds the depth of the descent. -/
def deleteNode : Nat → Heap → Nat → Heap
  | 0, h, _ => h
  | fuel + 1, h, p =>
    match h[p]? with
    | none => h
    | some r =>
      (r.children.foldl (deleteNode fuel) h).update p (fun r => { r with alive := false })

/-- The operator `delete p`: a tree in a heap of `n` objects is at most `n` deep. -/
def Heap.delete (h : Heap) (p : Nat) : Heap :=
  deleteNode h.length h p

/-! ## The status sink -/

inductive Level where
  | info
  | warn
  | error
  deriving DecidableEq

structure Message where
  level : Level
  text : String
  deriving DecidableEq

/-- The messages the sink has received, oldest first. -/
abbrev ParserStatus := List Message

def ParserStatus.info (status : ParserStatus) (str : String) : ParserStatus :=
  status ++ [⟨Level.info, str⟩]

def ParserStatus.warn (status : ParserStatus) (str : String) : ParserStatus :=
  status ++ [⟨Level.warn, str⟩]

def ParserStatus.error (status : ParserStatus) (str : String) : ParserStatus :=
  status ++ [⟨Level.error, str⟩]

/-! ## The builder: `NodeReader` and its callbacks -/

/-- The state of a `NodeReader` that the callbacks touch: `m_nodes`. -/
structure NodeReader where
  m_nodes : List Nat
  deriving DecidableEq

/-- Source function `NodeReader::onWorldNode`. The `unique_ptr<WorldNode>` parameter is
not stored, so the world node is deleted when the parameter goes out of scope. Returns
the new layer. -/
def NodeReader.onWorldNode (reader : NodeReader) (h : Heap) (worldNode : Nat) :
    Nat × NodeReader × Heap :=
  let layerNode : Nat := h.length
  let h1 := h ++ [NodeRec.fresh NodeKind.layer ""]
  (layerNode, { m_nodes := layerNode :: reader.m_nodes }, h1.delete worldNode)

/-- Source function `NodeReader::onLayerNode`. -/
def NodeReader.onLayerNode (reader : NodeReader) (h : Heap) (layerNode : Nat) :
    NodeReader × Heap :=
  ({ m_nodes := reader.m_nodes ++ [layerNode] }, h)

/-- Source function `NodeReader::onNode`. -/
def NodeReader.onNode (reader : NodeReader) (h : Heap) (parentNode : Option Nat)
    (node : Nat) : NodeReader × Heap :=
  match parentNode with
  | some parent => (reader, addChild h parent node)
  | none => ({ m_nodes := reader.m_nodes ++ [node] }, h)

/-- Modelled from the spec: `kdl::vec_clear_and_delete` (kdl/vector_utils.h is not
among the sources). "Discard (destroy) every node accumulated so far": every element is
deleted, then the vector is cleared. -/
def vec_clear_and_delete (reader : NodeReader) (h : Heap) : NodeReader × Heap :=
  ({ m_nodes := [] }, reader.m_nodes.foldl Heap.delete h)

/-! ## The grammar collaborator -/

/-- Modelled from the spec: the run of the format-aware grammar (IO/MapReader and the
parsers under it are not among the sources), "a stream of parse callbacks (enter world,
enter layer, enter node, error)". The parser is handed the status sink itself; of its
entry points the spec has `warning` "used by collaborators, not emitted directly by this
core", and does not keep collaborators from `error`; the info messages it counts are
those of `readAsFormat`. One step of a run:

* `world label`: the parser creates a world node and calls `onWorldNode` with it; it
  keeps the returned pointer.
* `layer label`: the parser creates a layer node and calls `onLayerNode` with it.
* `node parent kind label`: the parser creates a node and calls `onNode`. `parent` is
  `none` for `nullptr`, and `some i` for the pointer the parser obtained at its `i`-th
  callback (the layer returned by `onWorldNode`, or the node it handed over).
* `warn text`: the parser writes a warning to the status sink it was given.
* `error text`: the parser writes an error-level message to the status sink. -/
inductive Event where
  | world (label : String)
  | layer (label : String)
  | node (parent : Option Nat) (kind : NodeKind) (label : String)
  | warn (text : String)
  | error (text : String)
  deriving DecidableEq

/-- A parser run on one text: the callbacks made, and the `what()` of the
`ParserException` that ended it, if one was thrown. -/
structure Grammar where
  events : List Event
  error : Option String
  deriving DecidableEq

/-- A `NodeReader` in the middle of a parser run: the builder, the pointers the parser
holds (one per callback made), the heap and the status sink. -/
structure Attempt where
  reader : NodeReader
  known : List Nat
  heap : Heap
  status : ParserStatus
  deriving DecidableEq

/-- The pointer behind a parent reference. A parser can only pass a pointer it holds,
so a reference to a callback not yet made stands for no run of the source; it is read
as `nullptr`. -/
def Attempt.parentPtr (a : Attempt) : Option Nat → Option Nat
  | none => none
  | some i => a.known[i]?

/-- The effect of one parser step: the parser allocates its node, then calls back. -/
def Attempt.step (a : Attempt) : Event → Attempt
  | Event.world label =>
    let worldNode : Nat := a.heap.length
    let r := a.reader.onWorldNode (a.heap ++ [NodeRec.fresh NodeKind.world label]) worldNode
    { reader := r.2.1, known := a.known ++ [r.1], heap := r.2.2, status := a.status }
  | Event.layer label =>
    let layerNode : Nat := a.heap.length
    let r := a.reader.onLayerNode (a.heap ++ [NodeRec.fresh NodeKind.layer label]) layerNode
    { reader := r.1, known := a.known ++ [layerNode], heap := r.2, status := a.status }
  | Event.node parent kind label =>
    let node : Nat := a.heap.length
    let r := a.reader.onNode (a.heap ++ [NodeRec.fresh kind label]) (a.parentPtr parent) node
    { reader := r.1, known := a.known ++ [node], heap := r.2, status := a.status }
  | Event.warn text =>
    { a with status := a.status.warn text }
  | Event.error text =>
    { a with status := a.status.error text }

/-- A newly constructed `NodeReader` (empty `m_nodes`) about to parse. -/
def Attempt.start (h : Heap) (status : ParserStatus) : Attempt :=
  { reader := { m_nodes := [] }, known := [], heap := h, status := status }

/-- Run the parser on a newly constructed `NodeReader`. -/
def Grammar.run (g : Grammar) (h : Heap) (status : ParserStatus) : Attempt :=
  g.events.foldl Attempt.step (Attempt.start h status)

/-- An error value of `Model::initializeLinkIds`. -/
structure Error where
  msg : String
  deriving DecidableEq

/-- The functions `NodeReader.cpp` calls that are defined elsewhere.

* `compatibleFormats`, `formatName`: Model/MapFormat.
* `readEntities`, `readBrushes`: the run of `MapReader::readEntities` /
  `MapReader::readBrushes` on a reader constructed with
  `(str, sourceMapFormat, targetMapFormat, entityPropertyConfig)` and called with
  `worldBounds`.
* `initializeLinkIds`: Model/LinkedGroupUtils; it may change the nodes it is given, not
  the sequence of pointers, and returns its errors. -/
structure Collaborators (MapFormat Bounds Config : Type) where
  compatibleFormats : MapFormat → List MapFormat
  formatName : MapFormat → String
  readEntities : String → MapFormat → MapFormat → Config → Bounds → Grammar
  readBrushes : String → MapFormat → MapFormat → Config → Bounds → Grammar
  initializeLinkIds : List Nat → Heap → Heap × List Error

/-- What `read` can see and change outside its arguments: the heap and the status sink. -/
structure World where
  heap : Heap
  status : ParserStatus
  deriving DecidableEq

section Reader

variable {MapFormat Bounds Config : Type}

/-- Source function `NodeReader::readAsFormat`. -/
def NodeReader.readAsFormat (C : Collaborators MapFormat Bounds Config)
    (sourceMapFormat targetMapFormat : MapFormat) (str : String) (worldBounds : Bounds)
    (entityPropertyConfig : Config) (w : World) : List Nat × World :=
  let ge := C.readEntities str sourceMapFormat targetMapFormat entityPropertyConfig worldBounds
  let ae := ge.run w.heap w.status
  match ge.error with
  | none =>
    (ae.reader.m_nodes,
      { heap := ae.heap
        status := ae.status.info
          ("Parsed successfully as " ++ C.formatName sourceMapFormat ++ " entities") })
  | some e =>
    let status1 := ae.status.info
      ("Couldn't parse as " ++ C.formatName sourceMapFormat ++ " entities: " ++ e)
    let cleared := vec_clear_and_delete ae.reader ae.heap
    let gb := C.readBrushes str sourceMapFormat targetMapFormat entityPropertyConfig worldBounds
    let ab := gb.run cleared.2 status1
    match gb.error with
    | none =>
      (ab.reader.m_nodes,
        { heap := ab.heap
          status := ab.status.info
            ("Parsed successfully as " ++ C.formatName sourceMapFormat ++ " brushes") })
    | some e =>
      let status2 := ab.status.info
        ("Couldn't parse as " ++ C.formatName sourceMapFormat ++ " brushes: " ++ e)
      let cleared2 := vec_clear_and_delete ab.reader ab.heap
      ([], { heap := cleared2.2, status := status2 })

/-- The body of the `if` in `NodeReader::read`: restore the linked groups of a non-empty
result and report every error. -/
def NodeReader.restoreLinks (C : Collaborators MapFormat Bounds Config) (result : List Nat)
    (w : World) : World :=
  let r := C.initializeLinkIds result w.heap
  { heap := r.1
    status := r.2.foldl
      (fun status error => status.error ("Could not restore linked groups: " ++ error.msg))
      w.status }

/-- The loop of `NodeReader::read` over the formats still to try. -/
def NodeReader.readLoop (C : Collaborators MapFormat Bounds Config) (str : String)
    (preferredMapFormat : MapFormat) (worldBounds : Bounds) (entityPropertyConfig : Config) :
    List MapFormat → World → List Nat × World
  | [], w => ([], w)
  | compatibleMapFormat :: rest, w =>
    let r := NodeReader.readAsFormat C compatibleMapFormat preferredMapFormat str worldBounds
      entityPropertyConfig w
    if r.1.isEmpty then
      NodeReader.readLoop C str preferredMapFormat worldBounds entityPropertyConfig rest r.2
    else
      (r.1, NodeReader.restoreLinks C r.1 r.2)

/-- Source function `NodeReader::read`. -/
def NodeReader.read (C : Collaborators MapFormat Bounds Config) (str : String)
    (preferredMapFormat : MapFormat) (worldBounds : Bounds) (entityPropertyConfig : Config)
    (w : World) : List Nat × World :=
  NodeReader.readLoop C str preferredMapFormat worldBounds entityPropertyConfig
    (C.compatibleFormats preferredMapFormat) w

end Reader

/-! ## Relations between heaps used in the statements -/

/-- The fields of a record that deleting never touches. -/
def NodeRec.shape (r : NodeRec) : NodeKind × String × List Nat × Option Nat :=
  (r.kind, r.label, r.children, r.parent)

/-- Heap `h2` has the same objects as `h1` with the same contents, except that some may
have been deleted. -/
structure Heap.Fades (h1 h2 : Heap) : Prop where
  length_eq : h2.length = h1.length
  get : ∀ (q : Nat) (r : NodeRec), h1[q]? = some r →
    ∃ r2 : NodeRec, h2[q]? = some r2 ∧ r2.shape = r.shape ∧
      (r2.alive = true → r.alive = true)

/-- The root sequence and every children list keep their elements in the same relative
order from `(m1, h1)` to `(m2, h2)` (elements may have been added). -/
def KeepsOrder (m1 : List Nat) (h1 : Heap) (m2 : List Nat) (h2 : Heap) : Prop :=
  m1.Sublist m2 ∧
    ∀ (q : Nat) (r : NodeRec), h1[q]? = some r →
      ∃ r2 : NodeRec, h2[q]? = some r2 ∧ r.children.Sublist r2.children

/-- From `h1` to `h2` objects are only added, children only added to children lists,
and objects only deleted: no object changes class or label, none comes back to life. -/
structure Heap.Grows (h1 h2 : Heap) : Prop where
  length_le : h1.length ≤ h2.length
  get : ∀ (q : Nat) (r : NodeRec), h1[q]? = some r →
    ∃ r2 : NodeRec, h2[q]? = some r2 ∧ r2.kind = r.kind ∧ r2.label = r.label ∧
      r.children.Sublist r2.children ∧ (r2.alive = true → r.alive = true)

/-- From object `b` on, every child was allocated after its parent and is an object of
the heap. -/
def Heap.ForwardFrom (b : Nat) (h : Heap) : Prop :=
  ∀ (p : Nat) (r : NodeRec), b ≤ p → h[p]? = some r →
    ∀ q ∈ r.children, p < q ∧ q < h.length

/-- Object `t` is `p` or lies under `p`. -/
inductive Heap.Reaches (h : Heap) : Nat → Nat → Prop where
  | self (p : Nat) (r : NodeRec) : h[p]? = some r → Heap.Reaches h p p
  | child (p : Nat) (r : NodeRec) (q t : Nat) :
    h[p]? = some r → q ∈ r.children → Heap.Reaches h q t → Heap.Reaches h p t

/-! ## Notions used to state what `read` does -/

/-- The messages a parser run writes to the sink, in order: its warnings and its
error-level messages. -/
def Grammar.messages (g : Grammar) : List Message :=
  g.events.filterMap fun e =>
    match e with
    | Event.warn text => some ⟨Level.warn, text⟩
    | Event.error text => some ⟨Level.error, text⟩
    | _ => none

/-- The error-level messages a parser run writes to the sink, in order. -/
def Grammar.errors (g : Grammar) : List Message :=
  g.events.filterMap fun e =>
    match e with
    | Event.error text => some ⟨Level.error, text⟩
    | _ => none

/-- Two builders in the same stage of the same parser run: as many roots, as many
pointers held by the parser. -/
def Attempt.Alike (a a2 : Attempt) : Prop :=
  a.reader.m_nodes.length = a2.reader.m_nodes.length ∧ a.known.length = a2.known.length

/-- The number of root nodes a parser run leaves in a newly constructed builder. -/
def Grammar.rootCount (g : Grammar) : Nat :=
  (g.run [] []).reader.m_nodes.length

section ReaderNotions

variable {MapFormat Bounds Config : Type}

/-- The world after `readAsFormat` has been called for each of the formats in turn. -/
def NodeReader.afterFormats (C : Collaborators MapFormat Bounds Config) (str : String)
    (preferredMapFormat : MapFormat) (worldBounds : Bounds) (entityPropertyConfig : Config) :
    List MapFormat → World → World
  | [], w => w
  | f :: rest, w =>
    NodeReader.afterFormats C str preferredMapFormat worldBounds entityPropertyConfig rest
      (NodeReader.readAsFormat C f preferredMapFormat str worldBounds entityPropertyConfig w).2

/-- Called for each of the formats in turn, starting in world `w`, `readAsFormat` returns
the empty sequence every time. -/
def NodeReader.AllEmpty (C : Collaborators MapFormat Bounds Config) (str : String)
    (preferredMapFormat : MapFormat) (worldBounds : Bounds) (entityPropertyConfig : Config) :
    List MapFormat → World → Prop
  | [], _ => True
  | f :: rest, w =>
    (NodeReader.readAsFormat C f preferredMapFormat str worldBounds entityPropertyConfig w).1 = []
      ∧ NodeReader.AllEmpty C str preferredMapFormat worldBounds entityPropertyConfig rest
        (NodeReader.readAsFormat C f preferredMapFormat str worldBounds entityPropertyConfig w).2

/-- The info message of `readAsFormat` for a failed entity interpretation. -/
def NodeReader.entitiesFailed (C : Collaborators MapFormat Bounds Config)
    (sourceMapFormat : MapFormat) (what : String) : Message :=
  ⟨Level.info, "Couldn't parse as " ++ C.formatName sourceMapFormat ++ " entities: " ++ what⟩

/-- The info message of `readAsFormat` for a failed brush interpretation. -/
def NodeReader.brushesFailed (C : Collaborators MapFormat Bounds Config)
    (sourceMapFormat : MapFormat) (what : String) : Message :=
  ⟨Level.info, "Couldn't parse as " ++ C.formatName sourceMapFormat ++ " brushes: " ++ what⟩

/-- The info message of `readAsFormat` for a successful entity interpretation. -/
def NodeReader.entitiesParsed (C : Collaborators MapFormat Bounds Config)
    (sourceMapFormat : MapFormat) : Message :=
  ⟨Level.info, "Parsed successfully as " ++ C.formatName sourceMapFormat ++ " entities"⟩

/-- The info message of `readAsFormat` for a successful brush interpretation. -/
def NodeReader.brushesParsed (C : Collaborators MapFormat Bounds Config)
    (sourceMapFormat : MapFormat) : Message :=
  ⟨Level.info, "Parsed successfully as " ++ C.formatName sourceMapFormat ++ " brushes"⟩

/-- The error-level message `read` writes for one error of `initializeLinkIds`. -/
def NodeReader.linkError (error : Error) : Message :=
  ⟨Level.error, "Could not restore linked groups: " ++ error.msg⟩

/-- What the sink receives when both interpretations fail for every one of the formats,
in order: per format the parser's messages and the failure message of the entity
interpretation, then the parser's messages and the failure message of the brush
interpretation. `whatE` and `whatB` give the `what()` of the parse errors. -/
def NodeReader.failureTrace (C : Collaborators MapFormat Bounds Config) (str : String)
    (preferredMapFormat : MapFormat) (worldBounds : Bounds) (entityPropertyConfig : Config)
    (whatE whatB : MapFormat → String) (formats : List MapFormat) : List Message :=
  formats.flatMap fun f =>
    (C.readEntities str f preferredMapFormat entityPropertyConfig worldBounds).messages ++
      [NodeReader.entitiesFailed C f (whatE f)] ++
      (C.readBrushes str f preferredMapFormat entityPropertyConfig worldBounds).messages ++
      [NodeReader.brushesFailed C f (whatB f)]

/-- The error-level messages the parser writes during `readAsFormat` for one format:
those of the entity interpretation, and those of the brush interpretation if that is
attempted, which it is when the entity interpretation raised a parse error. -/
def NodeReader.formatErrors (C : Collaborators MapFormat Bounds Config) (str : String)
    (preferredMapFormat : MapFormat) (worldBounds : Bounds) (entityPropertyConfig : Config)
    (f : MapFormat) : List Message :=
  (C.readEntities str f preferredMapFormat entityPropertyConfig worldBounds).errors ++
    match (C.readEntities str f preferredMapFormat entityPropertyConfig worldBounds).error with
    | none => []
    | some _ =>
      (C.readBrushes str f preferredMapFormat entityPropertyConfig worldBounds).errors

end ReaderNotions

/-- The state of an entity attempt that started on a heap of `b` objects, after the world
event and the node events for `done`, each with the world's layer as parent: the layer
`b + 1` is the only root, its children are the objects made for `done`, in order. -/
structure Attempt.UnderLayer (b : Nat) (done : List (NodeKind × String)) (a : Attempt) :
    Prop where
  roots : a.reader.m_nodes = [b + 1]
  known : a.known[0]? = some (b + 1)
  length : a.heap.length = b + 2 + done.length
  layer : a.heap[b + 1]? = some
    { kind := NodeKind.layer, label := "", children := List.range' (b + 2) done.length
      parent := none, alive := true }
  child : ∀ (i : Nat) (e : NodeKind × String), done[i]? = some e →
    a.heap[b + 2 + i]? = some
      { kind := e.1, label := e.2, children := [], parent := some (b + 1), alive := true }

/-- What holds of a builder during a parser run that started on a heap of `b` objects:
the objects made since are laid out parent before child; the roots and the pointers the
parser holds are among them; every pointer the parser holds lies under a root; and every
object made since is deleted already (a world node) or lies under a root. -/
structure Attempt.Owned (b : Nat) (a : Attempt) : Prop where
  base_le : b ≤ a.heap.length
  forward : a.heap.ForwardFrom b
  roots : ∀ p ∈ a.reader.m_nodes, b ≤ p ∧ a.heap.Reaches p p
  known : ∀ k ∈ a.known, b ≤ k ∧ ∃ p ∈ a.reader.m_nodes, a.heap.Reaches p k
  all : ∀ i : Nat, b ≤ i → i < a.heap.length →
    (∃ r : NodeRec, a.heap[i]? = some r ∧ r.alive = false) ∨
      ∃ p ∈ a.reader.m_nodes, a.heap.Reaches p i

/-! ## Concrete collaborators used in the examples -/

/-- One format; a text the parser rejects as entities and accepts as a brush list, of
which it hands over no brush (it warns instead). -/
def skippedBrushes : Collaborators Nat Unit Unit where
  compatibleFormats := fun f => [f]
  formatName := fun _ => "Standard"
  readEntities := fun _ _ _ _ _ => ⟨[], some "expected property"⟩
  readBrushes := fun _ _ _ _ _ => ⟨[Event.warn "skipping brush"], none⟩
  initializeLinkIds := fun _ h => (h, [])

/-- One format; a text the parser rejects as entities and accepts as a list of one brush. -/
def oneBrush : Collaborators Nat Unit Unit where
  compatibleFormats := fun f => [f]
  formatName := fun _ => "Valve"
  readEntities := fun _ _ _ _ _ => ⟨[Event.world "w"], some "expected property"⟩
  readBrushes := fun _ _ _ _ _ => ⟨[Event.node none NodeKind.brush "b"], none⟩
  initializeLinkIds := fun _ h => (h, [])

/-- One format; a text with a world and two entities. -/
def twoEntities : Collaborators Nat Unit Unit where
  compatibleFormats := fun f => [f]
  formatName := fun _ => "Standard"
  readEntities := fun _ _ _ _ _ =>
    ⟨Event.world "worldspawn" ::
      [(NodeKind.entity, "light"), (NodeKind.entity, "info_player_start")].map
        (fun e => Event.node (some 0) e.1 e.2), none⟩
  readBrushes := fun _ _ _ _ _ => ⟨[], some "expected brush"⟩
  initializeLinkIds := fun _ h => (h, [])

/-- Two formats; a text none of the interpretations accepts. The entity interpretation of
each has handed over a world and an entity before its parse error. -/
def garbage : Collaborators Nat Unit Unit where
  compatibleFormats := fun f => [f, f + 1]
  formatName := fun f => if f = 0 then "Standard" else "Valve"
  readEntities := fun _ _ _ _ _ =>
    ⟨[Event.world "worldspawn", Event.node (some 0) NodeKind.entity "light"],
      some "unexpected token"⟩
  readBrushes := fun _ _ _ _ _ => ⟨[], some "expected brush"⟩
  initializeLinkIds := fun _ h => (h, [])

/-- Two formats; a text with nothing in it: each entity interpretation ends without a
parse error and without having handed over a node. -/
def blankText : Collaborators Nat Unit Unit where
  compatibleFormats := fun f => [f, f + 1]
  formatName := fun f => if f = 0 then "Standard" else "Valve"
  readEntities := fun _ _ _ _ _ => ⟨[], none⟩
  readBrushes := fun _ _ _ _ _ => ⟨[Event.node none NodeKind.brush "b"], none⟩
  initializeLinkIds := fun _ h => (h, [])

/-- Two formats; a text none of the interpretations accepts, the parser writing an
error-level message to the sink before each parse error. -/
def loudGarbage : Collaborators Nat Unit Unit where
  compatibleFormats := fun f => [f, f + 1]
  formatName := fun f => if f = 0 then "Standard" else "Valve"
  readEntities := fun _ _ _ _ _ => ⟨[Event.error "unknown entity"], some "unexpected token"⟩
  readBrushes := fun _ _ _ _ _ => ⟨[Event.error "malformed face"], some "expected brush"⟩
  initializeLinkIds := fun _ h => (h, [])

/-- One format; a text with one entity the parser skips with an error-level message: the
entity interpretation ends without a parse error and without having handed over a node. -/
def loudBlank : Collaborators Nat Unit Unit where
  compatibleFormats := fun f => [f]
  formatName := fun _ => "Standard"
  readEntities := fun _ _ _ _ _ => ⟨[Event.error "skipping entity"], none⟩
  readBrushes := fun _ _ _ _ _ => ⟨[], some "expected brush"⟩
  initializeLinkIds := fun _ h => (h, [])

/-! ## Paths

`TrenchBroom::IO::Path` wraps a `std::filesystem::path`. The model is the library's
behaviour as the C++ standard gives it ([fs.class.path]) on a POSIX platform: the
separator is `/`, there are no root names, a path is absolute exactly when it has a root
directory, and `make_preferred`, which the constructor applies, changes nothing. A path
is its pathname, a list of characters. -/

/-- The class `Path`, with its one member `m_path`. -/
structure Path where
  m_path : List Char
  deriving DecidableEq

/-- Where the iteration over a pathname stands: nothing read yet; in the separators of
the root directory; in the separators after a filename; or inside a filename, of which
`n` has been read. -/
inductive ScanState where
  | start
  | root
  | sep
  | name (n : List Char)
  deriving DecidableEq

/-- Reading one character: the next state and the elements completed by it. A leading
separator gives the root directory element `/`; a separator ends the filename read. -/
def ScanState.next : ScanState → Char → ScanState × List (List Char)
  | ScanState.start, c => if c = '/' then (ScanState.root, [['/']]) else (ScanState.name [c], [])
  | ScanState.root, c => if c = '/' then (ScanState.root, []) else (ScanState.name [c], [])
  | ScanState.sep, c => if c = '/' then (ScanState.sep, []) else (ScanState.name [c], [])
  | ScanState.name n, c =>
    if c = '/' then (ScanState.sep, [n]) else (ScanState.name (n ++ [c]), [])

/-- At the end of the pathname: the filename being read is the last element; after a
separator that follows a filename the last element is the empty one. -/
def ScanState.finish : ScanState → List (List Char)
  | ScanState.start => []
  | ScanState.root => []
  | ScanState.sep => [[]]
  | ScanState.name n => [n]

/-- The elements of the rest of a pathname, read from a state on ([fs.path.itr]): the
root directory if present, each filename, and an empty element after a trailing
separator that is not the root directory. -/
def scan : ScanState → List Char → List (List Char)
  | st, [] => st.finish
  | st, c :: cs => (st.next c).2 ++ scan (st.next c).1 cs

/-- The elements `m_path.begin()` to `m_path.end()` iterate over. -/
def Path.elements (p : Path) : List (List Char) :=
  scan ScanState.start p.m_path

/-- Source function `Path::hidden_length`, the component count. -/
def Path.hidden_length (p : Path) : Nat :=
  p.elements.length

/-- Source function `Path::empty`. -/
def Path.empty (p : Path) : Bool :=
  p.m_path.isEmpty

/-- Source function `Path::isAbsolute`: `m_path.is_absolute()`, which on POSIX is
`has_root_directory()`. -/
def Path.isAbsolute (p : Path) : Bool :=
  p.m_path.head? = some '/'

/-- The library's `m_path.has_filename()`: the pathname is not empty and does not end in
a separator. -/
def Path.has_filename (p : Path) : Bool :=
  match p.m_path.getLast? with
  | some c => c ≠ '/'
  | none => false

/-- The library's `m_path.relative_path()`: the pathname after the root directory. -/
def Path.relative_path (p : Path) : Path :=
  ⟨p.m_path.dropWhile (fun c => c = '/')⟩

/-- The library's `m_path.has_relative_path()`. -/
def Path.has_relative_path (p : Path) : Bool :=
  !p.relative_path.empty

/-- Source function `Path::operator/`: `m_path / rhs.m_path` ([fs.path.append]). An
absolute `rhs` replaces the path. Otherwise a separator is appended if the path has a
filename, and then the pathname of `rhs`. -/
def Path.div (p rhs : Path) : Path :=
  if rhs.isAbsolute then rhs
  else if p.has_filename then ⟨p.m_path ++ '/' :: rhs.m_path⟩
  else ⟨p.m_path ++ rhs.m_path⟩

/-- Lexicographic three-way comparison of two sequences by `c`: the first position
where `c` is not 0 decides; a proper prefix is less. The result is -1, 0 or 1 when `c`
is: only the sign of the library's result is specified. -/
def lexCompare {α : Type} (c : α → α → Int) : List α → List α → Int
  | [], [] => 0
  | [], _ :: _ => -1
  | _ :: _, [] => 1
  | a :: as, b :: bs => if c a b = 0 then lexCompare c as bs else c a b

/-- Comparison of two characters by their code, as `char_traits<char>::compare` does. -/
def compareChar (a b : Char) : Int :=
  if a.toNat < b.toNat then -1 else if b.toNat < a.toNat then 1 else 0

/-- The library's `native().compare(...)` of two elements. -/
def compareNative (a b : List Char) : Int :=
  lexCompare compareChar a b

/-- Source function `Path::compare`: `m_path.compare(rhs.m_path)` ([fs.path.compare]).
The root names are equal (there are none); a path without root directory is less than
one with; otherwise the elements of the relative paths are compared lexicographically. -/
def Path.compare (p rhs : Path) : Int :=
  if !p.isAbsolute && rhs.isAbsolute then -1
  else if p.isAbsolute && !rhs.isAbsolute then 1
  else lexCompare compareNative p.relative_path.elements rhs.relative_path.elements

/-- Source function `Path::operator==`. -/
def Path.eq (p rhs : Path) : Bool :=
  p.compare rhs = 0

/-- Source function `Path::operator!=`. -/
def Path.ne (p rhs : Path) : Bool :=
  !(p.eq rhs)

/-- Source function `Path::operator<`. -/
def Path.lt (p rhs : Path) : Bool :=
  p.compare rhs < 0

/-- Source function `Path::operator>`. -/
def Path.gt (p rhs : Path) : Bool :=
  p.compare rhs > 0

/-- The state the iteration is in after reading `xs`. -/
def ScanState.after (st : ScanState) : List Char → ScanState
  | [] => st
  | c :: cs => (st.next c).1.after cs

/-- The elements the iteration has completed while reading `xs`. -/
def ScanState.emitted (st : ScanState) : List Char → List (List Char)
  | [] => []
  | c :: cs => (st.next c).2 ++ (st.next c).1.emitted cs

/-- The library's `m_path.parent_path()` ([fs.path.decompose]): the path itself if it has
no relative path; otherwise the longest prefix of the pathname that has one element
less. The filename the pathname ends in, if it ends in one, is dropped, and then the
separators before it, unless they are the root directory. -/
def Path.parent_path (p : Path) : Path :=
  if !p.has_relative_path then p
  else
    let q := p.m_path.rdropWhile (fun c => c ≠ '/')
    let r := q.rdropWhile (fun c => c = '/')
    if r.isEmpty then ⟨q⟩ else ⟨r⟩

/-- Source function `Path::lastComponent`: the last element of the iteration,
`*std::prev(m_path.end())`, as a path; the empty path for the empty path. -/
def Path.lastComponent (p : Path) : Path :=
  if p.empty then ⟨[]⟩ else ⟨p.elements.getLastD []⟩

/-- Source function `Path::deleteLastComponent`. -/
def Path.deleteLastComponent (p : Path) : Path :=
  if p.empty then ⟨[]⟩ else p.parent_path

/-- The filenames of the relative path: its elements but the empty one a trailing
separator gives. -/
def Path.filenames (p : Path) : List (List Char) :=
  p.relative_path.elements.filter (fun n => n ≠ [])

/-- One filename in the normalization ([fs.path.generic], steps 4 to 6), `kept` being the
filenames kept so far, the last one first. A dot is removed. A dot-dot removes the
filename before it unless that is a dot-dot; with none before it, it is removed if there
is a root directory and stays otherwise. -/
def normalStep (rooted : Bool) (kept : List (List Char)) (n : List Char) :
    List (List Char) :=
  if n = ['.'] then kept
  else if n = ['.', '.'] then
    match kept with
    | [] => if rooted then [] else [n]
    | top :: rest => if top = ['.', '.'] then n :: kept else rest
  else n :: kept

/-- The library's `m_path.lexically_normal()`: the normal form of [fs.path.generic].
The empty path stays. Every directory separator becomes a single `/`; the filenames are
reduced by `normalStep`; a separator ends the result if one ended the pathname or the
last filename was removed as a dot or by a dot-dot, unless the result has no filename
left or ends in a dot-dot; an empty result becomes a dot. -/
def Path.lexically_normal (p : Path) : Path :=
  if p.empty then p
  else
    let kept := (p.filenames.foldl (normalStep p.isAbsolute) []).reverse
    let cut := !p.has_filename || p.filenames.getLast? = some ['.']
      || p.filenames.getLast? = some ['.', '.']
    let closed := cut && (kept.getLast?).isSome && kept.getLast? != some ['.', '.']
    let text := (if p.isAbsolute then ['/'] else []) ++ ['/'].intercalate kept ++
      (if closed then ['/'] else [])
    if text.isEmpty then ⟨['.']⟩ else ⟨text⟩

/-- Source function `Path::makeCanonical`. -/
def Path.makeCanonical (p : Path) : Path :=
  p.lexically_normal

/-- The library's `std::mismatch` over two element ranges: what is left of each from the
first position on where they differ or one of them ends. -/
def mismatch : List (List Char) → List (List Char) → List (List Char) × List (List Char)
  | a :: as, b :: bs => if a = b then mismatch as bs else (a :: as, b :: bs)
  | as, bs => (as, bs)

/-- A path composed of elements: `operator/=` applied for each in turn, starting from a
default-constructed path. -/
def composeElements (es : List (List Char)) : Path :=
  es.foldl (fun acc e => acc.div ⟨e⟩) ⟨[]⟩

/-- The library's `m_path.lexically_relative(base)` ([fs.path.gen], in the wording of
C++20): this path made relative to `base`. There are no root names; the empty path
results if only one of the two has a root directory. With `a` and `b` what `mismatch`
leaves of the elements of this path and of `base`: a dot if both are used up; else, with
`n` the number of filenames in `b` that are no dot, dot-dot or empty element, less the
number of dot-dots, the empty path if `n < 0`, a dot if `n = 0` and `a` is used up or
starts with the empty element, and otherwise `n` dot-dots followed by the elements of
`a`. -/
def Path.lexically_relative (p base : Path) : Path :=
  if p.isAbsolute != base.isAbsolute then ⟨[]⟩
  else
    let ab := mismatch p.elements base.elements
    if ab.1.isEmpty && ab.2.isEmpty then ⟨['.']⟩
    else
      let up := (ab.2.filter
        (fun e => e ≠ ['/'] ∧ e ≠ ['.'] ∧ e ≠ ['.', '.'] ∧ e ≠ [])).length
      let down := (ab.2.filter (fun e => e = ['.', '.'])).length
      if up < down then ⟨[]⟩
      else if up = down ∧ (ab.1.isEmpty ∨ ab.1.head? = some []) then ⟨['.']⟩
      else composeElements (List.replicate (up - down) ['.', '.'] ++ ab.1)

/-- Source function `Path::makeRelative(const Path& absolutePath)`:
`absolutePath.m_path.lexically_relative(m_path)`. -/
def Path.makeRelative (p absolutePath : Path) : Path :=
  absolutePath.lexically_relative p

namespace kdl

/-- Modelled from the spec: `kdl::path_clip` for the library's paths, of
kdl/path_utils.h, which is not among the sources. The spec has clip return the slice of
`length` components from position `index`, clamped: an index beyond the length gives
the empty path, a length beyond the end gives what there is. The components of the slice
are composed into a path with `operator/`. -/
def path_clip (path : Path) (index length : Nat) : Path :=
  if index ≥ path.elements.length then ⟨[]⟩
  else
    composeElements
      ((path.elements.drop index).take (min length (path.elements.length - index)))

end kdl

/-- Source function `Path::hidden_clip`. -/
def Path.hidden_clip (p : Path) (index count : Nat) : Path :=
  kdl.path_clip p index count

/-- Source function `Path::prefix`. -/
def Path.prefix (p : Path) (count : Nat) : Path :=
  p.hidden_clip 0 count

/-- Source function `Path::deleteFirstComponent`. The subtraction is one of `size_t`. -/
def Path.deleteFirstComponent (p : Path) : Path :=
  if p.empty then p else p.hidden_clip 1 ((p.hidden_length + 2 ^ 64 - 1) % 2 ^ 64)

namespace kdl

/-- Source function `kdl::path_length` for `Path`. -/
def path_length (path : Path) : Nat :=
  path.hidden_length

/-- Source function `kdl::path_clip(const Path&, size_t, size_t)`. -/
def path_clip_length (path : Path) (index length : Nat) : Path :=
  path.hidden_clip index length

/-- Source function `kdl::path_clip(const Path&, size_t)`. -/
def path_clip_from (path : Path) (index : Nat) : Path :=
  path_clip_length path index (path_length path)

end kdl

/-- A filename: not empty, and no separator in it. -/
def IsFilename (n : List Char) : Prop :=
  n ≠ [] ∧ '/' ∉ n

/-- What may follow what among the elements of a path: nothing follows the empty element,
the root directory follows nothing, and the empty element does not follow the root
directory. -/
def Follows (x y : List Char) : Prop :=
  x ≠ [] ∧ y ≠ ['/'] ∧ (x = ['/'] → y ≠ [])

/-- A stretch of the elements of a path: each is the root directory, the empty element or
a filename, and each may follow the one before it. -/
def Stretch (es : List (List Char)) : Prop :=
  (∀ e ∈ es, e = ['/'] ∨ e = [] ∨ IsFilename e) ∧ es.Chain' Follows

/-! # Theorems -/

/-! ## Heap lemmas -/

theorem Heap.lt_length_of_get {h : Heap} {p : Nat} {r : NodeRec} (hp : h[p]? = some r) :
    p < List.length h := by
  obtain ⟨hlt, -⟩ := List.getElem?_eq_some.1 hp
  exact hlt

theorem Heap.length_update (h : Heap) (p : Nat) (f : NodeRec → NodeRec) :
    (h.update p f).length = h.length := by
  unfold Heap.update
  split <;> simp

theorem Heap.getElem?_update (h : Heap) (p q : Nat) (f : NodeRec → NodeRec) :
    (h.update p f)[q]? = if p = q then h[q]?.map f else h[q]? := by
  unfold Heap.update
  by_cases hpq : p = q
  · subst hpq
    cases hp : h[p]? with
    | none => simp [hp]
    | some r =>
      have hlt : p < List.length h := Heap.lt_length_of_get hp
      simp [hp, List.getElem?_set, hlt]
  · cases hp : h[p]? with
    | none => simp [hpq]
    | some r => simp [hpq, List.getElem?_set]

theorem Heap.fades_refl (h : Heap) : Heap.Fades h h :=
  ⟨rfl, fun _ r hr => ⟨r, hr, rfl, id⟩⟩

theorem Heap.fades_trans {h1 h2 h3 : Heap} (h12 : Heap.Fades h1 h2) (h23 : Heap.Fades h2 h3) :
    Heap.Fades h1 h3 := by
  refine ⟨h23.1.trans h12.1, fun q r hr => ?_⟩
  obtain ⟨r2, hr2, hs2, ha2⟩ := h12.2 q r hr
  obtain ⟨r3, hr3, hs3, ha3⟩ := h23.2 q r2 hr2
  exact ⟨r3, hr3, hs3.trans hs2, fun h => ha2 (ha3 h)⟩

theorem Heap.fades_update_alive (h : Heap) (p : Nat) :
    Heap.Fades h (h.update p (fun r => { r with alive := false })) := by
  refine ⟨Heap.length_update _ _ _, fun q r hr => ?_⟩
  rw [Heap.getElem?_update]
  by_cases hpq : p = q
  · simp [hpq, hr, NodeRec.shape]
  · simp [hpq, hr]

theorem fades_foldl {α : Type} (f : Heap → α → Heap) (hf : ∀ h x, Heap.Fades h (f h x))
    (l : List α) (h : Heap) : Heap.Fades h (l.foldl f h) := by
  induction l generalizing h with
  | nil => exact Heap.fades_refl h
  | cons x xs ih => exact Heap.fades_trans (hf h x) (ih (f h x))

theorem fades_deleteNode (fuel : Nat) (h : Heap) (p : Nat) :
    Heap.Fades h (deleteNode fuel h p) := by
  induction fuel generalizing h p with
  | zero => exact Heap.fades_refl h
  | succ n ih =>
    unfold deleteNode
    cases hp : h[p]? with
    | none => exact Heap.fades_refl h
    | some r =>
      exact Heap.fades_trans (fades_foldl _ (fun h x => ih h x) r.children h)
        (Heap.fades_update_alive _ p)

theorem Heap.fades_delete (h : Heap) (p : Nat) : Heap.Fades h (h.delete p) :=
  fades_deleteNode _ h p

/-- Deleting an object that exists leaves it deleted. -/
theorem Heap.delete_dead (h : Heap) (p : Nat) (r : NodeRec) (hp : h[p]? = some r) :
    ∃ r2, (h.delete p)[p]? = some r2 ∧ r2.alive = false := by
  have hlt : p < List.length h := Heap.lt_length_of_get hp
  unfold Heap.delete
  obtain ⟨n, hn⟩ : ∃ n, List.length h = n + 1 := ⟨List.length h - 1, by omega⟩
  rw [hn]
  unfold deleteNode
  simp only [hp]
  have hf := fades_foldl _ (fun h x => fades_deleteNode n h x) r.children h
  obtain ⟨r2, hr2, -, -⟩ := hf.2 p r hp
  refine ⟨{ r2 with alive := false }, ?_, rfl⟩
  rw [Heap.getElem?_update]
  simp [hr2]

theorem length_addChild (h : Heap) (p c : Nat) : (addChild h p c).length = h.length := by
  unfold addChild
  rw [Heap.length_update, Heap.length_update]

theorem getElem?_addChild (h : Heap) (p c q : Nat) :
    (addChild h p c)[q]? =
      (h[q]?.map (fun r => if p = q then { r with children := r.children ++ [c] } else r)).map
        (fun r => if c = q then { r with parent := some p } else r) := by
  unfold addChild
  rw [Heap.getElem?_update, Heap.getElem?_update]
  by_cases hc : c = q <;> by_cases hp : p = q <;> cases hq : h[q]? <;> simp [hc, hp]

theorem keepsOrder_addChild (m : List Nat) (h : Heap) (p c : Nat) :
    KeepsOrder m h m (addChild h p c) := by
  refine ⟨List.Sublist.refl _, fun q r hr => ?_⟩
  rw [getElem?_addChild, hr]
  by_cases hc : c = q <;> by_cases hp : p = q <;> simp [hc, hp]

theorem getElem?_append_old {h : Heap} {q : Nat} {r : NodeRec} (hr : h[q]? = some r)
    (l : Heap) : (h ++ l)[q]? = some r := by
  rw [List.getElem?_append_left (Heap.lt_length_of_get hr)]
  exact hr

theorem keepsOrder_onWorldNode (reader : NodeReader) (h : Heap) (worldNode : Nat) :
    KeepsOrder reader.m_nodes h (reader.onWorldNode h worldNode).2.1.m_nodes
      (reader.onWorldNode h worldNode).2.2 := by
  refine ⟨List.sublist_cons_self _ _, fun q r hr => ?_⟩
  obtain ⟨r2, hr2, hs, -⟩ :=
    (Heap.fades_delete (h ++ [NodeRec.fresh NodeKind.layer ""]) worldNode).get q r
      (getElem?_append_old hr _)
  refine ⟨r2, hr2, ?_⟩
  have : r2.children = r.children := congrArg (fun s => s.2.2.1) hs
  rw [this]

/-- C6. `onNode` with a non-null parent appends the node to that parent's children and
leaves the root sequence unchanged; `onNode` with a null parent and `onLayerNode` append
the node to the root sequence and leave the heap unchanged; and each of the three
callbacks keeps the relative order of the nodes already in the root sequence and of the
children already under any parent. -/
theorem callbacks_append_or_nest (reader : NodeReader) (h : Heap) (node : Nat) :
    (∀ (parent : Nat) (r : NodeRec), h[parent]? = some r →
        (reader.onNode h (some parent) node).1 = reader ∧
        ∃ r2 : NodeRec, (reader.onNode h (some parent) node).2[parent]? = some r2 ∧
          r2.children = r.children ++ [node]) ∧
    ((reader.onNode h none node).1.m_nodes = reader.m_nodes ++ [node] ∧
      (reader.onNode h none node).2 = h) ∧
    ((reader.onLayerNode h node).1.m_nodes = reader.m_nodes ++ [node] ∧
      (reader.onLayerNode h node).2 = h) ∧
    (∀ parentNode : Option Nat,
      KeepsOrder reader.m_nodes h (reader.onNode h parentNode node).1.m_nodes
        (reader.onNode h parentNode node).2) ∧
    KeepsOrder reader.m_nodes h (reader.onLayerNode h node).1.m_nodes
      (reader.onLayerNode h node).2 ∧
    KeepsOrder reader.m_nodes h (reader.onWorldNode h node).2.1.m_nodes
      (reader.onWorldNode h node).2.2 := by
  refine ⟨fun parent r hr => ⟨rfl, ?_⟩, ⟨rfl, rfl⟩, ⟨rfl, rfl⟩, fun parentNode => ?_, ?_, ?_⟩
  · show ∃ r2 : NodeRec, (addChild h parent node)[parent]? = some r2 ∧ _
    rw [getElem?_addChild, hr]
    by_cases hc : node = parent <;> simp [hc]
  · cases parentNode with
    | none => exact ⟨List.sublist_append_left _ _, fun q r hr => ⟨r, hr, List.Sublist.refl _⟩⟩
    | some parent => exact keepsOrder_addChild _ _ _ _
  · exact ⟨List.sublist_append_left _ _, fun q r hr => ⟨r, hr, List.Sublist.refl _⟩⟩
  · exact keepsOrder_onWorldNode reader h node

theorem Heap.grows_refl (h : Heap) : Heap.Grows h h :=
  ⟨le_refl _, fun _ r hr => ⟨r, hr, rfl, rfl, List.Sublist.refl _, id⟩⟩

theorem Heap.grows_trans {h1 h2 h3 : Heap} (h12 : Heap.Grows h1 h2) (h23 : Heap.Grows h2 h3) :
    Heap.Grows h1 h3 := by
  refine ⟨le_trans h12.length_le h23.length_le, fun q r hr => ?_⟩
  obtain ⟨r2, hr2, hk2, hl2, hc2, ha2⟩ := h12.get q r hr
  obtain ⟨r3, hr3, hk3, hl3, hc3, ha3⟩ := h23.get q r2 hr2
  exact ⟨r3, hr3, hk3.trans hk2, hl3.trans hl2, hc2.trans hc3, fun h => ha2 (ha3 h)⟩

theorem Heap.Fades.grows {h1 h2 : Heap} (hf : Heap.Fades h1 h2) : Heap.Grows h1 h2 := by
  refine ⟨le_of_eq hf.length_eq.symm, fun q r hr => ?_⟩
  obtain ⟨r2, hr2, hs, ha⟩ := hf.get q r hr
  have hk : r2.kind = r.kind := congrArg (fun s => s.1) hs
  have hl : r2.label = r.label := congrArg (fun s => s.2.1) hs
  have hc : r2.children = r.children := congrArg (fun s => s.2.2.1) hs
  exact ⟨r2, hr2, hk, hl, by rw [hc], ha⟩

theorem Heap.grows_append (h l : Heap) : Heap.Grows h (h ++ l) := by
  refine ⟨by simp, fun q r hr => ?_⟩
  exact ⟨r, getElem?_append_old hr l, rfl, rfl, List.Sublist.refl _, id⟩

theorem Heap.grows_addChild (h : Heap) (p c : Nat) : Heap.Grows h (addChild h p c) := by
  refine ⟨le_of_eq (length_addChild h p c).symm, fun q r hr => ?_⟩
  rw [getElem?_addChild, hr]
  by_cases hc : c = q <;> by_cases hp : p = q <;> simp [hc, hp]

theorem Heap.grows_delete (h : Heap) (p : Nat) : Heap.Grows h (h.delete p) :=
  (Heap.fades_delete h p).grows

theorem grows_foldl {α : Type} (f : Heap → α → Heap) (hf : ∀ h x, Heap.Grows h (f h x))
    (l : List α) (h : Heap) : Heap.Grows h (l.foldl f h) := by
  induction l generalizing h with
  | nil => exact Heap.grows_refl h
  | cons x xs ih => exact Heap.grows_trans (hf h x) (ih (f h x))

theorem Attempt.grows_step (a : Attempt) (e : Event) : Heap.Grows a.heap (a.step e).heap := by
  cases e with
  | world label =>
    exact Heap.grows_trans (Heap.grows_trans (Heap.grows_append a.heap _)
      (Heap.grows_append _ _)) (Heap.grows_delete _ _)
  | layer label => exact Heap.grows_append a.heap _
  | node parent kind label =>
    show Heap.Grows a.heap (a.reader.onNode _ (a.parentPtr parent) _).2
    cases a.parentPtr parent with
    | none => exact Heap.grows_append a.heap _
    | some p => exact Heap.grows_trans (Heap.grows_append a.heap _) (Heap.grows_addChild _ _ _)
  | warn text => exact Heap.grows_refl _
  | error text => exact Heap.grows_refl _

theorem Attempt.grows_steps (evs : List Event) (a : Attempt) :
    Heap.Grows a.heap (evs.foldl Attempt.step a).heap := by
  induction evs generalizing a with
  | nil => exact Heap.grows_refl _
  | cons e es ih => exact Heap.grows_trans (a.grows_step e) (ih (a.step e))

theorem Grammar.grows_run (g : Grammar) (h : Heap) (status : ParserStatus) :
    Heap.Grows h (g.run h status).heap :=
  Attempt.grows_steps g.events (Attempt.start h status)

theorem grows_vec_clear_and_delete (reader : NodeReader) (h : Heap) :
    Heap.Grows h (vec_clear_and_delete reader h).2 :=
  grows_foldl _ Heap.grows_delete _ _

/-- What `NodeReader::onWorldNode` does, in full. -/
theorem onWorldNode_spec (reader : NodeReader) (h : Heap) (worldNode : Nat) :
    (reader.onWorldNode h worldNode).1 = h.length ∧
    (reader.onWorldNode h worldNode).2.1.m_nodes =
      (reader.onWorldNode h worldNode).1 :: reader.m_nodes ∧
    (∃ r : NodeRec, (reader.onWorldNode h worldNode).2.2[(reader.onWorldNode h worldNode).1]? =
        some r ∧ r.kind = NodeKind.layer ∧ r.label = "" ∧ r.children = [] ∧ r.parent = none) ∧
    (∀ rw : NodeRec, h[worldNode]? = some rw →
      ∃ r2 : NodeRec, (reader.onWorldNode h worldNode).2.2[worldNode]? = some r2 ∧
        r2.alive = false) := by
  refine ⟨rfl, rfl, ?_, fun rw hrw => ?_⟩
  · have hL : (h ++ [NodeRec.fresh NodeKind.layer ""])[h.length]? =
        some (NodeRec.fresh NodeKind.layer "") := by simp
    obtain ⟨r2, hr2, hs, -⟩ := (Heap.fades_delete _ worldNode).get _ _ hL
    refine ⟨r2, hr2, ?_, ?_, ?_, ?_⟩
    · exact congrArg (fun s => s.1) hs
    · exact congrArg (fun s => s.2.1) hs
    · exact congrArg (fun s => s.2.2.1) hs
    · exact congrArg (fun s => s.2.2.2) hs
  · exact Heap.delete_dead _ worldNode rw (getElem?_append_old hrw _)

/-! ## Parser runs -/

theorem Attempt.status_steps (evs : List Event) (a : Attempt) :
    (evs.foldl Attempt.step a).status = a.status ++ (Grammar.mk evs none).messages := by
  induction evs generalizing a with
  | nil => simp [Grammar.messages]
  | cons e es ih =>
    rw [List.foldl_cons, ih]
    cases e <;> simp [Attempt.step, Grammar.messages, ParserStatus.warn, ParserStatus.error]

theorem Grammar.status_run (g : Grammar) (h : Heap) (status : ParserStatus) :
    (g.run h status).status = status ++ g.messages := by
  unfold Grammar.run
  rw [Attempt.status_steps]
  rfl

/-- A parser run writes warnings and error-level messages, no info message. -/
theorem Grammar.level_of_mem_messages (g : Grammar) (m : Message) (hm : m ∈ g.messages) :
    m.level = Level.warn ∨ m.level = Level.error := by
  unfold Grammar.messages at hm
  rw [List.mem_filterMap] at hm
  obtain ⟨e, -, he⟩ := hm
  cases e <;> simp at he
  · rw [← he]
    exact Or.inl rfl
  · rw [← he]
    exact Or.inr rfl

/-- The error-level messages among those a parser run writes. -/
theorem Grammar.filter_error_messages (g : Grammar) :
    g.messages.filter (fun m => m.level = Level.error) = g.errors := by
  unfold Grammar.messages Grammar.errors
  induction g.events with
  | nil => rfl
  | cons e es ih =>
    cases e <;> simp [List.filterMap_cons, List.filter_cons, ih]

theorem Attempt.alike_step (a a2 : Attempt) (hs : a.Alike a2) (e : Event) :
    (a.step e).Alike (a2.step e) := by
  obtain ⟨hm, hk⟩ := hs
  cases e with
  | world label => exact ⟨by simp [Attempt.step, NodeReader.onWorldNode, hm],
      by simp [Attempt.step, hk]⟩
  | layer label => exact ⟨by simp [Attempt.step, NodeReader.onLayerNode, hm],
      by simp [Attempt.step, hk]⟩
  | warn text => exact ⟨hm, hk⟩
  | error text => exact ⟨hm, hk⟩
  | node parent kind label =>
    refine ⟨?_, by simp [Attempt.step, hk]⟩
    cases parent with
    | none => simp [Attempt.step, Attempt.parentPtr, NodeReader.onNode, hm]
    | some i =>
      by_cases hi : i < a.known.length
      · have hi2 : i < a2.known.length := hk ▸ hi
        simp [Attempt.step, Attempt.parentPtr, NodeReader.onNode, hm,
          List.getElem?_eq_getElem hi, List.getElem?_eq_getElem hi2]
      · have hi2 : ¬ i < a2.known.length := hk ▸ hi
        simp [Attempt.step, Attempt.parentPtr, NodeReader.onNode, hm,
          List.getElem?_eq_none (not_lt.1 hi), List.getElem?_eq_none (not_lt.1 hi2)]

theorem Attempt.alike_steps (evs : List Event) (a a2 : Attempt) (hs : a.Alike a2) :
    (evs.foldl Attempt.step a).Alike (evs.foldl Attempt.step a2) := by
  induction evs generalizing a a2 with
  | nil => exact hs
  | cons e es ih => exact ih _ _ (Attempt.alike_step a a2 hs e)

/-- The number of roots a run leaves does not depend on the heap or the sink. -/
theorem Grammar.length_m_nodes_run (g : Grammar) (h : Heap) (status : ParserStatus) :
    (g.run h status).reader.m_nodes.length = g.rootCount :=
  (Attempt.alike_steps g.events (Attempt.start h status) (Attempt.start [] []) ⟨rfl, rfl⟩).1

theorem Attempt.head_step (a : Attempt) (e : Event) (L : Nat)
    (he : ∀ l, e ≠ Event.world l) (hL : a.reader.m_nodes.head? = some L) :
    (a.step e).reader.m_nodes.head? = some L := by
  have happ : ∀ x : Nat, (a.reader.m_nodes ++ [x]).head? = some L := by
    intro x
    rw [List.head?_append, hL]
    rfl
  cases e with
  | world label => exact absurd rfl (he label)
  | layer label => exact happ _
  | warn text => exact hL
  | error text => exact hL
  | node parent kind label =>
    show (a.reader.onNode _ (a.parentPtr parent) _).1.m_nodes.head? = some L
    cases a.parentPtr parent with
    | none => exact happ _
    | some p => exact hL

/-- After a run with a world event, the first root is the layer `onWorldNode` made for
the last of them. -/
theorem Attempt.head_steps (evs : List Event) (a : Attempt)
    (hw : ∃ l, Event.world l ∈ evs) :
    ∃ (pre : List Event) (l : String) (post : List Event) (r : NodeRec),
      evs = pre ++ Event.world l :: post ∧
      (evs.foldl Attempt.step a).reader.m_nodes.head? =
        some ((pre.foldl Attempt.step a).reader.onWorldNode
          ((pre.foldl Attempt.step a).heap ++ [NodeRec.fresh NodeKind.world l])
          (pre.foldl Attempt.step a).heap.length).1 ∧
      (evs.foldl Attempt.step a).heap[((pre.foldl Attempt.step a).reader.onWorldNode
          ((pre.foldl Attempt.step a).heap ++ [NodeRec.fresh NodeKind.world l])
          (pre.foldl Attempt.step a).heap.length).1]? = some r ∧
      r.kind = NodeKind.layer ∧ r.label = "" := by
  induction evs using List.reverseRecOn with
  | nil =>
    obtain ⟨l, hl⟩ := hw
    simp at hl
  | append_singleton init e ih =>
    by_cases he : ∃ l, e = Event.world l
    · obtain ⟨l, rfl⟩ := he
      obtain ⟨-, -, ⟨r, hr, hk, hl, -, -⟩, -⟩ :=
        onWorldNode_spec (init.foldl Attempt.step a).reader
          ((init.foldl Attempt.step a).heap ++ [NodeRec.fresh NodeKind.world l])
          (init.foldl Attempt.step a).heap.length
      refine ⟨init, l, [], r, rfl, ?_, ?_, hk, hl⟩
      · rw [List.foldl_append]
        rfl
      · rw [List.foldl_append]
        exact hr
    · have he2 : ∀ l, e ≠ Event.world l := fun l h => he ⟨l, h⟩
      have hw2 : ∃ l, Event.world l ∈ init := by
        obtain ⟨l, hl⟩ := hw
        rcases List.mem_append.1 hl with h1 | h1
        · exact ⟨l, h1⟩
        · exact absurd (List.mem_singleton.1 h1).symm (he2 l)
      obtain ⟨pre, l, post, r, hsplit, hhead, hr, hk, hl⟩ := ih hw2
      obtain ⟨r2, hr2, hk2, hl2, -, -⟩ :=
        ((init.foldl Attempt.step a).grows_step e).get _ r hr
      refine ⟨pre, l, post ++ [e], r2, by simp [hsplit], ?_, ?_, hk2.trans hk, hl2.trans hl⟩
      · rw [List.foldl_append]
        exact Attempt.head_step _ e _ he2 hhead
      · rw [List.foldl_append]
        exact hr2

/-- C7. `onWorldNode` returns a new object (its pointer is not one of the heap it was
given), puts it at the front of the root sequence, which thus grows by one, and the new
object is a layer named "" with no children and no parent; the world node it was handed
is not kept but deleted. And after any sequence of callbacks with a world-entered event
among them, run on any builder, the first root is the layer `onWorldNode` returned for
the last such event, still a layer named "". -/
theorem onWorldNode_prepends_layer (reader : NodeReader) (h : Heap) (worldNode : Nat) :
    h[(reader.onWorldNode h worldNode).1]? = none ∧
    (reader.onWorldNode h worldNode).2.1.m_nodes =
      (reader.onWorldNode h worldNode).1 :: reader.m_nodes ∧
    (reader.onWorldNode h worldNode).2.1.m_nodes.length = reader.m_nodes.length + 1 ∧
    (reader.onWorldNode h worldNode).2.1.m_nodes[0]? = some (reader.onWorldNode h worldNode).1 ∧
    (∃ r : NodeRec, (reader.onWorldNode h worldNode).2.2[(reader.onWorldNode h worldNode).1]? =
        some r ∧ r.kind = NodeKind.layer ∧ r.label = "" ∧ r.children = [] ∧ r.parent = none) ∧
    (∀ rw : NodeRec, h[worldNode]? = some rw →
      worldNode ≠ (reader.onWorldNode h worldNode).1 ∧
      ∃ r2 : NodeRec, (reader.onWorldNode h worldNode).2.2[worldNode]? = some r2 ∧
        r2.alive = false) ∧
    (∀ (a : Attempt) (evs : List Event), (∃ l, Event.world l ∈ evs) →
      ∃ (pre : List Event) (l : String) (post : List Event) (r : NodeRec),
        evs = pre ++ Event.world l :: post ∧
        (evs.foldl Attempt.step a).reader.m_nodes.head? =
          some ((pre.foldl Attempt.step a).reader.onWorldNode
            ((pre.foldl Attempt.step a).heap ++ [NodeRec.fresh NodeKind.world l])
            (pre.foldl Attempt.step a).heap.length).1 ∧
        (evs.foldl Attempt.step a).heap[((pre.foldl Attempt.step a).reader.onWorldNode
            ((pre.foldl Attempt.step a).heap ++ [NodeRec.fresh NodeKind.world l])
            (pre.foldl Attempt.step a).heap.length).1]? = some r ∧
        r.kind = NodeKind.layer ∧ r.label = "") := by
  obtain ⟨h1, h2, h3, h4⟩ := onWorldNode_spec reader h worldNode
  refine ⟨?_, h2, ?_, ?_, h3, fun rw hrw => ⟨?_, h4 rw hrw⟩,
    fun a evs hw => Attempt.head_steps evs a hw⟩
  · rw [h1]
    simp
  · rw [h2]
    simp
  · rw [h2]
    simp
  · rw [h1]
    exact Nat.ne_of_lt (Heap.lt_length_of_get hrw)

/-- The witness for C7: a builder holding one root, a heap of that root and a world node;
and a run of a layer event followed by a world event. -/
theorem onWorldNode_prepends_layer_witness :
    (([NodeRec.fresh NodeKind.brush "b", NodeRec.fresh NodeKind.world "w"] : Heap)[1]? =
        some (NodeRec.fresh NodeKind.world "w") ∧
      ∃ l, Event.world l ∈ [Event.layer "first", Event.world "worldspawn"]) ∧
    (1 ≠ ((NodeReader.mk [0]).onWorldNode
        [NodeRec.fresh NodeKind.brush "b", NodeRec.fresh NodeKind.world "w"] 1).1 ∧
      ∃ r2 : NodeRec, ((NodeReader.mk [0]).onWorldNode
        [NodeRec.fresh NodeKind.brush "b", NodeRec.fresh NodeKind.world "w"] 1).2.2[1]? =
          some r2 ∧ r2.alive = false) ∧
    ∃ (pre : List Event) (l : String) (post : List Event),
      [Event.layer "first", Event.world "worldspawn"] = pre ++ Event.world l :: post := by
  have h := onWorldNode_prepends_layer (NodeReader.mk [0])
    [NodeRec.fresh NodeKind.brush "b", NodeRec.fresh NodeKind.world "w"] 1
  obtain ⟨pre, l, post, -, hsplit, -⟩ := h.2.2.2.2.2.2 (Attempt.start [] [])
    [Event.layer "first", Event.world "worldspawn"] ⟨"worldspawn", by simp⟩
  exact ⟨⟨rfl, "worldspawn", by simp⟩, h.2.2.2.2.2.1 (NodeRec.fresh NodeKind.world "w") rfl,
    pre, l, post, hsplit⟩

/-- The witness for C6: a layer and an entity in the heap, the entity goes under the layer. -/
theorem callbacks_append_or_nest_witness :
    ([NodeRec.fresh NodeKind.layer "", NodeRec.fresh NodeKind.entity "e"] : Heap)[0]? =
      some (NodeRec.fresh NodeKind.layer "") ∧
    ((NodeReader.mk [0]).onNode
        [NodeRec.fresh NodeKind.layer "", NodeRec.fresh NodeKind.entity "e"] (some 0) 1).1 =
      NodeReader.mk [0] ∧
    ∃ r2 : NodeRec, ((NodeReader.mk [0]).onNode
        [NodeRec.fresh NodeKind.layer "", NodeRec.fresh NodeKind.entity "e"] (some 0) 1).2[0]? =
          some r2 ∧ r2.children = (NodeRec.fresh NodeKind.layer "").children ++ [1] :=
  ⟨rfl, (callbacks_append_or_nest (NodeReader.mk [0])
    [NodeRec.fresh NodeKind.layer "", NodeRec.fresh NodeKind.entity "e"] 1).1 0
    (NodeRec.fresh NodeKind.layer "") rfl⟩

/-! ## An entity attempt: a world, then nodes under its layer -/

theorem Heap.delete_leaf (h : Heap) (p : Nat) (r : NodeRec) (hp : h[p]? = some r)
    (hc : r.children = []) :
    h.delete p = h.update p (fun r => { r with alive := false }) := by
  have hlt : p < List.length h := Heap.lt_length_of_get hp
  unfold Heap.delete
  obtain ⟨n, hn⟩ : ∃ n, List.length h = n + 1 := ⟨List.length h - 1, by omega⟩
  rw [hn]
  unfold deleteNode
  simp only [hp, hc, List.foldl_nil]

theorem Attempt.underLayer_world (h : Heap) (status : ParserStatus) (label : String) :
    Attempt.UnderLayer h.length [] ((Attempt.start h status).step (Event.world label)) ∧
      ((Attempt.start h status).step (Event.world label)).status = status := by
  have hw : (h ++ [NodeRec.fresh NodeKind.world label] ++ [NodeRec.fresh NodeKind.layer ""])[
      h.length]? = some (NodeRec.fresh NodeKind.world label) := by
    rw [List.append_assoc, List.getElem?_append_right (le_refl _)]
    simp
  have hheap : ((Attempt.start h status).step (Event.world label)).heap =
      (h ++ [NodeRec.fresh NodeKind.world label] ++ [NodeRec.fresh NodeKind.layer ""]).update
        h.length (fun r => { r with alive := false }) := by
    show Heap.delete _ _ = _
    exact Heap.delete_leaf _ _ _ hw rfl
  refine ⟨⟨?_, ?_, ?_, ?_, ?_⟩, rfl⟩
  · simp [Attempt.step, Attempt.start, NodeReader.onWorldNode]
  · simp [Attempt.step, Attempt.start, NodeReader.onWorldNode]
  · rw [hheap, Heap.length_update]
    simp
  · rw [hheap, Heap.getElem?_update]
    have : (h ++ [NodeRec.fresh NodeKind.world label] ++ [NodeRec.fresh NodeKind.layer ""])[
        h.length + 1]? = some (NodeRec.fresh NodeKind.layer "") := by
      rw [List.getElem?_append_right (by simp)]
      simp
    rw [if_neg (by omega), this]
    rfl
  · intro i e he
    simp at he

theorem Attempt.underLayer_node (b : Nat) (done : List (NodeKind × String)) (a : Attempt)
    (ha : Attempt.UnderLayer b done a) (e : NodeKind × String) :
    Attempt.UnderLayer b (done ++ [e]) (a.step (Event.node (some 0) e.1 e.2)) ∧
      (a.step (Event.node (some 0) e.1 e.2)).status = a.status := by
  have hheap : (a.step (Event.node (some 0) e.1 e.2)).heap =
      addChild (a.heap ++ [NodeRec.fresh e.1 e.2]) (b + 1) a.heap.length := by
    simp [Attempt.step, Attempt.parentPtr, ha.known, NodeReader.onNode]
  have hlen := ha.length
  refine ⟨⟨?_, ?_, ?_, ?_, ?_⟩, rfl⟩
  · simp [Attempt.step, Attempt.parentPtr, ha.known, NodeReader.onNode, ha.roots]
  · have h0 := ha.known
    have hlt : 0 < a.known.length := by
      rcases List.getElem?_eq_some.1 h0 with ⟨hh, -⟩
      exact hh
    show (a.known ++ [_])[0]? = _
    rw [List.getElem?_append_left hlt]
    exact h0
  · rw [hheap, length_addChild]
    simp [hlen]
    omega
  · rw [hheap, getElem?_addChild, getElem?_append_old ha.layer]
    have hne : ¬ b + 2 + done.length = b + 1 := by omega
    simp [hne, List.range'_concat, hlen]
  · intro i x hx
    rw [hheap, getElem?_addChild]
    by_cases hi : i < done.length
    · rw [List.getElem?_append_left hi] at hx
      rw [getElem?_append_old (ha.child i x hx)]
      have h1 : ¬ b + 1 = b + 2 + i := by omega
      have h2 : ¬ List.length a.heap = b + 2 + i := by omega
      simp [h1, h2]
    · have hi2 : i = done.length := by
        by_contra hne
        have : done.length + 1 ≤ i := by omega
        rw [List.getElem?_eq_none (by simp; omega)] at hx
        exact absurd hx (by simp)
      subst hi2
      rw [List.getElem?_append_right (le_refl _)] at hx
      simp at hx
      subst hx
      have h3 : (a.heap ++ [NodeRec.fresh e.1 e.2])[b + 2 + done.length]? =
          some (NodeRec.fresh e.1 e.2) := by
        rw [← hlen, List.getElem?_append_right (le_refl _)]
        simp
      have h1 : ¬ b + 1 = b + 2 + done.length := by omega
      simp [h3, h1, hlen, NodeRec.fresh]

theorem Attempt.underLayer_nodes (b : Nat) (todo done : List (NodeKind × String))
    (a : Attempt) (ha : Attempt.UnderLayer b done a) :
    Attempt.UnderLayer b (done ++ todo)
        ((todo.map (fun e => Event.node (some 0) e.1 e.2)).foldl Attempt.step a) ∧
      ((todo.map (fun e => Event.node (some 0) e.1 e.2)).foldl Attempt.step a).status =
        a.status := by
  induction todo generalizing done a with
  | nil => simpa using ha
  | cons e es ih =>
    obtain ⟨h1, h2⟩ := Attempt.underLayer_node b done a ha e
    obtain ⟨h3, h4⟩ := ih (done ++ [e]) _ h1
    rw [List.map_cons, List.foldl_cons]
    refine ⟨?_, h4.trans h2⟩
    simpa using h3

/-! ## Failed attempts are cleaned up -/

theorem Heap.Grows.dead {h1 h2 : Heap} (hg : Heap.Grows h1 h2) (p : Nat)
    (hp : ∃ r : NodeRec, h1[p]? = some r ∧ r.alive = false) :
    ∃ r2 : NodeRec, h2[p]? = some r2 ∧ r2.alive = false := by
  obtain ⟨r, hr, ha⟩ := hp
  obtain ⟨r2, hr2, -, -, -, ha2⟩ := hg.get p r hr
  refine ⟨r2, hr2, ?_⟩
  cases h : r2.alive with
  | false => rfl
  | true => rw [ha2 h] at ha; exact absurd ha (by simp)

theorem length_vec_clear_and_delete (reader : NodeReader) (h : Heap) :
    (vec_clear_and_delete reader h).2.length = h.length :=
  (fades_foldl _ Heap.fades_delete reader.m_nodes h).length_eq

/-- Cleanup by `vec_clear_and_delete` deletes every root that is an object. -/
theorem dead_vec_clear_and_delete (reader : NodeReader) (h : Heap) (p : Nat)
    (hp : p ∈ reader.m_nodes) (hlt : p < h.length) :
    ∃ r : NodeRec, (vec_clear_and_delete reader h).2[p]? = some r ∧ r.alive = false := by
  unfold vec_clear_and_delete
  simp only
  generalize reader.m_nodes = l at hp
  induction l generalizing h with
  | nil => simp at hp
  | cons x xs ih =>
    rw [List.foldl_cons]
    rcases List.mem_cons.1 hp with h1 | h1
    · subst h1
      obtain ⟨r, hr⟩ : ∃ r : NodeRec, h[p]? = some r :=
        ⟨h[p], List.getElem?_eq_getElem hlt⟩
      exact (grows_foldl _ Heap.grows_delete xs _).dead p (Heap.delete_dead h p r hr)
    · exact ih (h.delete x) (by rw [(Heap.fades_delete h x).length_eq]; exact hlt) h1

/-- The roots a builder holds during a run that started on the heap `h0` are objects
made during the run. -/
theorem Attempt.roots_steps (evs : List Event) (a : Attempt) (base : Nat)
    (hb : base ≤ a.heap.length)
    (ha : ∀ p ∈ a.reader.m_nodes, base ≤ p ∧ p < a.heap.length) :
    ∀ p ∈ (evs.foldl Attempt.step a).reader.m_nodes,
      base ≤ p ∧ p < (evs.foldl Attempt.step a).heap.length := by
  induction evs generalizing a with
  | nil => exact ha
  | cons e es ih =>
    rw [List.foldl_cons]
    have hlen := (a.grows_step e).length_le
    refine ih (a.step e) (le_trans hb hlen) ?_
    have hold : ∀ p ∈ a.reader.m_nodes, base ≤ p ∧ p < (a.step e).heap.length :=
      fun p hp => ⟨(ha p hp).1, lt_of_lt_of_le (ha p hp).2 hlen⟩
    have hnew : ∀ (l : NodeRec), (a.step e).heap.length = (a.heap ++ [l]).length →
        ∀ p ∈ a.reader.m_nodes ++ [a.heap.length], base ≤ p ∧ p < (a.step e).heap.length := by
      intro l hl p hp
      rcases List.mem_append.1 hp with h1 | h1
      · exact hold p h1
      · rw [List.mem_singleton.1 h1, hl]
        simp
        exact hb
    cases e with
    | warn text => exact ha
    | error text => exact ha
    | layer label => exact hnew _ rfl
    | world label =>
      intro p hp
      have hl : (a.step (Event.world label)).heap.length = a.heap.length + 2 := by
        show (Heap.delete _ _).length = _
        rw [(Heap.fades_delete _ _).length_eq]
        simp
      rcases List.mem_cons.1 hp with h1 | h1
      · have : p = a.heap.length + 1 := by rw [h1]; simp
        omega
      · exact hold p h1
    | node parent kind label =>
      cases hpp : a.parentPtr parent with
      | none =>
        have hs : (a.step (Event.node parent kind label)).reader.m_nodes =
            a.reader.m_nodes ++ [a.heap.length] := by
          simp [Attempt.step, hpp, NodeReader.onNode]
        have hh : (a.step (Event.node parent kind label)).heap =
            a.heap ++ [NodeRec.fresh kind label] := by
          simp [Attempt.step, hpp, NodeReader.onNode]
        rw [hs]
        exact hnew _ (by rw [hh])
      | some q =>
        have hs : (a.step (Event.node parent kind label)).reader.m_nodes =
            a.reader.m_nodes := by
          simp [Attempt.step, hpp, NodeReader.onNode]
        rw [hs]
        exact hold

theorem Grammar.roots_run (g : Grammar) (h : Heap) (status : ParserStatus) :
    ∀ p ∈ (g.run h status).reader.m_nodes, h.length ≤ p ∧ p < (g.run h status).heap.length :=
  Attempt.roots_steps g.events (Attempt.start h status) h.length (le_refl _)
    (fun p hp => by simp [Attempt.start] at hp)

/-! ## Deleting a node deletes its subtree -/

theorem Heap.Grows.reaches {h1 h2 : Heap} (hg : Heap.Grows h1 h2) {p t : Nat}
    (hr : h1.Reaches p t) : h2.Reaches p t := by
  induction hr with
  | self p r hp =>
    obtain ⟨r2, hr2, -⟩ := hg.get p r hp
    exact Heap.Reaches.self p r2 hr2
  | child p r q t hp hq _ ih =>
    obtain ⟨r2, hr2, -, -, hc, -⟩ := hg.get p r hp
    exact Heap.Reaches.child p r2 q t hr2 (hc.subset hq) ih

theorem Heap.Reaches.trans {h : Heap} {p k t : Nat} (h1 : h.Reaches p k)
    (h2 : h.Reaches k t) : h.Reaches p t := by
  induction h1 with
  | self p r hp => exact h2
  | child p r q _ hp hq _ ih => exact Heap.Reaches.child p r q t hp hq (ih h2)

theorem Heap.Reaches.lt_length {h : Heap} {p t : Nat} (hr : h.Reaches p t) :
    t < List.length h := by
  induction hr with
  | self p r hp => exact Heap.lt_length_of_get hp
  | child p r q t hp hq _ ih => exact ih

theorem Heap.Fades.forwardFrom {h1 h2 : Heap} (hf : Heap.Fades h1 h2) {b : Nat}
    (hw : h1.ForwardFrom b) : h2.ForwardFrom b := by
  intro p r2 hb hr2 q hq
  have hlt : p < List.length h1 := hf.length_eq ▸ Heap.lt_length_of_get hr2
  obtain ⟨r3, hr3, hs, -⟩ := hf.get p h1[p] (List.getElem?_eq_getElem hlt)
  rw [hr2] at hr3
  have hr : r2 = r3 := Option.some.inj hr3
  have hc : r3.children = (h1[p]).children := congrArg (fun s => s.2.2.1) hs
  rw [hr, hc] at hq
  have := hw p h1[p] hb (List.getElem?_eq_getElem hlt) q hq
  rw [hf.length_eq]
  exact this

theorem Heap.Fades.stays_dead {h1 h2 : Heap} (hf : Heap.Fades h1 h2) (p : Nat)
    (hp : ∃ r : NodeRec, h1[p]? = some r ∧ r.alive = false) :
    ∃ r2 : NodeRec, h2[p]? = some r2 ∧ r2.alive = false :=
  hf.grows.dead p hp

/-- With children allocated after their parent, fuel for the objects from `p` on is
enough: `deleteNode` deletes `p` and everything under it. -/
theorem deleteNode_subtree (fuel : Nat) (b : Nat) (h : Heap) (p : Nat)
    (hw : h.ForwardFrom b) (hb : b ≤ p) (hfuel : h.length ≤ p + fuel) (t : Nat)
    (ht : h.Reaches p t) :
    ∃ r : NodeRec, (deleteNode fuel h p)[t]? = some r ∧ r.alive = false := by
  induction fuel generalizing h p t with
  | zero =>
    cases ht with
    | self _ r hp => have := Heap.lt_length_of_get hp; omega
    | child _ r q _ hp _ _ => have := Heap.lt_length_of_get hp; omega
  | succ n ih =>
    have hchildren : ∀ (l : List Nat) (g : Heap), Heap.Fades h g →
        (∀ q ∈ l, p < q) → ∀ q ∈ l, ∀ s, h.Reaches q s →
        ∃ r : NodeRec, (l.foldl (deleteNode n) g)[s]? = some r ∧ r.alive = false := by
      intro l
      induction l with
      | nil => intro g _ _ q hq; simp at hq
      | cons x xs ihl =>
        intro g hg hlt q hq s hs
        rw [List.foldl_cons]
        rcases List.mem_cons.1 hq with h1 | h1
        · subst h1
          have hx := hlt q (List.mem_cons_self _ _)
          have hd := ih g q (hg.forwardFrom hw) (by omega) (by rw [hg.length_eq]; omega) s
            (hg.grows.reaches hs)
          exact (fades_foldl _ (fun h x => fades_deleteNode n h x) xs _).stays_dead s hd
        · exact ihl (deleteNode n g x) (Heap.fades_trans hg (fades_deleteNode n g x))
            (fun y hy => hlt y (List.mem_cons_of_mem _ hy)) q h1 s hs
    have hroot : ∃ r : NodeRec, h[p]? = some r := by
      cases ht with
      | self _ r hp => exact ⟨r, hp⟩
      | child _ r q _ hp _ _ => exact ⟨r, hp⟩
    obtain ⟨r, hr⟩ := hroot
    unfold deleteNode
    simp only [hr]
    have hff := fades_foldl _ (fun h x => fades_deleteNode n h x) r.children h
    cases ht with
    | self _ r0 hp =>
      obtain ⟨r2, hr2, -, -⟩ := hff.get p r hr
      refine ⟨{ r2 with alive := false }, ?_, rfl⟩
      rw [Heap.getElem?_update]
      simp [hr2]
    | child _ r0 q _ hp hq hqt =>
      rw [hr] at hp
      have hrr : r = r0 := Option.some.inj hp
      subst hrr
      have hd := hchildren r.children h (Heap.fades_refl h)
        (fun y hy => (hw p r hb hr y hy).1) q hq t hqt
      exact (Heap.fades_update_alive _ p).stays_dead t hd

/-- The operator `delete p` deletes the whole subtree of `p`. -/
theorem Heap.delete_subtree (b : Nat) (h : Heap) (p : Nat) (hw : h.ForwardFrom b)
    (hb : b ≤ p) (t : Nat) (ht : h.Reaches p t) :
    ∃ r : NodeRec, (h.delete p)[t]? = some r ∧ r.alive = false :=
  deleteNode_subtree h.length b h p hw hb (by omega) t ht

/-- Cleanup by `vec_clear_and_delete` deletes everything under the roots. -/
theorem dead_subtree_vec_clear_and_delete (b : Nat) (reader : NodeReader) (h : Heap)
    (hw : h.ForwardFrom b) (hroots : ∀ p ∈ reader.m_nodes, b ≤ p) (p : Nat)
    (hp : p ∈ reader.m_nodes) (t : Nat) (ht : h.Reaches p t) :
    ∃ r : NodeRec, (vec_clear_and_delete reader h).2[t]? = some r ∧ r.alive = false := by
  unfold vec_clear_and_delete
  simp only
  generalize reader.m_nodes = l at hp hroots
  induction l generalizing h with
  | nil => simp at hp
  | cons x xs ih =>
    rw [List.foldl_cons]
    rcases List.mem_cons.1 hp with h1 | h1
    · subst h1
      exact (fades_foldl _ Heap.fades_delete xs _).stays_dead t
        (Heap.delete_subtree b h p hw (hroots p (List.mem_cons_self _ _)) t ht)
    · exact ih (h.delete x) ((Heap.fades_delete h x).forwardFrom hw)
        ((Heap.fades_delete h x).grows.reaches ht) h1
        (fun y hy => hroots y (List.mem_cons_of_mem _ hy))

theorem Heap.forwardFrom_append_fresh {b : Nat} {h : Heap} (hw : h.ForwardFrom b)
    (kind : NodeKind) (label : String) :
    Heap.ForwardFrom b (h ++ [NodeRec.fresh kind label]) := by
  intro p r hb hr q hq
  by_cases hp : p < List.length h
  · rw [List.getElem?_append_left hp] at hr
    have := hw p r hb hr q hq
    simp only [List.length_append, List.length_singleton]
    omega
  · have hlt := Heap.lt_length_of_get hr
    simp only [List.length_append, List.length_singleton] at hlt
    have hpe : p = List.length h := by omega
    subst hpe
    rw [List.getElem?_append_right (le_refl _)] at hr
    simp at hr
    rw [← hr] at hq
    simp [NodeRec.fresh] at hq

theorem Heap.forwardFrom_addChild {b : Nat} {h : Heap} (hw : h.ForwardFrom b) (k n : Nat)
    (hkn : k < n) (hn : n < List.length h) : Heap.ForwardFrom b (addChild h k n) := by
  intro p r hb hr q hq
  rw [length_addChild]
  rw [getElem?_addChild] at hr
  cases hp : h[p]? with
  | none => rw [hp] at hr; simp at hr
  | some r0 =>
    rw [hp] at hr
    simp only [Option.map_some', Option.some.injEq] at hr
    have hold := hw p r0 hb hp
    by_cases hk : k = p
    · have hc : r.children = r0.children ++ [n] := by
        rw [← hr]
        by_cases hnp : n = p <;> simp [hk, hnp]
      rw [hc] at hq
      rcases List.mem_append.1 hq with h1 | h1
      · exact hold q h1
      · have : q = n := by simpa using h1
        omega
    · have hc : r.children = r0.children := by
        rw [← hr]
        by_cases hnp : n = p <;> simp [hk, hnp]
      rw [hc] at hq
      exact hold q hq

theorem Attempt.owned_start (h : Heap) (status : ParserStatus) :
    Attempt.Owned h.length (Attempt.start h status) := by
  refine ⟨le_refl _, ?_, ?_, ?_, ?_⟩
  · intro p r hb hr
    have := Heap.lt_length_of_get hr
    exact absurd hb (by simp only [Attempt.start] at this ⊢; omega)
  · intro p hp
    simp [Attempt.start] at hp
  · intro k hk
    simp [Attempt.start] at hk
  · intro i hb hi
    simp only [Attempt.start] at hi
    omega

/-- A node handed over as a root keeps the invariant. -/
theorem Attempt.owned_push_root {b : Nat} {a a2 : Attempt} (ha : a.Owned b)
    (kind : NodeKind) (label : String)
    (hm : a2.reader.m_nodes = a.reader.m_nodes ++ [a.heap.length])
    (hk : a2.known = a.known ++ [a.heap.length])
    (hh : a2.heap = a.heap ++ [NodeRec.fresh kind label]) : a2.Owned b := by
  have hgrow : Heap.Grows a.heap a2.heap := by rw [hh]; exact Heap.grows_append _ _
  have hnew : a2.heap.Reaches a.heap.length a.heap.length :=
    Heap.Reaches.self _ (NodeRec.fresh kind label) (by rw [hh]; simp)
  have hmem : a.heap.length ∈ a2.reader.m_nodes := by rw [hm]; simp
  have hold : ∀ p ∈ a.reader.m_nodes, p ∈ a2.reader.m_nodes := by
    intro p hp; rw [hm]; exact List.mem_append_left _ hp
  refine ⟨?_, ?_, ?_, ?_, ?_⟩
  · rw [hh]; simp only [List.length_append, List.length_singleton]
    have := ha.base_le; omega
  · rw [hh]; exact Heap.forwardFrom_append_fresh ha.forward kind label
  · intro p hp
    rw [hm] at hp
    rcases List.mem_append.1 hp with h1 | h1
    · exact ⟨(ha.roots p h1).1, hgrow.reaches (ha.roots p h1).2⟩
    · have : p = a.heap.length := by simpa using h1
      subst this
      exact ⟨ha.base_le, hnew⟩
  · intro k hk2
    rw [hk] at hk2
    rcases List.mem_append.1 hk2 with h1 | h1
    · obtain ⟨h2, p, hp, hr⟩ := ha.known k h1
      exact ⟨h2, p, hold p hp, hgrow.reaches hr⟩
    · have : k = a.heap.length := by simpa using h1
      subst this
      exact ⟨ha.base_le, _, hmem, hnew⟩
  · intro i hb hi
    rw [hh] at hi
    simp only [List.length_append, List.length_singleton] at hi
    by_cases hlt : i < List.length a.heap
    · rcases ha.all i hb hlt with h1 | ⟨p, hp, hr⟩
      · exact Or.inl (hgrow.dead i h1)
      · exact Or.inr ⟨p, hold p hp, hgrow.reaches hr⟩
    · have : i = a.heap.length := by omega
      subst this
      exact Or.inr ⟨_, hmem, hnew⟩

theorem Attempt.owned_step {b : Nat} (a : Attempt) (ha : a.Owned b) (e : Event) :
    (a.step e).Owned b := by
  cases e with
  | warn text => exact ⟨ha.base_le, ha.forward, ha.roots, ha.known, ha.all⟩
  | error text => exact ⟨ha.base_le, ha.forward, ha.roots, ha.known, ha.all⟩
  | layer label =>
    exact Attempt.owned_push_root ha NodeKind.layer label rfl rfl rfl
  | world label =>
    have hm : (a.step (Event.world label)).reader.m_nodes =
        (a.heap.length + 1) :: a.reader.m_nodes := by
      simp [Attempt.step, NodeReader.onWorldNode]
    have hk : (a.step (Event.world label)).known = a.known ++ [a.heap.length + 1] := by
      simp [Attempt.step, NodeReader.onWorldNode]
    have hh : (a.step (Event.world label)).heap =
        Heap.delete (a.heap ++ [NodeRec.fresh NodeKind.world label] ++
          [NodeRec.fresh NodeKind.layer ""]) a.heap.length := rfl
    have hfade := Heap.fades_delete (a.heap ++ [NodeRec.fresh NodeKind.world label] ++
      [NodeRec.fresh NodeKind.layer ""]) a.heap.length
    rw [← hh] at hfade
    have hgrow := a.grows_step (Event.world label)
    have hlen : (a.step (Event.world label)).heap.length = a.heap.length + 2 := by
      rw [hfade.length_eq]; simp
    have hL : (a.step (Event.world label)).heap.Reaches (a.heap.length + 1)
        (a.heap.length + 1) := by
      obtain ⟨r2, hr2, -⟩ := hfade.get (a.heap.length + 1) (NodeRec.fresh NodeKind.layer "")
        (by rw [List.getElem?_append_right (by simp)]; simp)
      exact Heap.Reaches.self _ r2 hr2
    have hmem : a.heap.length + 1 ∈ (a.step (Event.world label)).reader.m_nodes := by
      rw [hm]; simp
    have hold : ∀ p ∈ a.reader.m_nodes, p ∈ (a.step (Event.world label)).reader.m_nodes := by
      intro p hp; rw [hm]; exact List.mem_cons_of_mem _ hp
    refine ⟨?_, ?_, ?_, ?_, ?_⟩
    · have := ha.base_le; omega
    · exact hfade.forwardFrom (Heap.forwardFrom_append_fresh
        (Heap.forwardFrom_append_fresh ha.forward _ _) _ _)
    · intro p hp
      rw [hm] at hp
      rcases List.mem_cons.1 hp with h1 | h1
      · subst h1
        have := ha.base_le
        exact ⟨by omega, hL⟩
      · exact ⟨(ha.roots p h1).1, hgrow.reaches (ha.roots p h1).2⟩
    · intro k hk2
      rw [hk] at hk2
      rcases List.mem_append.1 hk2 with h1 | h1
      · obtain ⟨h2, p, hp, hr⟩ := ha.known k h1
        exact ⟨h2, p, hold p hp, hgrow.reaches hr⟩
      · have : k = a.heap.length + 1 := by simpa using h1
        subst this
        have := ha.base_le
        exact ⟨by omega, _, hmem, hL⟩
    · intro i hb hi
      rw [hlen] at hi
      by_cases hlt : i < List.length a.heap
      · rcases ha.all i hb hlt with h1 | ⟨p, hp, hr⟩
        · exact Or.inl (hgrow.dead i h1)
        · exact Or.inr ⟨p, hold p hp, hgrow.reaches hr⟩
      · by_cases hw : i = a.heap.length
        · subst hw
          refine Or.inl ?_
          rw [hh]
          exact Heap.delete_dead _ _ (NodeRec.fresh NodeKind.world label)
            (by rw [List.append_assoc, List.getElem?_append_right (le_refl _)]; simp)
        · have : i = a.heap.length + 1 := by omega
          subst this
          exact Or.inr ⟨_, hmem, hL⟩
  | node parent kind label =>
    cases hpp : a.parentPtr parent with
    | none =>
      refine Attempt.owned_push_root ha kind label ?_ rfl ?_
      · simp [Attempt.step, hpp, NodeReader.onNode]
      · simp [Attempt.step, hpp, NodeReader.onNode]
    | some k =>
      have hkmem : k ∈ a.known := by
        cases parent with
        | none => simp [Attempt.parentPtr] at hpp
        | some i =>
          simp only [Attempt.parentPtr] at hpp
          exact List.getElem?_mem hpp
      obtain ⟨hbk, p0, hp0, hr0⟩ := ha.known k hkmem
      have hklt : k < List.length a.heap := hr0.lt_length
      have hm : (a.step (Event.node parent kind label)).reader.m_nodes = a.reader.m_nodes := by
        simp [Attempt.step, hpp, NodeReader.onNode]
      have hk : (a.step (Event.node parent kind label)).known =
          a.known ++ [a.heap.length] := rfl
      have hh : (a.step (Event.node parent kind label)).heap =
          addChild (a.heap ++ [NodeRec.fresh kind label]) k a.heap.length := by
        simp [Attempt.step, hpp, NodeReader.onNode]
      have hgrow := a.grows_step (Event.node parent kind label)
      have hlen : (a.step (Event.node parent kind label)).heap.length =
          a.heap.length + 1 := by
        rw [hh, length_addChild]; simp
      obtain ⟨rk, hrk⟩ : ∃ r : NodeRec, a.heap[k]? = some r :=
        ⟨a.heap[k], List.getElem?_eq_getElem hklt⟩
      have hne : ¬ List.length a.heap = k := by omega
      have hkn : (a.step (Event.node parent kind label)).heap.Reaches k a.heap.length := by
        have h1 : (a.step (Event.node parent kind label)).heap[k]? =
            some { rk with children := rk.children ++ [a.heap.length] } := by
          rw [hh, getElem?_addChild, getElem?_append_old hrk]
          simp [hne]
        have h2 : ∃ rn : NodeRec,
            (a.step (Event.node parent kind label)).heap[a.heap.length]? = some rn := by
          rw [hh, getElem?_addChild, List.getElem?_append_right (le_refl _)]
          simp
        obtain ⟨rn, hrn⟩ := h2
        exact Heap.Reaches.child k _ a.heap.length a.heap.length h1 (by simp)
          (Heap.Reaches.self _ rn hrn)
      refine ⟨?_, ?_, ?_, ?_, ?_⟩
      · have := ha.base_le; omega
      · rw [hh]
        exact Heap.forwardFrom_addChild (Heap.forwardFrom_append_fresh ha.forward _ _) k _
          hklt (by simp)
      · intro p hp
        rw [hm] at hp
        exact ⟨(ha.roots p hp).1, hgrow.reaches (ha.roots p hp).2⟩
      · intro k2 hk2
        rw [hk] at hk2
        rcases List.mem_append.1 hk2 with h1 | h1
        · obtain ⟨h2, p, hp, hr⟩ := ha.known k2 h1
          exact ⟨h2, p, by rw [hm]; exact hp, hgrow.reaches hr⟩
        · have : k2 = a.heap.length := by simpa using h1
          subst this
          exact ⟨ha.base_le, p0, by rw [hm]; exact hp0, (hgrow.reaches hr0).trans hkn⟩
      · intro i hb hi
        rw [hlen] at hi
        by_cases hlt : i < List.length a.heap
        · rcases ha.all i hb hlt with h1 | ⟨p, hp, hr⟩
          · exact Or.inl (hgrow.dead i h1)
          · exact Or.inr ⟨p, by rw [hm]; exact hp, hgrow.reaches hr⟩
        · have : i = a.heap.length := by omega
          subst this
          exact Or.inr ⟨p0, by rw [hm]; exact hp0, (hgrow.reaches hr0).trans hkn⟩

theorem Attempt.owned_steps {b : Nat} (evs : List Event) (a : Attempt) (ha : a.Owned b) :
    (evs.foldl Attempt.step a).Owned b := by
  induction evs generalizing a with
  | nil => exact ha
  | cons e es ih => exact ih (a.step e) (a.owned_step ha e)

theorem Grammar.owned_run (g : Grammar) (h : Heap) (status : ParserStatus) :
    (g.run h status).Owned h.length :=
  Attempt.owned_steps g.events _ (Attempt.owned_start h status)

/-- Cleanup after a parser run deletes every object made during the run. -/
theorem Grammar.dead_after_cleanup (g : Grammar) (h : Heap) (status : ParserStatus)
    (i : Nat) (hb : h.length ≤ i) (hi : i < (g.run h status).heap.length) :
    ∃ r : NodeRec, (vec_clear_and_delete (g.run h status).reader
      (g.run h status).heap).2[i]? = some r ∧ r.alive = false := by
  have ho := g.owned_run h status
  rcases ho.all i hb hi with h1 | ⟨p, hp, hr⟩
  · exact (grows_vec_clear_and_delete _ _).dead i h1
  · exact dead_subtree_vec_clear_and_delete h.length _ _ ho.forward
      (fun q hq => (ho.roots q hq).1) p hp i hr

/-! ## `readAsFormat`, case by case -/

section ReadAsFormat

variable {MapFormat Bounds Config : Type}

/-- The entity interpretation raises no parse error. -/
theorem NodeReader.readAsFormat_entities (C : Collaborators MapFormat Bounds Config)
    (f pf : MapFormat) (str : String) (b : Bounds) (c : Config) (w : World)
    (hE : (C.readEntities str f pf c b).error = none) :
    NodeReader.readAsFormat C f pf str b c w =
      (((C.readEntities str f pf c b).run w.heap w.status).reader.m_nodes,
        { heap := ((C.readEntities str f pf c b).run w.heap w.status).heap
          status := w.status ++ (C.readEntities str f pf c b).messages ++
            [NodeReader.entitiesParsed C f] }) := by
  unfold NodeReader.readAsFormat
  simp only [hE, Grammar.status_run, ParserStatus.info, NodeReader.entitiesParsed]

/-- The entity interpretation raises a parse error, the brush interpretation none. -/
theorem NodeReader.readAsFormat_brushes (C : Collaborators MapFormat Bounds Config)
    (f pf : MapFormat) (str : String) (b : Bounds) (c : Config) (w : World) (e : String)
    (hE : (C.readEntities str f pf c b).error = some e)
    (hB : (C.readBrushes str f pf c b).error = none) :
    ∃ a : Attempt,
      a = (C.readBrushes str f pf c b).run
        (vec_clear_and_delete ((C.readEntities str f pf c b).run w.heap w.status).reader
          ((C.readEntities str f pf c b).run w.heap w.status).heap).2
        (w.status ++ (C.readEntities str f pf c b).messages ++
          [NodeReader.entitiesFailed C f e]) ∧
      NodeReader.readAsFormat C f pf str b c w =
        (a.reader.m_nodes,
          { heap := a.heap
            status := w.status ++ (C.readEntities str f pf c b).messages ++
              [NodeReader.entitiesFailed C f e] ++ (C.readBrushes str f pf c b).messages ++
              [NodeReader.brushesParsed C f] }) := by
  refine ⟨_, rfl, ?_⟩
  unfold NodeReader.readAsFormat
  simp only [hE, hB, Grammar.status_run, ParserStatus.info, NodeReader.entitiesFailed,
    NodeReader.brushesParsed]

/-- Both interpretations raise a parse error. -/
theorem NodeReader.readAsFormat_failed (C : Collaborators MapFormat Bounds Config)
    (f pf : MapFormat) (str : String) (b : Bounds) (c : Config) (w : World) (e e2 : String)
    (hE : (C.readEntities str f pf c b).error = some e)
    (hB : (C.readBrushes str f pf c b).error = some e2) :
    (NodeReader.readAsFormat C f pf str b c w).1 = [] ∧
      (NodeReader.readAsFormat C f pf str b c w).2.status =
        w.status ++ ((C.readEntities str f pf c b).messages ++
          [NodeReader.entitiesFailed C f e] ++ (C.readBrushes str f pf c b).messages ++
          [NodeReader.brushesFailed C f e2]) := by
  unfold NodeReader.readAsFormat
  simp only [hE, hB, Grammar.status_run, ParserStatus.info, NodeReader.entitiesFailed,
    NodeReader.brushesFailed, List.append_assoc, and_self]

/-- Both interpretations raise a parse error: the world `readAsFormat` leaves. -/
theorem NodeReader.readAsFormat_failed_eq (C : Collaborators MapFormat Bounds Config)
    (f pf : MapFormat) (str : String) (b : Bounds) (c : Config) (w : World) (e e2 : String)
    (hE : (C.readEntities str f pf c b).error = some e)
    (hB : (C.readBrushes str f pf c b).error = some e2) :
    ∃ a : Attempt,
      a = (C.readBrushes str f pf c b).run
        (vec_clear_and_delete ((C.readEntities str f pf c b).run w.heap w.status).reader
          ((C.readEntities str f pf c b).run w.heap w.status).heap).2
        (w.status ++ (C.readEntities str f pf c b).messages ++
          [NodeReader.entitiesFailed C f e]) ∧
      NodeReader.readAsFormat C f pf str b c w =
        ([],
          { heap := (vec_clear_and_delete a.reader a.heap).2
            status := w.status ++ (C.readEntities str f pf c b).messages ++
              [NodeReader.entitiesFailed C f e] ++ (C.readBrushes str f pf c b).messages ++
              [NodeReader.brushesFailed C f e2] }) := by
  refine ⟨_, rfl, ?_⟩
  unfold NodeReader.readAsFormat
  simp only [hE, hB, Grammar.status_run, ParserStatus.info, NodeReader.entitiesFailed,
    NodeReader.brushesFailed]

/-- Every node `readAsFormat` returns was made during the call, and after the entity
attempt if that one raised a parse error. -/
theorem NodeReader.readAsFormat_result_new (C : Collaborators MapFormat Bounds Config)
    (f pf : MapFormat) (str : String) (b : Bounds) (c : Config) (w : World) :
    ∀ p ∈ (NodeReader.readAsFormat C f pf str b c w).1,
      w.heap.length ≤ p ∧
      ∀ e : String, (C.readEntities str f pf c b).error = some e →
        ((C.readEntities str f pf c b).run w.heap w.status).heap.length ≤ p := by
  intro p hp
  cases hE : (C.readEntities str f pf c b).error with
  | none =>
    rw [NodeReader.readAsFormat_entities C f pf str b c w hE] at hp
    exact ⟨(Grammar.roots_run _ _ _ p hp).1, fun e he => by simp at he⟩
  | some e =>
    have hgrow := (Grammar.grows_run (C.readEntities str f pf c b) w.heap w.status).length_le
    cases hB : (C.readBrushes str f pf c b).error with
    | none =>
      obtain ⟨a, ha, hr⟩ := NodeReader.readAsFormat_brushes C f pf str b c w e hE hB
      rw [hr, ha] at hp
      have h1 := (Grammar.roots_run _ _ _ p hp).1
      rw [length_vec_clear_and_delete] at h1
      exact ⟨le_trans hgrow h1, fun _ _ => h1⟩
    | some e2 =>
      rw [(NodeReader.readAsFormat_failed C f pf str b c w e e2 hE hB).1] at hp
      simp at hp

theorem filter_error_info (text : String) :
    [Message.mk Level.info text].filter (fun m => m.level = Level.error) = [] := by
  simp

/-- Whatever happens, the error-level messages `readAsFormat` adds to the sink are those
the parser wrote during its runs: `readAsFormat` itself writes info messages only. -/
theorem NodeReader.readAsFormat_status (C : Collaborators MapFormat Bounds Config)
    (f pf : MapFormat) (str : String) (b : Bounds) (c : Config) (w : World) :
    ∃ d : List Message, (NodeReader.readAsFormat C f pf str b c w).2.status = w.status ++ d ∧
      d.filter (fun m => m.level = Level.error) = NodeReader.formatErrors C str pf b c f := by
  cases hE : (C.readEntities str f pf c b).error with
  | none =>
    refine ⟨(C.readEntities str f pf c b).messages ++ [NodeReader.entitiesParsed C f], ?_, ?_⟩
    · rw [NodeReader.readAsFormat_entities C f pf str b c w hE, List.append_assoc]
    · rw [List.filter_append, Grammar.filter_error_messages]
      simp [NodeReader.formatErrors, hE, NodeReader.entitiesParsed]
  | some e =>
    have hfe : NodeReader.formatErrors C str pf b c f =
        (C.readEntities str f pf c b).errors ++ (C.readBrushes str f pf c b).errors := by
      simp [NodeReader.formatErrors, hE]
    cases hB : (C.readBrushes str f pf c b).error with
    | none =>
      obtain ⟨a, -, ha⟩ := NodeReader.readAsFormat_brushes C f pf str b c w e hE hB
      refine ⟨(C.readEntities str f pf c b).messages ++ [NodeReader.entitiesFailed C f e] ++
        (C.readBrushes str f pf c b).messages ++ [NodeReader.brushesParsed C f], ?_, ?_⟩
      · rw [ha]
        simp only [List.append_assoc]
      · rw [hfe]
        simp only [List.filter_append, Grammar.filter_error_messages, NodeReader.entitiesFailed,
          NodeReader.brushesParsed, filter_error_info, List.append_nil]
    | some e2 =>
      refine ⟨_, (NodeReader.readAsFormat_failed C f pf str b c w e e2 hE hB).2, ?_⟩
      rw [hfe]
      simp only [List.filter_append, Grammar.filter_error_messages, NodeReader.entitiesFailed,
        NodeReader.brushesFailed, filter_error_info, List.append_nil]

theorem NodeReader.afterFormats_status (C : Collaborators MapFormat Bounds Config)
    (str : String) (pf : MapFormat) (b : Bounds) (c : Config) (fmts : List MapFormat)
    (w : World) :
    ∃ d : List Message, (NodeReader.afterFormats C str pf b c fmts w).status = w.status ++ d ∧
      d.filter (fun m => m.level = Level.error) =
        fmts.flatMap (NodeReader.formatErrors C str pf b c) := by
  induction fmts generalizing w with
  | nil => exact ⟨[], by simp [NodeReader.afterFormats], by simp⟩
  | cons f fs ih =>
    obtain ⟨d1, hd1, hl1⟩ := NodeReader.readAsFormat_status C f pf str b c w
    obtain ⟨d2, hd2, hl2⟩ := ih (NodeReader.readAsFormat C f pf str b c w).2
    refine ⟨d1 ++ d2, ?_, ?_⟩
    · show (NodeReader.afterFormats C str pf b c fs _).status = _
      rw [hd2, hd1, List.append_assoc]
    · rw [List.filter_append, hl1, hl2, List.flatMap_cons]

end ReadAsFormat

/-! ## `read`: the loop over the compatible formats -/

section ReadLoop

variable {MapFormat Bounds Config : Type}

theorem foldl_error_eq (errors : List Error) (status : ParserStatus) :
    errors.foldl
        (fun status error => status.error ("Could not restore linked groups: " ++ error.msg))
        status = status ++ errors.map NodeReader.linkError := by
  induction errors generalizing status with
  | nil => simp
  | cons e es ih =>
    rw [List.foldl_cons, ih]
    simp [ParserStatus.error, NodeReader.linkError]

theorem NodeReader.restoreLinks_eq (C : Collaborators MapFormat Bounds Config)
    (result : List Nat) (w : World) :
    NodeReader.restoreLinks C result w =
      { heap := (C.initializeLinkIds result w.heap).1
        status := w.status ++ (C.initializeLinkIds result w.heap).2.map NodeReader.linkError } := by
  unfold NodeReader.restoreLinks
  simp only [foldl_error_eq]

/-- The loop either stops at the first format with a non-empty result, or finds every
format's result empty. -/
theorem NodeReader.readLoop_cases (C : Collaborators MapFormat Bounds Config) (str : String)
    (pf : MapFormat) (b : Bounds) (c : Config) (fmts : List MapFormat) (w : World) :
    (∃ (pre : List MapFormat) (f : MapFormat) (post : List MapFormat),
        fmts = pre ++ f :: post ∧
        NodeReader.AllEmpty C str pf b c pre w ∧
        (NodeReader.readAsFormat C f pf str b c (NodeReader.afterFormats C str pf b c pre w)).1
          ≠ [] ∧
        NodeReader.readLoop C str pf b c fmts w =
          ((NodeReader.readAsFormat C f pf str b c
              (NodeReader.afterFormats C str pf b c pre w)).1,
            NodeReader.restoreLinks C
              (NodeReader.readAsFormat C f pf str b c
                (NodeReader.afterFormats C str pf b c pre w)).1
              (NodeReader.readAsFormat C f pf str b c
                (NodeReader.afterFormats C str pf b c pre w)).2)) ∨
      (NodeReader.AllEmpty C str pf b c fmts w ∧
        NodeReader.readLoop C str pf b c fmts w =
          ([], NodeReader.afterFormats C str pf b c fmts w)) := by
  induction fmts generalizing w with
  | nil => exact Or.inr ⟨trivial, rfl⟩
  | cons f fs ih =>
    by_cases he : (NodeReader.readAsFormat C f pf str b c w).1 = []
    · have hloop : NodeReader.readLoop C str pf b c (f :: fs) w =
          NodeReader.readLoop C str pf b c fs (NodeReader.readAsFormat C f pf str b c w).2 := by
        simp [NodeReader.readLoop, he]
      rcases ih (NodeReader.readAsFormat C f pf str b c w).2 with
        ⟨pre, g, post, hfs, hpre, hne, hres⟩ | ⟨hall, hres⟩
      · refine Or.inl ⟨f :: pre, g, post, by simp [hfs], ⟨he, hpre⟩, hne, ?_⟩
        rw [hloop, hres]
        rfl
      · refine Or.inr ⟨⟨he, hall⟩, ?_⟩
        rw [hloop, hres]
        rfl
    · refine Or.inl ⟨[], f, fs, rfl, trivial, he, ?_⟩
      have hne : (NodeReader.readAsFormat C f pf str b c w).1.isEmpty = false := by
        cases hr : (NodeReader.readAsFormat C f pf str b c w).1 with
        | nil => exact absurd hr he
        | cons x xs => rfl
      simp [NodeReader.readLoop, hne, NodeReader.afterFormats]

/-- C1. `read` goes through `compatibleFormats(preferredMapFormat)` in order. Either the
list splits as `pre ++ f :: post` where `readAsFormat` returns the empty sequence for each
format of `pre` and a non-empty one for `f`, and `read` returns that result, its world
being the one `readAsFormat` for `f` left, with the links restored (nothing of `post` is
run); or `readAsFormat` returns the empty sequence for every format and `read` returns the
empty sequence. -/
theorem read_first_nonempty (C : Collaborators MapFormat Bounds Config) (str : String)
    (preferredMapFormat : MapFormat) (worldBounds : Bounds) (entityPropertyConfig : Config)
    (w : World) :
    (∃ (pre : List MapFormat) (f : MapFormat) (post : List MapFormat),
        C.compatibleFormats preferredMapFormat = pre ++ f :: post ∧
        NodeReader.AllEmpty C str preferredMapFormat worldBounds entityPropertyConfig pre w ∧
        (NodeReader.readAsFormat C f preferredMapFormat str worldBounds entityPropertyConfig
          (NodeReader.afterFormats C str preferredMapFormat worldBounds entityPropertyConfig
            pre w)).1 ≠ [] ∧
        NodeReader.read C str preferredMapFormat worldBounds entityPropertyConfig w =
          ((NodeReader.readAsFormat C f preferredMapFormat str worldBounds entityPropertyConfig
              (NodeReader.afterFormats C str preferredMapFormat worldBounds
                entityPropertyConfig pre w)).1,
            NodeReader.restoreLinks C
              (NodeReader.readAsFormat C f preferredMapFormat str worldBounds
                entityPropertyConfig
                (NodeReader.afterFormats C str preferredMapFormat worldBounds
                  entityPropertyConfig pre w)).1
              (NodeReader.readAsFormat C f preferredMapFormat str worldBounds
                entityPropertyConfig
                (NodeReader.afterFormats C str preferredMapFormat worldBounds
                  entityPropertyConfig pre w)).2)) ∨
      (NodeReader.AllEmpty C str preferredMapFormat worldBounds entityPropertyConfig
          (C.compatibleFormats preferredMapFormat) w ∧
        NodeReader.read C str preferredMapFormat worldBounds entityPropertyConfig w =
          ([], NodeReader.afterFormats C str preferredMapFormat worldBounds
            entityPropertyConfig (C.compatibleFormats preferredMapFormat) w)) :=
  NodeReader.readLoop_cases C str preferredMapFormat worldBounds entityPropertyConfig
    (C.compatibleFormats preferredMapFormat) w

theorem Grammar.filter_info_messages (g : Grammar) :
    g.messages.filter (fun m => m.level = Level.info) = [] := by
  rw [List.filter_eq_nil_iff]
  intro m hm
  rcases g.level_of_mem_messages m hm with h | h <;> rw [h] <;> decide

theorem NodeReader.readLoop_failed (C : Collaborators MapFormat Bounds Config) (str : String)
    (pf : MapFormat) (b : Bounds) (c : Config) (whatE whatB : MapFormat → String)
    (fmts : List MapFormat) (w : World)
    (hE : ∀ f ∈ fmts, (C.readEntities str f pf c b).error = some (whatE f))
    (hB : ∀ f ∈ fmts, (C.readBrushes str f pf c b).error = some (whatB f)) :
    (NodeReader.readLoop C str pf b c fmts w).1 = [] ∧
      (NodeReader.readLoop C str pf b c fmts w).2.status =
        w.status ++ NodeReader.failureTrace C str pf b c whatE whatB fmts := by
  induction fmts generalizing w with
  | nil => simp [NodeReader.readLoop, NodeReader.failureTrace]
  | cons f fs ih =>
    obtain ⟨h1, h2⟩ := NodeReader.readAsFormat_failed C f pf str b c w (whatE f) (whatB f)
      (hE f (List.mem_cons_self _ _)) (hB f (List.mem_cons_self _ _))
    obtain ⟨i1, i2⟩ := ih (NodeReader.readAsFormat C f pf str b c w).2
      (fun g hg => hE g (List.mem_cons_of_mem _ hg))
      (fun g hg => hB g (List.mem_cons_of_mem _ hg))
    have hloop : NodeReader.readLoop C str pf b c (f :: fs) w =
        NodeReader.readLoop C str pf b c fs (NodeReader.readAsFormat C f pf str b c w).2 := by
      simp [NodeReader.readLoop, h1]
    rw [hloop]
    refine ⟨i1, ?_⟩
    rw [i2, h2]
    simp [NodeReader.failureTrace, List.flatMap_cons]

/-- C3, as stated, fails when the parser writes an error-level message to the sink it is
handed: both interpretations raise a parse error for both formats, `read` returns the
empty sequence, the sink receives four info messages, and four error-level messages. -/
theorem parse_errors_with_parser_errors :
    (∀ f ∈ loudGarbage.compatibleFormats 0,
      (loudGarbage.readEntities "garbage" f 0 () ()).error = some "unexpected token") ∧
    (∀ f ∈ loudGarbage.compatibleFormats 0,
      (loudGarbage.readBrushes "garbage" f 0 () ()).error = some "expected brush") ∧
    (NodeReader.read loudGarbage "garbage" 0 () () ⟨[], []⟩).1 = [] ∧
    ((NodeReader.read loudGarbage "garbage" 0 () () ⟨[], []⟩).2.status.filter
      (fun m => m.level = Level.info)).length = 4 ∧
    (NodeReader.read loudGarbage "garbage" 0 () () ⟨[], []⟩).2.status.filter
      (fun m => m.level = Level.error) =
      [⟨Level.error, "unknown entity"⟩, ⟨Level.error, "malformed face"⟩,
        ⟨Level.error, "unknown entity"⟩, ⟨Level.error, "malformed face"⟩] := by
  decide

/-- C3, amended. When both interpretations raise a parse error for every compatible
format, `read` returns the empty sequence, and the sink receives, after what it held, per
format and in compatibility order: the failure info message of the entity
interpretation, then that of the brush interpretation (each after the messages the
parser wrote during that attempt). These are the only info messages, 2·n of them for n
formats, and the only error-level messages are those the parser itself wrote to the
sink during the attempts: `read` adds none. -/
theorem read_all_parse_errors (C : Collaborators MapFormat Bounds Config) (str : String)
    (preferredMapFormat : MapFormat) (worldBounds : Bounds) (entityPropertyConfig : Config)
    (w : World) (whatE whatB : MapFormat → String)
    (hE : ∀ f ∈ C.compatibleFormats preferredMapFormat,
      (C.readEntities str f preferredMapFormat entityPropertyConfig worldBounds).error =
        some (whatE f))
    (hB : ∀ f ∈ C.compatibleFormats preferredMapFormat,
      (C.readBrushes str f preferredMapFormat entityPropertyConfig worldBounds).error =
        some (whatB f)) :
    (NodeReader.read C str preferredMapFormat worldBounds entityPropertyConfig w).1 = [] ∧
    (NodeReader.read C str preferredMapFormat worldBounds entityPropertyConfig w).2.status =
      w.status ++ NodeReader.failureTrace C str preferredMapFormat worldBounds
        entityPropertyConfig whatE whatB (C.compatibleFormats preferredMapFormat) ∧
    (NodeReader.failureTrace C str preferredMapFormat worldBounds entityPropertyConfig
        whatE whatB (C.compatibleFormats preferredMapFormat)).filter
        (fun m => m.level = Level.info) =
      (C.compatibleFormats preferredMapFormat).flatMap (fun f =>
        [NodeReader.entitiesFailed C f (whatE f), NodeReader.brushesFailed C f (whatB f)]) ∧
    ((NodeReader.failureTrace C str preferredMapFormat worldBounds entityPropertyConfig
        whatE whatB (C.compatibleFormats preferredMapFormat)).filter
        (fun m => m.level = Level.info)).length =
      2 * (C.compatibleFormats preferredMapFormat).length ∧
    (NodeReader.failureTrace C str preferredMapFormat worldBounds entityPropertyConfig
        whatE whatB (C.compatibleFormats preferredMapFormat)).filter
        (fun m => m.level = Level.error) =
      (C.compatibleFormats preferredMapFormat).flatMap (fun f =>
        (C.readEntities str f preferredMapFormat entityPropertyConfig worldBounds).errors ++
          (C.readBrushes str f preferredMapFormat entityPropertyConfig worldBounds).errors) := by
  have hinfo : ∀ fmts : List MapFormat,
      (NodeReader.failureTrace C str preferredMapFormat worldBounds entityPropertyConfig
        whatE whatB fmts).filter (fun m => m.level = Level.info) =
      fmts.flatMap (fun f =>
        [NodeReader.entitiesFailed C f (whatE f), NodeReader.brushesFailed C f (whatB f)]) := by
    intro fmts
    induction fmts with
    | nil => rfl
    | cons f fs ih =>
      have hcons : NodeReader.failureTrace C str preferredMapFormat worldBounds
          entityPropertyConfig whatE whatB (f :: fs) =
          ((C.readEntities str f preferredMapFormat entityPropertyConfig worldBounds).messages ++
            [NodeReader.entitiesFailed C f (whatE f)] ++
            (C.readBrushes str f preferredMapFormat entityPropertyConfig worldBounds).messages ++
            [NodeReader.brushesFailed C f (whatB f)]) ++
          NodeReader.failureTrace C str preferredMapFormat worldBounds entityPropertyConfig
            whatE whatB fs := by
        simp [NodeReader.failureTrace, List.flatMap_cons]
      rw [hcons, List.filter_append, ih, List.flatMap_cons]
      simp [List.filter_append, Grammar.filter_info_messages, NodeReader.entitiesFailed,
        NodeReader.brushesFailed]
  refine ⟨?_, ?_, hinfo _, ?_, ?_⟩
  · exact (NodeReader.readLoop_failed C str preferredMapFormat worldBounds
      entityPropertyConfig whatE whatB _ w hE hB).1
  · exact (NodeReader.readLoop_failed C str preferredMapFormat worldBounds
      entityPropertyConfig whatE whatB _ w hE hB).2
  · rw [hinfo]
    generalize C.compatibleFormats preferredMapFormat = fmts
    induction fmts with
    | nil => rfl
    | cons f fs ih =>
      rw [List.flatMap_cons, List.length_append, ih, List.length_cons]
      simp
      omega
  · generalize C.compatibleFormats preferredMapFormat = fmts
    induction fmts with
    | nil => rfl
    | cons f fs ih =>
      have hcons : NodeReader.failureTrace C str preferredMapFormat worldBounds
          entityPropertyConfig whatE whatB (f :: fs) =
          ((C.readEntities str f preferredMapFormat entityPropertyConfig worldBounds).messages ++
            [NodeReader.entitiesFailed C f (whatE f)] ++
            (C.readBrushes str f preferredMapFormat entityPropertyConfig worldBounds).messages ++
            [NodeReader.brushesFailed C f (whatB f)]) ++
          NodeReader.failureTrace C str preferredMapFormat worldBounds entityPropertyConfig
            whatE whatB fs := by
        simp [NodeReader.failureTrace, List.flatMap_cons]
      rw [hcons, List.filter_append, ih, List.flatMap_cons]
      simp only [List.filter_append, Grammar.filter_error_messages, NodeReader.entitiesFailed,
        NodeReader.brushesFailed, filter_error_info, List.append_nil]

theorem filter_info_linkErrors (errors : List Error) :
    (errors.map NodeReader.linkError).filter (fun m => m.level = Level.info) = [] := by
  rw [List.filter_eq_nil_iff]
  intro m hm
  obtain ⟨e, -, he⟩ := List.mem_map.1 hm
  rw [← he]
  simp [NodeReader.linkError]

/-- C2, as stated, fails: the parser rejects the text as entities and accepts it as a
brush list, but hands over no brush; `read` returns the empty sequence. -/
theorem brush_fallback_can_be_empty :
    (skippedBrushes.readEntities "( 0 0 0 ) ( 1 0 0 )" 0 0 () ()).error = some "expected property" ∧
    (skippedBrushes.readBrushes "( 0 0 0 ) ( 1 0 0 )" 0 0 () ()).error = none ∧
    (NodeReader.read skippedBrushes "( 0 0 0 ) ( 1 0 0 )" 0 () () ⟨[], []⟩).1 = [] := by
  decide

/-- C2, amended. When, for the first compatible format, the entity interpretation raises
a parse error and the brush interpretation raises none and leaves at least one root
node, `read` returns the root sequence of the brush attempt, which is non-empty; the sink
receives the failure message of the entity interpretation, then the success message of
the brush interpretation, and these are the only info messages it receives. -/
theorem read_brush_fallback (C : Collaborators MapFormat Bounds Config) (str : String)
    (preferredMapFormat : MapFormat) (worldBounds : Bounds) (entityPropertyConfig : Config)
    (w : World) (f : MapFormat) (rest : List MapFormat) (what : String)
    (hf : C.compatibleFormats preferredMapFormat = f :: rest)
    (hE : (C.readEntities str f preferredMapFormat entityPropertyConfig worldBounds).error =
      some what)
    (hB : (C.readBrushes str f preferredMapFormat entityPropertyConfig worldBounds).error =
      none)
    (hroot : 0 <
      (C.readBrushes str f preferredMapFormat entityPropertyConfig worldBounds).rootCount) :
    ∃ (a : Attempt) (errors : List Error),
      a = (C.readBrushes str f preferredMapFormat entityPropertyConfig worldBounds).run
        (vec_clear_and_delete
          ((C.readEntities str f preferredMapFormat entityPropertyConfig worldBounds).run
            w.heap w.status).reader
          ((C.readEntities str f preferredMapFormat entityPropertyConfig worldBounds).run
            w.heap w.status).heap).2
        (w.status ++
          (C.readEntities str f preferredMapFormat entityPropertyConfig worldBounds).messages
          ++ [NodeReader.entitiesFailed C f what]) ∧
      errors = (C.initializeLinkIds a.reader.m_nodes a.heap).2 ∧
      (NodeReader.read C str preferredMapFormat worldBounds entityPropertyConfig w).1 =
        a.reader.m_nodes ∧
      (NodeReader.read C str preferredMapFormat worldBounds entityPropertyConfig w).1 ≠ [] ∧
      (NodeReader.read C str preferredMapFormat worldBounds entityPropertyConfig w).2.status =
        w.status ++
          ((C.readEntities str f preferredMapFormat entityPropertyConfig worldBounds).messages
            ++ [NodeReader.entitiesFailed C f what] ++
            (C.readBrushes str f preferredMapFormat entityPropertyConfig worldBounds).messages
            ++ [NodeReader.brushesParsed C f] ++ errors.map NodeReader.linkError) ∧
      ((C.readEntities str f preferredMapFormat entityPropertyConfig worldBounds).messages
          ++ [NodeReader.entitiesFailed C f what] ++
          (C.readBrushes str f preferredMapFormat entityPropertyConfig worldBounds).messages
          ++ [NodeReader.brushesParsed C f] ++ errors.map NodeReader.linkError).filter
          (fun m => m.level = Level.info) =
        [NodeReader.entitiesFailed C f what, NodeReader.brushesParsed C f] := by
  obtain ⟨a, ha, hr⟩ := NodeReader.readAsFormat_brushes C f preferredMapFormat str worldBounds
    entityPropertyConfig w what hE hB
  have hlen : a.reader.m_nodes.length =
      (C.readBrushes str f preferredMapFormat entityPropertyConfig worldBounds).rootCount := by
    rw [ha]
    exact Grammar.length_m_nodes_run _ _ _
  have hne : a.reader.m_nodes ≠ [] := by
    intro h0
    rw [h0] at hlen
    simp at hlen
    omega
  have hempty : a.reader.m_nodes.isEmpty = false := by
    cases hm : a.reader.m_nodes with
    | nil => exact absurd hm hne
    | cons x xs => rfl
  have hread : NodeReader.read C str preferredMapFormat worldBounds entityPropertyConfig w =
      (a.reader.m_nodes, NodeReader.restoreLinks C a.reader.m_nodes
        (NodeReader.readAsFormat C f preferredMapFormat str worldBounds
          entityPropertyConfig w).2) := by
    unfold NodeReader.read
    rw [hf]
    simp [NodeReader.readLoop, hr, hempty]
  refine ⟨a, _, ha, rfl, ?_, ?_, ?_, ?_⟩
  · rw [hread]
  · rw [hread]
    exact hne
  · rw [hread, NodeReader.restoreLinks_eq, hr]
    simp only [List.append_assoc]
  · simp [List.filter_append, Grammar.filter_info_messages, filter_info_linkErrors,
      NodeReader.entitiesFailed, NodeReader.brushesParsed]

/-- The witness for C2, amended: one format, a text rejected as entities whose brush
interpretation hands over one brush. -/
theorem read_brush_fallback_witness :
    (oneBrush.compatibleFormats 0 = [0] ∧
      (oneBrush.readEntities "text" 0 0 () ()).error = some "expected property" ∧
      (oneBrush.readBrushes "text" 0 0 () ()).error = none ∧
      0 < (oneBrush.readBrushes "text" 0 0 () ()).rootCount) ∧
    (NodeReader.read oneBrush "text" 0 () () ⟨[], []⟩).1 ≠ [] := by
  refine ⟨⟨rfl, rfl, rfl, by decide⟩, ?_⟩
  obtain ⟨a, errors, -, -, -, h, -⟩ := read_brush_fallback oneBrush "text" 0 () () ⟨[], []⟩ 0 []
    "expected property" rfl rfl rfl (by decide)
  exact h

theorem filter_error_linkErrors (errors : List Error) :
    (errors.map NodeReader.linkError).filter (fun m => m.level = Level.error) =
      errors.map NodeReader.linkError := by
  rw [List.filter_eq_self]
  intro m hm
  obtain ⟨e, -, he⟩ := List.mem_map.1 hm
  rw [← he]
  simp [NodeReader.linkError]

/-- C5, as stated, fails when the parser writes an error-level message to the sink it is
handed: the entity interpretation of the one format ends without a parse error and
without a node, the result of `read` is empty, and the sink holds an error-level
message. -/
theorem empty_result_with_parser_error :
    (loudBlank.readEntities "" 0 0 () ()).error = none ∧
    (NodeReader.read loudBlank "" 0 () () ⟨[], []⟩).1 = [] ∧
    (NodeReader.read loudBlank "" 0 () () ⟨[], []⟩).2.status =
      [⟨Level.error, "skipping entity"⟩,
        ⟨Level.info, "Parsed successfully as Standard entities"⟩] ∧
    (NodeReader.read loudBlank "" 0 () () ⟨[], []⟩).2.status.filter
      (fun m => m.level = Level.error) ≠ [] := by
  decide

/-- C5, amended. Either `read` got a non-empty result `r.1` from a compatible format `f`
(every format before it giving the empty sequence): then `read` returns that same
sequence, the heap it leaves is the one `initializeLinkIds` made, in one call on that
result, of the heap `readAsFormat` left, the sink receives after the messages of
`readAsFormat` one error-level message "Could not restore linked groups: ..." per error,
and the error-level messages the sink receives are those the parser wrote during the
attempts for the formats up to `f`, then these. Or the result of `read` is empty: then
the world is the one the calls of `readAsFormat` left (no restoration ran), and the
error-level messages the sink receives are those the parser wrote during the attempts:
`read` adds none. -/
theorem read_restores_links_once (C : Collaborators MapFormat Bounds Config) (str : String)
    (preferredMapFormat : MapFormat) (worldBounds : Bounds) (entityPropertyConfig : Config)
    (w : World) :
    (∃ (pre : List MapFormat) (f : MapFormat) (post : List MapFormat) (r : List Nat × World)
        (errors : List Error),
        C.compatibleFormats preferredMapFormat = pre ++ f :: post ∧
        NodeReader.AllEmpty C str preferredMapFormat worldBounds entityPropertyConfig pre w ∧
        r = NodeReader.readAsFormat C f preferredMapFormat str worldBounds entityPropertyConfig
          (NodeReader.afterFormats C str preferredMapFormat worldBounds entityPropertyConfig
            pre w) ∧
        r.1 ≠ [] ∧
        errors = (C.initializeLinkIds r.1 r.2.heap).2 ∧
        (NodeReader.read C str preferredMapFormat worldBounds entityPropertyConfig w).1 = r.1 ∧
        (NodeReader.read C str preferredMapFormat worldBounds entityPropertyConfig w).2.heap =
          (C.initializeLinkIds r.1 r.2.heap).1 ∧
        (NodeReader.read C str preferredMapFormat worldBounds entityPropertyConfig w).2.status =
          r.2.status ++ errors.map NodeReader.linkError ∧
        ∃ d : List Message,
          (NodeReader.read C str preferredMapFormat worldBounds entityPropertyConfig
            w).2.status = w.status ++ d ∧
          d.filter (fun m => m.level = Level.error) =
            (pre ++ [f]).flatMap (NodeReader.formatErrors C str preferredMapFormat worldBounds
              entityPropertyConfig) ++ errors.map NodeReader.linkError) ∨
      ((NodeReader.read C str preferredMapFormat worldBounds entityPropertyConfig w).1 = [] ∧
        (NodeReader.read C str preferredMapFormat worldBounds entityPropertyConfig w).2 =
          NodeReader.afterFormats C str preferredMapFormat worldBounds entityPropertyConfig
            (C.compatibleFormats preferredMapFormat) w ∧
        ∃ d : List Message,
          (NodeReader.read C str preferredMapFormat worldBounds entityPropertyConfig
            w).2.status = w.status ++ d ∧
          d.filter (fun m => m.level = Level.error) =
            (C.compatibleFormats preferredMapFormat).flatMap
              (NodeReader.formatErrors C str preferredMapFormat worldBounds
                entityPropertyConfig)) := by
  rcases NodeReader.readLoop_cases C str preferredMapFormat worldBounds entityPropertyConfig
    (C.compatibleFormats preferredMapFormat) w with
    ⟨pre, f, post, hfs, hpre, hne, hres⟩ | ⟨-, hres⟩
  · have hread : NodeReader.read C str preferredMapFormat worldBounds entityPropertyConfig w =
        _ := hres
    obtain ⟨d1, hd1, hl1⟩ := NodeReader.afterFormats_status C str preferredMapFormat
      worldBounds entityPropertyConfig pre w
    obtain ⟨d2, hd2, hl2⟩ := NodeReader.readAsFormat_status C f preferredMapFormat str
      worldBounds entityPropertyConfig
      (NodeReader.afterFormats C str preferredMapFormat worldBounds entityPropertyConfig pre w)
    refine Or.inl ⟨pre, f, post, _, _, hfs, hpre, rfl, hne, rfl, ?_, ?_, ?_, ?_⟩
    · rw [hread]
    · rw [hread, NodeReader.restoreLinks_eq]
    · rw [hread, NodeReader.restoreLinks_eq]
    · refine ⟨d1 ++ d2 ++ (C.initializeLinkIds
          (NodeReader.readAsFormat C f preferredMapFormat str worldBounds entityPropertyConfig
            (NodeReader.afterFormats C str preferredMapFormat worldBounds entityPropertyConfig
              pre w)).1
          (NodeReader.readAsFormat C f preferredMapFormat str worldBounds entityPropertyConfig
            (NodeReader.afterFormats C str preferredMapFormat worldBounds entityPropertyConfig
              pre w)).2.heap).2.map NodeReader.linkError, ?_, ?_⟩
      · rw [hread, NodeReader.restoreLinks_eq]
        simp only
        rw [hd2, hd1]
        simp only [List.append_assoc]
      · rw [List.filter_append, List.filter_append, hl1, hl2, filter_error_linkErrors,
          List.flatMap_append]
        simp
  · have hread : NodeReader.read C str preferredMapFormat worldBounds entityPropertyConfig w =
        _ := hres
    obtain ⟨d, hd, hl⟩ := NodeReader.afterFormats_status C str preferredMapFormat
      worldBounds entityPropertyConfig (C.compatibleFormats preferredMapFormat) w
    refine Or.inr ⟨by rw [hread], by rw [hread], d, ?_, hl⟩
    rw [hread]
    exact hd

/-- C4. When, for the first compatible format, the entity interpretation makes a
world-entered event, then node events for `ents`, each with the layer returned for the
world as parent, and raises no parse error: `read` returns the one-element sequence of
that layer, object `w.heap.length + 1`, the one `onWorldNode` returned (the world node
itself is object `w.heap.length`).
In the heap `h1` that `readAsFormat` leaves and restoration is run on, that object is a
live layer named "" whose children are the objects made for `ents`, in the order
emitted, each a live, childless node of its class and label with the layer as parent.
The sink receives "Parsed successfully as <format name> entities", then the restoration
errors. -/
theorem read_entities_under_layer (C : Collaborators MapFormat Bounds Config) (str : String)
    (preferredMapFormat : MapFormat) (worldBounds : Bounds) (entityPropertyConfig : Config)
    (w : World) (f : MapFormat) (rest : List MapFormat) (worldLabel : String)
    (ents : List (NodeKind × String))
    (hf : C.compatibleFormats preferredMapFormat = f :: rest)
    (hg : C.readEntities str f preferredMapFormat entityPropertyConfig worldBounds =
      ⟨Event.world worldLabel :: ents.map (fun e => Event.node (some 0) e.1 e.2), none⟩) :
    ∃ h1 : Heap,
      h1 = (NodeReader.readAsFormat C f preferredMapFormat str worldBounds
        entityPropertyConfig w).2.heap ∧
      (NodeReader.read C str preferredMapFormat worldBounds entityPropertyConfig w).1 =
        [w.heap.length + 1] ∧
      ((NodeReader.mk []).onWorldNode (w.heap ++ [NodeRec.fresh NodeKind.world worldLabel])
        w.heap.length).1 = w.heap.length + 1 ∧
      h1[w.heap.length + 1]? = some
        { kind := NodeKind.layer, label := ""
          children := List.range' (w.heap.length + 2) ents.length
          parent := none, alive := true } ∧
      (∀ (i : Nat) (e : NodeKind × String), ents[i]? = some e →
        h1[w.heap.length + 2 + i]? = some
          { kind := e.1, label := e.2, children := [], parent := some (w.heap.length + 1)
            alive := true }) ∧
      (NodeReader.read C str preferredMapFormat worldBounds entityPropertyConfig w).2.heap =
        (C.initializeLinkIds [w.heap.length + 1] h1).1 ∧
      (NodeReader.read C str preferredMapFormat worldBounds entityPropertyConfig w).2.status =
        w.status ++ [NodeReader.entitiesParsed C f] ++
          (C.initializeLinkIds [w.heap.length + 1] h1).2.map NodeReader.linkError := by
  have hE : (C.readEntities str f preferredMapFormat entityPropertyConfig worldBounds).error =
      none := by rw [hg]
  have hrun : (C.readEntities str f preferredMapFormat entityPropertyConfig worldBounds).run
      w.heap w.status =
      (ents.map (fun e => Event.node (some 0) e.1 e.2)).foldl Attempt.step
        ((Attempt.start w.heap w.status).step (Event.world worldLabel)) := by
    rw [hg]
    rfl
  obtain ⟨hu0, hs0⟩ := Attempt.underLayer_world w.heap w.status worldLabel
  obtain ⟨hu, hs⟩ := Attempt.underLayer_nodes w.heap.length ents [] _ hu0
  rw [← hrun, List.nil_append] at hu
  rw [← hrun, hs0] at hs
  have hwarn : (C.readEntities str f preferredMapFormat entityPropertyConfig
      worldBounds).messages = [] := by
    have := Grammar.status_run
      (C.readEntities str f preferredMapFormat entityPropertyConfig worldBounds) w.heap w.status
    rw [hs] at this
    exact List.self_eq_append_right.1 this
  have hr := NodeReader.readAsFormat_entities C f preferredMapFormat str worldBounds
    entityPropertyConfig w hE
  rw [hwarn, List.append_nil, hu.roots] at hr
  have hread : NodeReader.read C str preferredMapFormat worldBounds entityPropertyConfig w =
      ([w.heap.length + 1], NodeReader.restoreLinks C [w.heap.length + 1]
        (NodeReader.readAsFormat C f preferredMapFormat str worldBounds
          entityPropertyConfig w).2) := by
    unfold NodeReader.read
    rw [hf]
    simp [NodeReader.readLoop, hr]
  refine ⟨_, rfl, ?_, ?_, ?_, ?_, ?_, ?_⟩
  · rw [hread]
  · simp [NodeReader.onWorldNode]
  · rw [hr]
    exact hu.layer
  · intro i e he
    rw [hr]
    exact hu.child i e he
  · rw [hread, NodeReader.restoreLinks_eq]
  · rw [hread, NodeReader.restoreLinks_eq, hr]

/-- The witness for C4: a world with two entities. -/
theorem read_entities_under_layer_witness :
    (twoEntities.compatibleFormats 0 = [0] ∧
      twoEntities.readEntities "map" 0 0 () () =
        ⟨Event.world "worldspawn" ::
          [(NodeKind.entity, "light"), (NodeKind.entity, "info_player_start")].map
            (fun e => Event.node (some 0) e.1 e.2), none⟩) ∧
    (NodeReader.read twoEntities "map" 0 () () ⟨[], []⟩).1 = [1] ∧
    (NodeReader.read twoEntities "map" 0 () () ⟨[], []⟩).2.heap[1]? = some
      { kind := NodeKind.layer, label := "", children := [2, 3], parent := none
        alive := true } := by
  refine ⟨⟨rfl, rfl⟩, ?_⟩
  obtain ⟨h1, hh1, hres, -, hlayer, -, hheap, -⟩ := read_entities_under_layer twoEntities "map"
    0 () () ⟨[], []⟩ 0 [] "worldspawn"
    [(NodeKind.entity, "light"), (NodeKind.entity, "info_player_start")] rfl rfl
  refine ⟨hres, ?_⟩
  rw [hheap]
  exact hlayer

/-- C8. Let the entity attempt `ae` of `readAsFormat` end with a parse error. Then the
cleanup empties its root sequence and deletes every root it had accumulated, and these
stay deleted in the heap `readAsFormat` leaves; so does every object made during the
attempt. The brush attempt `ab` runs on a newly constructed builder with an empty root
sequence. If it raises no parse error its roots are the result; if it does, its roots and
every object made during it are deleted as well and the result is empty. No
node of the result was made during the entity attempt (those are the objects from
`w.heap.length` up to `ae.heap.length`), none is a root of `ae`. And every node `read`
returns was made by the call of `readAsFormat` that gave the result, after every attempt
for an earlier format and after that call's entity attempt if it raised a parse error. -/
theorem readAsFormat_discards_failed_attempt (C : Collaborators MapFormat Bounds Config)
    (str : String) (preferredMapFormat : MapFormat) (worldBounds : Bounds)
    (entityPropertyConfig : Config) (w : World) (f : MapFormat) (what : String)
    (hE : (C.readEntities str f preferredMapFormat entityPropertyConfig worldBounds).error =
      some what) :
    ∃ (ae : Attempt) (cleared : NodeReader × Heap) (ab : Attempt),
      ae = (C.readEntities str f preferredMapFormat entityPropertyConfig worldBounds).run
        w.heap w.status ∧
      cleared = vec_clear_and_delete ae.reader ae.heap ∧
      ab = (C.readBrushes str f preferredMapFormat entityPropertyConfig worldBounds).events.foldl
        Attempt.step
        (Attempt.start cleared.2 (w.status ++
          (C.readEntities str f preferredMapFormat entityPropertyConfig worldBounds).messages ++
          [NodeReader.entitiesFailed C f what])) ∧
      cleared.1.m_nodes = [] ∧
      (∀ p ∈ ae.reader.m_nodes,
        (∃ r : NodeRec, cleared.2[p]? = some r ∧ r.alive = false) ∧
        ∃ r : NodeRec, (NodeReader.readAsFormat C f preferredMapFormat str worldBounds
          entityPropertyConfig w).2.heap[p]? = some r ∧ r.alive = false) ∧
      (∀ i : Nat, w.heap.length ≤ i → i < ae.heap.length →
        ∃ r : NodeRec, (NodeReader.readAsFormat C f preferredMapFormat str worldBounds
          entityPropertyConfig w).2.heap[i]? = some r ∧ r.alive = false) ∧
      (Attempt.start cleared.2 (w.status ++
          (C.readEntities str f preferredMapFormat entityPropertyConfig worldBounds).messages ++
          [NodeReader.entitiesFailed C f what])).reader.m_nodes = [] ∧
      ((C.readBrushes str f preferredMapFormat entityPropertyConfig worldBounds).error = none →
        (NodeReader.readAsFormat C f preferredMapFormat str worldBounds
          entityPropertyConfig w).1 = ab.reader.m_nodes) ∧
      (∀ what2 : String,
        (C.readBrushes str f preferredMapFormat entityPropertyConfig worldBounds).error =
          some what2 →
        (NodeReader.readAsFormat C f preferredMapFormat str worldBounds
          entityPropertyConfig w).1 = [] ∧
        (vec_clear_and_delete ab.reader ab.heap).1.m_nodes = [] ∧
        (∀ p ∈ ab.reader.m_nodes,
          ∃ r : NodeRec, (NodeReader.readAsFormat C f preferredMapFormat str worldBounds
            entityPropertyConfig w).2.heap[p]? = some r ∧ r.alive = false) ∧
        ∀ i : Nat, ae.heap.length ≤ i → i < ab.heap.length →
          ∃ r : NodeRec, (NodeReader.readAsFormat C f preferredMapFormat str worldBounds
            entityPropertyConfig w).2.heap[i]? = some r ∧ r.alive = false) ∧
      (∀ p ∈ (NodeReader.readAsFormat C f preferredMapFormat str worldBounds
          entityPropertyConfig w).1, ae.heap.length ≤ p ∧ p ∉ ae.reader.m_nodes) ∧
      (∀ p ∈ (NodeReader.read C str preferredMapFormat worldBounds entityPropertyConfig w).1,
        ∃ (pre : List MapFormat) (g : MapFormat) (post : List MapFormat),
          C.compatibleFormats preferredMapFormat = pre ++ g :: post ∧
          NodeReader.AllEmpty C str preferredMapFormat worldBounds entityPropertyConfig pre w ∧
          (NodeReader.read C str preferredMapFormat worldBounds entityPropertyConfig w).1 =
            (NodeReader.readAsFormat C g preferredMapFormat str worldBounds
              entityPropertyConfig
              (NodeReader.afterFormats C str preferredMapFormat worldBounds
                entityPropertyConfig pre w)).1 ∧
          (NodeReader.afterFormats C str preferredMapFormat worldBounds entityPropertyConfig
            pre w).heap.length ≤ p ∧
          ∀ e : String,
            (C.readEntities str g preferredMapFormat entityPropertyConfig worldBounds).error =
              some e →
            ((C.readEntities str g preferredMapFormat entityPropertyConfig worldBounds).run
              (NodeReader.afterFormats C str preferredMapFormat worldBounds
                entityPropertyConfig pre w).heap
              (NodeReader.afterFormats C str preferredMapFormat worldBounds
                entityPropertyConfig pre w).status).heap.length ≤ p) := by
  have hvalid := Grammar.roots_run
    (C.readEntities str f preferredMapFormat entityPropertyConfig worldBounds) w.heap w.status
  have hdead1 : ∀ p ∈ ((C.readEntities str f preferredMapFormat entityPropertyConfig
      worldBounds).run w.heap w.status).reader.m_nodes,
      ∃ r : NodeRec, (vec_clear_and_delete
        ((C.readEntities str f preferredMapFormat entityPropertyConfig worldBounds).run
          w.heap w.status).reader
        ((C.readEntities str f preferredMapFormat entityPropertyConfig worldBounds).run
          w.heap w.status).heap).2[p]? = some r ∧ r.alive = false :=
    fun p hp => dead_vec_clear_and_delete _ _ p hp (hvalid p hp).2
  have hnew := NodeReader.readAsFormat_result_new C f preferredMapFormat str worldBounds
    entityPropertyConfig w
  have hstays : ∀ i : Nat,
      (∃ r : NodeRec, (vec_clear_and_delete
        ((C.readEntities str f preferredMapFormat entityPropertyConfig worldBounds).run
          w.heap w.status).reader
        ((C.readEntities str f preferredMapFormat entityPropertyConfig worldBounds).run
          w.heap w.status).heap).2[i]? = some r ∧ r.alive = false) →
      ∃ r : NodeRec, (NodeReader.readAsFormat C f preferredMapFormat str worldBounds
        entityPropertyConfig w).2.heap[i]? = some r ∧ r.alive = false := by
    intro i hi
    cases hB : (C.readBrushes str f preferredMapFormat entityPropertyConfig
        worldBounds).error with
    | none =>
      obtain ⟨a, ha, hr⟩ := NodeReader.readAsFormat_brushes C f preferredMapFormat str
        worldBounds entityPropertyConfig w what hE hB
      rw [hr, ha]
      exact (Grammar.grows_run _ _ _).dead i hi
    | some e2 =>
      obtain ⟨a, ha, hr⟩ := NodeReader.readAsFormat_failed_eq C f preferredMapFormat str
        worldBounds entityPropertyConfig w what e2 hE hB
      rw [hr, ha]
      exact (Heap.grows_trans (Grammar.grows_run _ _ _) (grows_vec_clear_and_delete _ _)).dead i
        hi
  refine ⟨_, _, _, rfl, rfl, rfl, rfl, ?_, ?_, rfl, ?_, ?_, ?_, ?_⟩
  · exact fun p hp => ⟨hdead1 p hp, hstays p (hdead1 p hp)⟩
  · exact fun i hb hi => hstays i (Grammar.dead_after_cleanup _ _ _ i hb hi)
  · intro hB
    obtain ⟨a, ha, hr⟩ := NodeReader.readAsFormat_brushes C f preferredMapFormat str
      worldBounds entityPropertyConfig w what hE hB
    rw [hr, ha]
    rfl
  · intro what2 hB
    obtain ⟨a, ha, hr⟩ := NodeReader.readAsFormat_failed_eq C f preferredMapFormat str
      worldBounds entityPropertyConfig w what what2 hE hB
    refine ⟨by rw [hr], rfl, fun p hp => ?_, fun i hb hi => ?_⟩
    · rw [hr, ha]
      exact dead_vec_clear_and_delete _ _ p hp (Grammar.roots_run _ _ _ p hp).2
    · rw [hr, ha]
      refine Grammar.dead_after_cleanup _ _ _ i ?_ hi
      rw [length_vec_clear_and_delete]
      exact hb
  · intro p hp
    have h1 := (hnew p hp).2 what hE
    exact ⟨h1, fun hmem => absurd (hvalid p hmem).2 (not_lt.2 h1)⟩
  · intro p hp
    rcases NodeReader.readLoop_cases C str preferredMapFormat worldBounds entityPropertyConfig
      (C.compatibleFormats preferredMapFormat) w with
      ⟨pre, g, post, hfs, hpre, -, hres⟩ | ⟨-, hres⟩
    · have hread : NodeReader.read C str preferredMapFormat worldBounds entityPropertyConfig
          w = _ := hres
      rw [hread] at hp
      refine ⟨pre, g, post, hfs, hpre, by rw [hread], ?_⟩
      exact NodeReader.readAsFormat_result_new C g preferredMapFormat str worldBounds
        entityPropertyConfig _ p hp
    · have hread : NodeReader.read C str preferredMapFormat worldBounds entityPropertyConfig
          w = _ := hres
      rw [hread] at hp
      simp at hp

/-- The witness for C8: the entity attempt hands over a world and an entity, then fails;
its root, the layer made for the world, is deleted in the heap `readAsFormat` leaves. -/
theorem readAsFormat_discards_failed_attempt_witness :
    (garbage.readEntities "garbage" 0 0 () ()).error = some "unexpected token" ∧
    ((garbage.readEntities "garbage" 0 0 () ()).run [] []).reader.m_nodes = [1] ∧
    ∃ r : NodeRec, (NodeReader.readAsFormat garbage 0 0 "garbage" () () ⟨[], []⟩).2.heap[1]? =
      some r ∧ r.alive = false := by
  obtain ⟨ae, cleared, ab, h1, -, -, -, h5, -⟩ := readAsFormat_discards_failed_attempt
    garbage "garbage" 0 () () ⟨[], []⟩ 0 "unexpected token" rfl
  refine ⟨rfl, by decide, (h5 1 ?_).2⟩
  rw [h1]
  decide

/-- The witness for C3, amended: two formats, four failed attempts, four info messages;
once with a parser that writes nothing to the sink, once with one that writes an
error-level message before each parse error. -/
theorem read_all_parse_errors_witness :
    ((∀ f ∈ garbage.compatibleFormats 0,
        (garbage.readEntities "garbage" f 0 () ()).error = some "unexpected token") ∧
      (∀ f ∈ garbage.compatibleFormats 0,
        (garbage.readBrushes "garbage" f 0 () ()).error = some "expected brush")) ∧
    (NodeReader.read garbage "garbage" 0 () () ⟨[], []⟩).1 = [] ∧
    (NodeReader.read garbage "garbage" 0 () () ⟨[], []⟩).2.status =
      [⟨Level.info, "Couldn't parse as Standard entities: unexpected token"⟩,
        ⟨Level.info, "Couldn't parse as Standard brushes: expected brush"⟩,
        ⟨Level.info, "Couldn't parse as Valve entities: unexpected token"⟩,
        ⟨Level.info, "Couldn't parse as Valve brushes: expected brush"⟩] ∧
    (NodeReader.read loudGarbage "garbage" 0 () () ⟨[], []⟩).1 = [] ∧
    (NodeReader.read loudGarbage "garbage" 0 () () ⟨[], []⟩).2.status =
      [⟨Level.error, "unknown entity"⟩,
        ⟨Level.info, "Couldn't parse as Standard entities: unexpected token"⟩,
        ⟨Level.error, "malformed face"⟩,
        ⟨Level.info, "Couldn't parse as Standard brushes: expected brush"⟩,
        ⟨Level.error, "unknown entity"⟩,
        ⟨Level.info, "Couldn't parse as Valve entities: unexpected token"⟩,
        ⟨Level.error, "malformed face"⟩,
        ⟨Level.info, "Couldn't parse as Valve brushes: expected brush"⟩] := by
  have h := read_all_parse_errors garbage "garbage" 0 () () ⟨[], []⟩
    (fun _ => "unexpected token") (fun _ => "expected brush") (fun _ _ => rfl) (fun _ _ => rfl)
  have h2 := read_all_parse_errors loudGarbage "garbage" 0 () () ⟨[], []⟩
    (fun _ => "unexpected token") (fun _ => "expected brush") (fun _ _ => rfl) (fun _ _ => rfl)
  refine ⟨⟨fun _ _ => rfl, fun _ _ => rfl⟩, h.1, ?_, h2.1, ?_⟩
  · rw [h.2.1]
    decide
  · rw [h2.2.1]
    decide

/-- While the results are empty the loop moves on: after a run of formats with empty
results it continues with the rest, in the world those calls have left. -/
theorem NodeReader.readLoop_skip (C : Collaborators MapFormat Bounds Config) (str : String)
    (pf : MapFormat) (b : Bounds) (c : Config) (pre rest : List MapFormat) (w : World)
    (hpre : NodeReader.AllEmpty C str pf b c pre w) :
    NodeReader.readLoop C str pf b c (pre ++ rest) w =
      NodeReader.readLoop C str pf b c rest (NodeReader.afterFormats C str pf b c pre w) := by
  induction pre generalizing w with
  | nil => rfl
  | cons f fs ih =>
    obtain ⟨h1, h2⟩ := hpre
    have hloop : NodeReader.readLoop C str pf b c (f :: fs ++ rest) w =
        NodeReader.readLoop C str pf b c (fs ++ rest)
          (NodeReader.readAsFormat C f pf str b c w).2 := by
      simp [NodeReader.readLoop, h1]
    rw [hloop, ih _ h2]
    rfl

/-- C16. Let the entity interpretation of a compatible format end without a parse error
and with zero root nodes, the formats before it having given empty results. Then
`readAsFormat`, called for this format, returns the empty sequence; the sink receives the
parser's messages and then "Parsed successfully as <format> entities", and nothing else;
the brush interpretation is not attempted: whatever the brush reader is, the result and
the world are the same. `read` goes on with the formats after this one, and returns the
empty sequence if there is none, the success message being the last the sink holds. -/
theorem read_empty_entities_not_accepted (C : Collaborators MapFormat Bounds Config)
    (str : String) (preferredMapFormat : MapFormat) (worldBounds : Bounds)
    (entityPropertyConfig : Config) (w : World) (pre : List MapFormat) (f : MapFormat)
    (post : List MapFormat)
    (hf : C.compatibleFormats preferredMapFormat = pre ++ f :: post)
    (hpre : NodeReader.AllEmpty C str preferredMapFormat worldBounds entityPropertyConfig pre w)
    (hE : (C.readEntities str f preferredMapFormat entityPropertyConfig worldBounds).error =
      none)
    (hroot :
      (C.readEntities str f preferredMapFormat entityPropertyConfig worldBounds).rootCount = 0) :
    ∃ (w1 : World) (r : List Nat × World),
      w1 = NodeReader.afterFormats C str preferredMapFormat worldBounds entityPropertyConfig
        pre w ∧
      r = NodeReader.readAsFormat C f preferredMapFormat str worldBounds entityPropertyConfig
        w1 ∧
      r.1 = [] ∧
      r.2.status = w1.status ++
        (C.readEntities str f preferredMapFormat entityPropertyConfig worldBounds).messages ++
        [NodeReader.entitiesParsed C f] ∧
      r.2.heap =
        ((C.readEntities str f preferredMapFormat entityPropertyConfig worldBounds).run
          w1.heap w1.status).heap ∧
      (∀ readBrushes : String → MapFormat → MapFormat → Config → Bounds → Grammar,
        NodeReader.readAsFormat { C with readBrushes := readBrushes } f preferredMapFormat str
          worldBounds entityPropertyConfig w1 = r) ∧
      NodeReader.read C str preferredMapFormat worldBounds entityPropertyConfig w =
        NodeReader.readLoop C str preferredMapFormat worldBounds entityPropertyConfig post
          r.2 ∧
      (post = [] →
        NodeReader.read C str preferredMapFormat worldBounds entityPropertyConfig w =
          ([], r.2) ∧
        (NodeReader.read C str preferredMapFormat worldBounds entityPropertyConfig
          w).2.status.getLast? = some (NodeReader.entitiesParsed C f)) := by
  refine ⟨_, _, rfl, rfl, ?_⟩
  generalize hw1 : NodeReader.afterFormats C str preferredMapFormat worldBounds
    entityPropertyConfig pre w = w1
  have hr := NodeReader.readAsFormat_entities C f preferredMapFormat str worldBounds
    entityPropertyConfig w1 hE
  have hnil : ((C.readEntities str f preferredMapFormat entityPropertyConfig worldBounds).run
      w1.heap w1.status).reader.m_nodes = [] := by
    apply List.eq_nil_of_length_eq_zero
    rw [Grammar.length_m_nodes_run, hroot]
  have hread : NodeReader.read C str preferredMapFormat worldBounds entityPropertyConfig w =
      NodeReader.readLoop C str preferredMapFormat worldBounds entityPropertyConfig post
        (NodeReader.readAsFormat C f preferredMapFormat str worldBounds entityPropertyConfig
          w1).2 := by
    unfold NodeReader.read
    rw [hf, NodeReader.readLoop_skip C str preferredMapFormat worldBounds entityPropertyConfig
      pre (f :: post) w hpre, hw1]
    simp [NodeReader.readLoop, hr, hnil]
  refine ⟨?_, ?_, ?_, ?_, hread, ?_⟩
  · rw [hr, hnil]
  · rw [hr]
  · rw [hr]
  · intro rb
    rw [hr]
    exact NodeReader.readAsFormat_entities { C with readBrushes := rb } f preferredMapFormat
      str worldBounds entityPropertyConfig w1 hE
  · intro hpost
    rw [hread, hpost]
    refine ⟨rfl, ?_⟩
    show (NodeReader.readAsFormat C f preferredMapFormat str worldBounds entityPropertyConfig
      w1).2.status.getLast? = _
    rw [hr]
    simp

theorem read_empty_entities_not_accepted_witness :
    blankText.compatibleFormats 0 = [0] ++ 1 :: [] ∧
    NodeReader.AllEmpty blankText "" 0 () () [0] ⟨[], []⟩ ∧
    (blankText.readEntities "" 1 0 () ()).error = none ∧
    (blankText.readEntities "" 1 0 () ()).rootCount = 0 ∧
    NodeReader.read blankText "" 0 () () ⟨[], []⟩ =
      ([], ⟨[], [⟨Level.info, "Parsed successfully as Standard entities"⟩,
        ⟨Level.info, "Parsed successfully as Valve entities"⟩]⟩) := by
  have h1 : blankText.compatibleFormats 0 = [0] ++ 1 :: [] := by decide
  have h2 : NodeReader.AllEmpty blankText "" 0 () () [0] ⟨[], []⟩ := by
    refine ⟨by decide, trivial⟩
  have h3 : (blankText.readEntities "" 1 0 () ()).error = none := by decide
  have h4 : (blankText.readEntities "" 1 0 () ()).rootCount = 0 := by decide
  obtain ⟨w1, r, hw1, hr, -, -, -, -, -, hlast⟩ :=
    read_empty_entities_not_accepted blankText "" 0 () () ⟨[], []⟩ [0] 1 [] h1 h2 h3 h4
  refine ⟨h1, h2, h3, h4, ?_⟩
  rw [(hlast rfl).1, hr, hw1]
  decide

end ReadLoop

/-! ## Paths: comparison -/

theorem lexCompare_anti {α : Type} (c : α → α → Int) (hanti : ∀ a b, c b a = - c a b) :
    ∀ x y : List α, lexCompare c y x = - lexCompare c x y := by
  intro x
  induction x with
  | nil =>
    intro y
    cases y <;> simp [lexCompare]
  | cons a as ih =>
    intro y
    cases y with
    | nil => simp [lexCompare]
    | cons b bs =>
      simp only [lexCompare]
      by_cases h : c a b = 0
      · have h2 : c b a = 0 := by rw [hanti a b, h]; rfl
        rw [if_pos h, if_pos h2]
        exact ih bs
      · have h2 : ¬ c b a = 0 := by rw [hanti a b]; omega
        rw [if_neg h, if_neg h2]
        exact hanti a b

theorem lexCompare_nil_le {α : Type} (c : α → α → Int) (z : List α) :
    lexCompare c [] z ≤ 0 := by
  cases z <;> simp [lexCompare]

theorem lexCompare_le_trans {α : Type} (c : α → α → Int) (hanti : ∀ a b, c b a = - c a b)
    (htrans : ∀ a b d, c a b ≤ 0 → c b d ≤ 0 → c a d ≤ 0) :
    ∀ x y z : List α, lexCompare c x y ≤ 0 → lexCompare c y z ≤ 0 →
      lexCompare c x z ≤ 0 := by
  intro x
  induction x with
  | nil => exact fun y z _ _ => lexCompare_nil_le c z
  | cons a as ih =>
    intro y z hxy hyz
    cases y with
    | nil => simp [lexCompare] at hxy
    | cons b bs =>
      cases z with
      | nil => simp [lexCompare] at hyz
      | cons d ds =>
        simp only [lexCompare] at hxy hyz ⊢
        have hab : c a b ≤ 0 := by
          by_cases h : c a b = 0
          · omega
          · rw [if_neg h] at hxy; exact hxy
        have hbd : c b d ≤ 0 := by
          by_cases h : c b d = 0
          · omega
          · rw [if_neg h] at hyz; exact hyz
        have had : c a d ≤ 0 := htrans a b d hab hbd
        by_cases h3 : c a d = 0
        · have hda : c d a ≤ 0 := by rw [hanti a d]; omega
          have hba : c b a ≤ 0 := htrans b d a hbd hda
          have hdb : c d b ≤ 0 := htrans d a b hda hab
          have h1 : c a b = 0 := by have := hanti a b; omega
          have h2 : c b d = 0 := by have := hanti b d; omega
          rw [if_pos h1] at hxy
          rw [if_pos h2] at hyz
          rw [if_pos h3]
          exact ih bs ds hxy hyz
        · rw [if_neg h3]
          exact had

theorem compareChar_anti (a b : Char) : compareChar b a = - compareChar a b := by
  unfold compareChar
  split_ifs <;> omega

theorem compareChar_le_trans (a b d : Char) (h1 : compareChar a b ≤ 0)
    (h2 : compareChar b d ≤ 0) : compareChar a d ≤ 0 := by
  unfold compareChar at *
  split_ifs at * <;> omega

theorem compareNative_anti (a b : List Char) : compareNative b a = - compareNative a b :=
  lexCompare_anti compareChar compareChar_anti a b

theorem compareNative_le_trans (a b d : List Char) (h1 : compareNative a b ≤ 0)
    (h2 : compareNative b d ≤ 0) : compareNative a d ≤ 0 :=
  lexCompare_le_trans compareChar compareChar_anti compareChar_le_trans a b d h1 h2

theorem Path.compare_anti (A B : Path) : B.compare A = - A.compare B := by
  unfold Path.compare
  cases A.isAbsolute <;> cases B.isAbsolute <;> simp <;>
    exact lexCompare_anti compareNative compareNative_anti _ _

theorem Path.compare_le_trans (A B D : Path) (h1 : A.compare B ≤ 0) (h2 : B.compare D ≤ 0) :
    A.compare D ≤ 0 := by
  unfold Path.compare at *
  cases hA : A.isAbsolute <;> cases hB : B.isAbsolute <;> cases hD : D.isAbsolute <;>
    simp [hA, hB, hD] at h1 h2 ⊢ <;>
    exact lexCompare_le_trans compareNative compareNative_anti compareNative_le_trans _ _ _
      h1 h2

/-- C10. For all paths exactly one of `A < B`, `A == B`, `A > B` holds; `A == B` exactly
when `compare` gives 0; `A != B` exactly when not `A == B`; `compare(A, B) < 0` exactly
when `compare(B, A) > 0`; and `<` is transitive. -/
theorem path_compare_total_order (A B D : Path) :
    ((A.lt B = true ∧ A.eq B = false ∧ A.gt B = false) ∨
      (A.lt B = false ∧ A.eq B = true ∧ A.gt B = false) ∨
      (A.lt B = false ∧ A.eq B = false ∧ A.gt B = true)) ∧
    (A.eq B = true ↔ A.compare B = 0) ∧
    (A.ne B = true ↔ ¬ A.eq B = true) ∧
    (A.compare B < 0 ↔ B.compare A > 0) ∧
    (A.lt B = true → B.lt D = true → A.lt D = true) := by
  refine ⟨?_, ?_, ?_, ?_, ?_⟩
  · unfold Path.lt Path.eq Path.gt
    rcases lt_trichotomy (A.compare B) 0 with h | h | h
    · refine Or.inl ⟨by simpa using h, ?_, ?_⟩ <;> simp <;> omega
    · refine Or.inr (Or.inl ⟨?_, by simpa using h, ?_⟩) <;> simp <;> omega
    · refine Or.inr (Or.inr ⟨?_, ?_, by simpa using h⟩) <;> simp <;> omega
  · simp [Path.eq]
  · simp [Path.ne]
  · have := Path.compare_anti A B
    omega
  · unfold Path.lt
    simp only [decide_eq_true_eq]
    intro h1 h2
    have h3 := Path.compare_le_trans A B D (le_of_lt h1) (le_of_lt h2)
    by_contra h4
    have h5 : A.compare D = 0 := by omega
    have h6 : D.compare A ≤ 0 := by rw [Path.compare_anti A D]; omega
    have h7 := Path.compare_le_trans D A B h6 (le_of_lt h1)
    have h8 := Path.compare_anti B D
    omega

/-- The witness for C10: `a < a/b < b`, and the three of them compared. -/
theorem path_compare_total_order_witness :
    ((Path.mk ['a']).lt (Path.mk ['a', '/', 'b']) = true ∧
      (Path.mk ['a', '/', 'b']).lt (Path.mk ['b']) = true) ∧
    (Path.mk ['a']).lt (Path.mk ['b']) = true :=
  ⟨⟨by decide, by decide⟩,
    (path_compare_total_order (Path.mk ['a']) (Path.mk ['a', '/', 'b']) (Path.mk ['b'])).2.2.2.2
      (by decide) (by decide)⟩
/-! ## Paths: composition -/

theorem scan_append (st : ScanState) (xs ys : List Char) :
    scan st (xs ++ ys) = st.emitted xs ++ scan (st.after xs) ys := by
  induction xs generalizing st with
  | nil => rfl
  | cons c cs ih =>
    show (st.next c).2 ++ scan (st.next c).1 (cs ++ ys) = _
    rw [ih]
    simp only [ScanState.emitted, ScanState.after, List.append_assoc]

theorem scan_eq_emitted (st : ScanState) (xs : List Char) :
    scan st xs = st.emitted xs ++ (st.after xs).finish := by
  have := scan_append st xs []
  rw [List.append_nil] at this
  rw [this]
  rfl

theorem ScanState.after_append (st : ScanState) (xs ys : List Char) :
    st.after (xs ++ ys) = (st.after xs).after ys := by
  induction xs generalizing st with
  | nil => rfl
  | cons c cs ih =>
    show (st.next c).1.after (cs ++ ys) = _
    rw [ih]
    rfl

/-- The state after a pathname, by the shape of the pathname: empty; separators only;
ending in a separator that follows a filename; ending in a filename. -/
theorem ScanState.after_start (xs : List Char) :
    (xs = [] ∧ ScanState.start.after xs = ScanState.start) ∨
    (xs ≠ [] ∧ (∀ c ∈ xs, c = '/') ∧ ScanState.start.after xs = ScanState.root) ∨
    (xs.getLast? = some '/' ∧ (∃ c ∈ xs, c ≠ '/') ∧
      ScanState.start.after xs = ScanState.sep) ∨
    (∃ (c : Char) (n : List Char), xs.getLast? = some c ∧ c ≠ '/' ∧
      ScanState.start.after xs = ScanState.name n) := by
  induction xs using List.reverseRecOn with
  | nil => exact Or.inl ⟨rfl, rfl⟩
  | append_singleton ys c ih =>
    have hstep : ScanState.start.after (ys ++ [c]) =
        ((ScanState.start.after ys).next c).1 := by
      rw [ScanState.after_append]
      rfl
    have hlast : (ys ++ [c]).getLast? = some c := by simp
    by_cases hc : c = '/'
    · subst hc
      rcases ih with ⟨h1, h2⟩ | ⟨h1, h2, h3⟩ | ⟨h1, h2, h3⟩ | ⟨d, n, h1, h2, h3⟩
      · refine Or.inr (Or.inl ⟨by simp, ?_, ?_⟩)
        · simp [h1]
        · rw [hstep, h2]
          rfl
      · refine Or.inr (Or.inl ⟨by simp, ?_, ?_⟩)
        · intro x hx
          rcases List.mem_append.1 hx with hx | hx
          · exact h2 x hx
          · simpa using hx
        · rw [hstep, h3]
          rfl
      · refine Or.inr (Or.inr (Or.inl ⟨hlast, ?_, ?_⟩))
        · obtain ⟨x, hx, hne⟩ := h2
          exact ⟨x, List.mem_append_left _ hx, hne⟩
        · rw [hstep, h3]
          rfl
      · refine Or.inr (Or.inr (Or.inl ⟨hlast, ?_, ?_⟩))
        · exact ⟨d, List.mem_append_left _ (List.mem_of_getLast?_eq_some h1), h2⟩
        · rw [hstep, h3]
          rfl
    · refine Or.inr (Or.inr (Or.inr ?_))
      rcases hs : ScanState.start.after ys with _ | _ | _ | n
      · exact ⟨c, [c], hlast, hc, by rw [hstep, hs]; simp [ScanState.next, hc]⟩
      · exact ⟨c, [c], hlast, hc, by rw [hstep, hs]; simp [ScanState.next, hc]⟩
      · exact ⟨c, [c], hlast, hc, by rw [hstep, hs]; simp [ScanState.next, hc]⟩
      · exact ⟨c, n ++ [c], hlast, hc, by rw [hstep, hs]; simp [ScanState.next, hc]⟩

/-- The four shapes of a pathname, with what the library's observers say of each. -/
theorem Path.shape (A : Path) :
    (A.m_path = [] ∧ A.has_filename = false ∧ A.has_relative_path = false ∧
      ScanState.start.after A.m_path = ScanState.start) ∨
    (A.m_path ≠ [] ∧ A.has_filename = false ∧ A.has_relative_path = false ∧
      ScanState.start.after A.m_path = ScanState.root) ∨
    (A.m_path ≠ [] ∧ A.has_filename = false ∧ A.has_relative_path = true ∧
      ScanState.start.after A.m_path = ScanState.sep) ∨
    (A.m_path ≠ [] ∧ A.has_filename = true ∧
      ∃ n : List Char, ScanState.start.after A.m_path = ScanState.name n) := by
  have hrel : A.has_relative_path = false ↔ ∀ c ∈ A.m_path, c = '/' := by
    simp [Path.has_relative_path, Path.relative_path, Path.empty, List.dropWhile_eq_nil_iff]
  rcases ScanState.after_start A.m_path with
    ⟨h1, h2⟩ | ⟨h1, h2, h3⟩ | ⟨h1, h2, h3⟩ | ⟨c, n, h1, h2, h3⟩
  · refine Or.inl ⟨h1, ?_, hrel.2 (by simp [h1]), h2⟩
    simp [Path.has_filename, h1]
  · refine Or.inr (Or.inl ⟨h1, ?_, hrel.2 h2, h3⟩)
    cases hl : A.m_path.getLast? with
    | none => simp [Path.has_filename, hl]
    | some c =>
      have := h2 c (List.mem_of_getLast?_eq_some hl)
      simp [Path.has_filename, hl, this]
  · have hne : A.m_path ≠ [] := by
      intro h0
      rw [h0] at h1
      simp at h1
    refine Or.inr (Or.inr (Or.inl ⟨hne, ?_, ?_, h3⟩))
    · simp [Path.has_filename, h1]
    · cases hr : A.has_relative_path with
      | true => rfl
      | false =>
        obtain ⟨x, hx, hxne⟩ := h2
        exact absurd (hrel.1 hr x hx) hxne
  · have hne : A.m_path ≠ [] := by
      intro h0
      rw [h0] at h1
      simp at h1
    refine Or.inr (Or.inr (Or.inr ⟨hne, ?_, n, h3⟩))
    simp [Path.has_filename, h1, h2]

theorem Path.elements_eq (A : Path) :
    A.elements = ScanState.start.emitted A.m_path ++ (ScanState.start.after A.m_path).finish :=
  scan_eq_emitted _ _

/-- A relative, non-empty pathname reads the same after the root directory or after a
separator as from the start. -/
theorem scan_relative (st : ScanState)
    (hst : st = ScanState.start ∨ st = ScanState.root ∨ st = ScanState.sep)
    (c : Char) (cs : List Char) (hc : c ≠ '/') :
    scan st (c :: cs) = scan ScanState.start (c :: cs) := by
  rcases hst with h | h | h <;> subst h <;> simp [scan, ScanState.next, hc]

theorem scan_name_pos (n : List Char) (xs : List Char) :
    0 < (scan (ScanState.name n) xs).length := by
  induction xs generalizing n with
  | nil => simp [scan, ScanState.finish]
  | cons c cs ih =>
    by_cases hc : c = '/'
    · simp [scan, ScanState.next, hc]
    · simp only [scan, ScanState.next, hc, if_false, List.nil_append]
      exact ih _

/-- A non-empty path has at least one component. -/
theorem Path.hidden_length_pos (A : Path) (h : A.m_path ≠ []) : 0 < A.hidden_length := by
  unfold Path.hidden_length Path.elements
  cases hA : A.m_path with
  | nil => exact absurd hA h
  | cons c cs =>
    by_cases hc : c = '/'
    · simp [scan, ScanState.next, hc]
    · simp only [scan, ScanState.next, hc, if_false, List.nil_append]
      exact scan_name_pos _ _

theorem Path.isAbsolute_cons (c : Char) (cs : List Char) :
    (Path.mk (c :: cs)).isAbsolute = decide (c = '/') := by
  simp [Path.isAbsolute]

theorem Path.div_absolute (A B : Path) (hB : B.isAbsolute = true) : A.div B = B := by
  simp [Path.div, hB]

theorem Path.div_empty_rhs (A B : Path) (hB : B.m_path = []) (hA : A.has_filename = false) :
    A.div B = A := by
  have : B.isAbsolute = false := by simp [Path.isAbsolute, hB]
  simp [Path.div, this, hA, hB]

theorem Path.div_empty_rhs_filename (A B : Path) (hB : B.m_path = [])
    (hA : A.has_filename = true) : (A.div B).elements = A.elements ++ [[]] := by
  have habs : B.isAbsolute = false := by simp [Path.isAbsolute, hB]
  rcases A.shape with ⟨-, h, -⟩ | ⟨-, h, -⟩ | ⟨-, h, -⟩ | ⟨-, -, n, hn⟩
  · rw [h] at hA; exact absurd hA (by simp)
  · rw [h] at hA; exact absurd hA (by simp)
  · rw [h] at hA; exact absurd hA (by simp)
  · rw [Path.elements_eq A, hn]
    simp only [Path.div, habs, hA, hB, if_true, Bool.false_eq_true, if_false, Path.elements]
    rw [scan_append, hn]
    simp [scan, ScanState.next, ScanState.finish]

theorem Path.div_relative (A B : Path) (c : Char) (cs : List Char) (hB : B.m_path = c :: cs)
    (hc : c ≠ '/') :
    (A.has_filename = true → (A.div B).elements = A.elements ++ B.elements) ∧
    (A.has_filename = false → A.has_relative_path = false →
      (A.div B).elements = A.elements ++ B.elements) ∧
    (A.has_filename = false → A.has_relative_path = true →
      ∃ E : List (List Char), A.elements = E ++ [[]] ∧
        (A.div B).elements = E ++ B.elements) := by
  have habs : B.isAbsolute = false := by simp [Path.isAbsolute, hB, hc]
  have hno : ∀ st : ScanState,
      (st = ScanState.start ∨ st = ScanState.root ∨ st = ScanState.sep) →
      ScanState.start.after A.m_path = st → A.has_filename = false →
      (A.div B).elements = ScanState.start.emitted A.m_path ++ B.elements := by
    intro st hst hafter hf
    simp only [Path.div, habs, hf, Bool.false_eq_true, if_false, Path.elements]
    rw [scan_append, hafter, hB, scan_relative st hst c cs hc]
  rcases A.shape with ⟨-, h1, h2, h3⟩ | ⟨-, h1, h2, h3⟩ | ⟨-, h1, h2, h3⟩ | ⟨-, h1, n, hn⟩
  · refine ⟨fun h => ?_, fun _ _ => ?_, fun _ h => ?_⟩
    · rw [h1] at h; exact absurd h (by simp)
    · rw [hno _ (Or.inl rfl) h3 h1, Path.elements_eq A, h3]
      simp [ScanState.finish]
    · rw [h2] at h; exact absurd h (by simp)
  · refine ⟨fun h => ?_, fun _ _ => ?_, fun _ h => ?_⟩
    · rw [h1] at h; exact absurd h (by simp)
    · rw [hno _ (Or.inr (Or.inl rfl)) h3 h1, Path.elements_eq A, h3]
      simp [ScanState.finish]
    · rw [h2] at h; exact absurd h (by simp)
  · refine ⟨fun h => ?_, fun _ h => ?_, fun _ _ => ?_⟩
    · rw [h1] at h; exact absurd h (by simp)
    · rw [h2] at h; exact absurd h (by simp)
    · refine ⟨ScanState.start.emitted A.m_path, ?_, hno _ (Or.inr (Or.inr rfl)) h3 h1⟩
      rw [Path.elements_eq A, h3]
      rfl
  · refine ⟨fun _ => ?_, fun h => ?_, fun h => ?_⟩
    · rw [Path.elements_eq A, hn]
      simp only [Path.div, habs, h1, if_true, Bool.false_eq_true, if_false, Path.elements]
      rw [scan_append, hn, hB]
      simp [scan, ScanState.next, ScanState.finish, hc]
    · rw [h1] at h; exact absurd h (by simp)
    · rw [h1] at h; exact absurd h (by simp)

theorem Path.elements_of_empty (A : Path) (h : A.m_path = []) : A.elements = [] := by
  rw [Path.elements, h]
  rfl

/-- The components of `A / B` are those of `A` followed by those of `B` in these cases. -/
theorem Path.div_elements_of_fits (A B : Path)
    (h : A.empty = true ∨ (B.empty = true ∧ A.has_filename = false) ∨
      (B.isAbsolute = false ∧ B.empty = false ∧
        (A.has_filename = true ∨ A.has_relative_path = false))) :
    (A.div B).elements = A.elements ++ B.elements := by
  cases hB : B.m_path with
  | nil =>
    have hBe : B.empty = true := by simp [Path.empty, hB]
    have hBel : B.elements = [] := Path.elements_of_empty B hB
    have hAf : A.has_filename = false := by
      rcases h with h | h | h
      · rcases A.shape with ⟨-, h1, -⟩ | ⟨h1, -⟩ | ⟨h1, -⟩ | ⟨h1, -⟩
        · exact h1
        all_goals
          rw [Path.empty, List.isEmpty_iff] at h
          exact absurd h h1
      · exact h.2
      · rw [hBe] at h
        exact absurd h.2.1 (by simp)
    rw [Path.div_empty_rhs A B hB hAf, hBel, List.append_nil]
  | cons c cs =>
    have hBe : B.empty = false := by simp [Path.empty, hB]
    by_cases hc : c = '/'
    · have habs : B.isAbsolute = true := by simp [Path.isAbsolute, hB, hc]
      rcases h with h | h | h
      · rw [Path.empty, List.isEmpty_iff] at h
        rw [Path.div_absolute A B habs, Path.elements_of_empty A h, List.nil_append]
      · rw [hBe] at h
        exact absurd h.1 (by simp)
      · rw [habs] at h
        exact absurd h.1 (by simp)
    · obtain ⟨d1, d2, -⟩ := Path.div_relative A B c cs hB hc
      rcases h with h | h | h
      · rw [Path.empty, List.isEmpty_iff] at h
        rcases A.shape with ⟨-, h1, h2, -⟩ | ⟨h1, -⟩ | ⟨h1, -⟩ | ⟨h1, -⟩
        · exact d2 h1 h2
        all_goals exact absurd h h1
      · rw [hBe] at h
        exact absurd h.1 (by simp)
      · rcases h.2.2 with hf | hr
        · exact d1 hf
        · cases hf : A.has_filename with
          | true => exact d1 hf
          | false => exact d2 hf hr

/-- If the component counts of `A / B` add up, it is one of these cases. -/
theorem Path.fits_of_div_length (A B : Path)
    (h : (A.div B).hidden_length = A.hidden_length + B.hidden_length) :
    A.empty = true ∨ (B.empty = true ∧ A.has_filename = false) ∨
      (B.isAbsolute = false ∧ B.empty = false ∧
        (A.has_filename = true ∨ A.has_relative_path = false)) := by
  cases hB : B.m_path with
  | nil =>
    have hBe : B.empty = true := by simp [Path.empty, hB]
    cases hf : A.has_filename with
    | false => exact Or.inr (Or.inl ⟨hBe, rfl⟩)
    | true =>
      have := Path.div_empty_rhs_filename A B hB hf
      simp only [Path.hidden_length, this, Path.elements_of_empty B hB, List.length_append,
        List.length_singleton, List.length_nil] at h
      omega
  | cons c cs =>
    have hBe : B.empty = false := by simp [Path.empty, hB]
    by_cases hc : c = '/'
    · have habs : B.isAbsolute = true := by simp [Path.isAbsolute, hB, hc]
      rw [Path.div_absolute A B habs] at h
      refine Or.inl ?_
      rw [Path.empty, List.isEmpty_iff]
      by_contra hne
      have := A.hidden_length_pos hne
      omega
    · have habs : B.isAbsolute = false := by simp [Path.isAbsolute, hB, hc]
      cases hf : A.has_filename with
      | true => exact Or.inr (Or.inr ⟨habs, hBe, Or.inl rfl⟩)
      | false =>
        cases hr : A.has_relative_path with
        | false => exact Or.inr (Or.inr ⟨habs, hBe, Or.inr rfl⟩)
        | true =>
          obtain ⟨E, hE1, hE2⟩ := (Path.div_relative A B c cs hB hc).2.2 hf hr
          simp only [Path.hidden_length, hE1, hE2, List.length_append,
            List.length_singleton] at h
          omega

/-- C9, as stated, fails in each of the cases it names: with an absolute `B`
(`a / /b` is `/b`), with `A` ending in a separator (`a/ / b` is `a/b`, and `a/` has
the two components `a` and the empty one), and with an empty `B` (`a / ""` is `a/`). -/
theorem path_div_not_concatenation :
    ((Path.mk ['a']).div (Path.mk ['/', 'b'])).elements = [['/'], ['b']] ∧
    (Path.mk ['a']).elements ++ (Path.mk ['/', 'b']).elements = [['a'], ['/'], ['b']] ∧
    ((Path.mk ['a']).div (Path.mk ['/', 'b'])).hidden_length ≠
      (Path.mk ['a']).hidden_length + (Path.mk ['/', 'b']).hidden_length ∧
    ((Path.mk ['a', '/']).div (Path.mk ['b'])).elements = [['a'], ['b']] ∧
    (Path.mk ['a', '/']).elements ++ (Path.mk ['b']).elements = [['a'], [], ['b']] ∧
    ((Path.mk ['a', '/']).div (Path.mk ['b'])).hidden_length ≠
      (Path.mk ['a', '/']).hidden_length + (Path.mk ['b']).hidden_length ∧
    ((Path.mk ['a']).div (Path.mk [])).elements = [['a'], []] ∧
    (Path.mk ['a']).elements ++ (Path.mk []).elements = [['a']] ∧
    ((Path.mk ['a']).div (Path.mk [])).hidden_length ≠
      (Path.mk ['a']).hidden_length + (Path.mk []).hidden_length := by
  decide

/-- C9, amended. The components of `A / B` are the components of `A` followed by those of
`B`, and equally the component counts add up, exactly when `A` is empty, or `B` is empty
and `A` does not end in a filename, or `B` is relative and non-empty and `A` does not end
in a separator that follows a filename (`A` ends in a filename or has nothing after its
root directory). -/
theorem path_div_components (A B : Path) :
    ((A.div B).elements = A.elements ++ B.elements ↔
      (A.empty = true ∨ (B.empty = true ∧ A.has_filename = false) ∨
        (B.isAbsolute = false ∧ B.empty = false ∧
          (A.has_filename = true ∨ A.has_relative_path = false)))) ∧
    ((A.div B).hidden_length = A.hidden_length + B.hidden_length ↔
      (A.empty = true ∨ (B.empty = true ∧ A.has_filename = false) ∨
        (B.isAbsolute = false ∧ B.empty = false ∧
          (A.has_filename = true ∨ A.has_relative_path = false)))) := by
  have hlen : (A.div B).elements = A.elements ++ B.elements →
      (A.div B).hidden_length = A.hidden_length + B.hidden_length := by
    intro h
    simp only [Path.hidden_length, h, List.length_append]
  exact ⟨⟨fun h => Path.fits_of_div_length A B (hlen h), Path.div_elements_of_fits A B⟩,
    ⟨Path.fits_of_div_length A B, fun h => hlen (Path.div_elements_of_fits A B h)⟩⟩

/-! ## Paths: the elements of a path and paths composed of elements -/

theorem isFilename_singleton (c : Char) (hc : c ≠ '/') : IsFilename [c] := by
  refine ⟨by simp, ?_⟩
  simpa using fun h => hc h.symm

theorem isFilename_concat (n : List Char) (c : Char) (hn : IsFilename n) (hc : c ≠ '/') :
    IsFilename (n ++ [c]) := by
  refine ⟨by simp, ?_⟩
  intro h
  rcases List.mem_append.1 h with h | h
  · exact hn.2 h
  · have h2 : '/' = c := by simpa using h
    exact hc h2.symm

theorem IsFilename.ne_root (n : List Char) (hn : IsFilename n) : n ≠ ['/'] := by
  intro h
  exact hn.2 (by simp [h])

/-- Read from any state, the rest of a pathname gives a stretch of elements; its first
element, if there is one, fits the state. -/
theorem scan_stretch (st : ScanState) (xs : List Char)
    (hst : ∀ n, st = ScanState.name n → IsFilename n) :
    Stretch (scan st xs) ∧
    ∀ h, (scan st xs).head? = some h →
      (st = ScanState.start → h ≠ []) ∧ (st = ScanState.root → IsFilename h) ∧
      (st = ScanState.sep → h ≠ ['/']) ∧ (∀ n, st = ScanState.name n → IsFilename h) := by
  induction xs generalizing st with
  | nil =>
    cases st with
    | start => exact ⟨⟨by simp [scan, ScanState.finish], List.chain'_nil⟩, by simp [scan, ScanState.finish]⟩
    | root => exact ⟨⟨by simp [scan, ScanState.finish], List.chain'_nil⟩, by simp [scan, ScanState.finish]⟩
    | sep =>
      refine ⟨⟨by simp [scan, ScanState.finish], List.chain'_singleton _⟩, ?_⟩
      intro h hh
      simp only [scan, ScanState.finish, List.head?_cons, Option.some.injEq] at hh
      subst hh
      simp
    | name n =>
      have hn := hst n rfl
      refine ⟨⟨?_, List.chain'_singleton _⟩, ?_⟩
      · intro e he
        simp only [scan, ScanState.finish, List.mem_singleton] at he
        subst he
        exact Or.inr (Or.inr hn)
      · intro h hh
        simp only [scan, ScanState.finish, List.head?_cons, Option.some.injEq] at hh
        subst hh
        simp [hn]
  | cons c cs ih =>
    have hname : ∀ d : Char, d ≠ '/' → ∀ n, IsFilename n →
        Stretch (scan (ScanState.name n) cs) ∧
        ∀ h, (scan (ScanState.name n) cs).head? = some h → IsFilename h := by
      intro d _ n hn
      obtain ⟨i1, i2⟩ := ih (ScanState.name n) (fun m hm => by cases hm; exact hn)
      exact ⟨i1, fun h hh => (i2 h hh).2.2.2 n rfl⟩
    cases st with
    | start =>
      by_cases hc : c = '/'
      · obtain ⟨⟨i1, i2⟩, i3⟩ := ih ScanState.root (fun m hm => by cases hm)
        have hs : scan ScanState.start (c :: cs) = ['/'] :: scan ScanState.root cs := by
          simp [scan, ScanState.next, hc]
        rw [hs]
        refine ⟨⟨?_, ?_⟩, ?_⟩
        · intro e he
          rcases List.mem_cons.1 he with he | he
          · exact Or.inl he
          · exact i1 e he
        · refine List.Chain'.cons' i2 ?_
          intro y hy
          have hy2 := (i3 y hy).2.1 rfl
          exact ⟨by simp, IsFilename.ne_root y hy2, fun _ => hy2.1⟩
        · intro h hh
          simp only [List.head?_cons, Option.some.injEq] at hh
          subst hh
          simp
      · have hs : scan ScanState.start (c :: cs) = scan (ScanState.name [c]) cs := by
          simp [scan, ScanState.next, hc]
        rw [hs]
        obtain ⟨j1, j2⟩ := hname c hc [c] (isFilename_singleton c hc)
        refine ⟨j1, fun h hh => ⟨fun _ => (j2 h hh).1, by simp, by simp, by simp⟩⟩
    | root =>
      by_cases hc : c = '/'
      · have hs : scan ScanState.root (c :: cs) = scan ScanState.root cs := by
          simp [scan, ScanState.next, hc]
        rw [hs]
        exact ih ScanState.root (fun m hm => by cases hm)
      · have hs : scan ScanState.root (c :: cs) = scan (ScanState.name [c]) cs := by
          simp [scan, ScanState.next, hc]
        rw [hs]
        obtain ⟨j1, j2⟩ := hname c hc [c] (isFilename_singleton c hc)
        refine ⟨j1, fun h hh => ⟨by simp, fun _ => j2 h hh, by simp, by simp⟩⟩
    | sep =>
      by_cases hc : c = '/'
      · have hs : scan ScanState.sep (c :: cs) = scan ScanState.sep cs := by
          simp [scan, ScanState.next, hc]
        rw [hs]
        exact ih ScanState.sep (fun m hm => by cases hm)
      · have hs : scan ScanState.sep (c :: cs) = scan (ScanState.name [c]) cs := by
          simp [scan, ScanState.next, hc]
        rw [hs]
        obtain ⟨j1, j2⟩ := hname c hc [c] (isFilename_singleton c hc)
        refine ⟨j1, fun h hh => ⟨by simp, by simp, fun _ => IsFilename.ne_root h (j2 h hh),
          by simp⟩⟩
    | name n =>
      have hn := hst n rfl
      by_cases hc : c = '/'
      · obtain ⟨⟨i1, i2⟩, i3⟩ := ih ScanState.sep (fun m hm => by cases hm)
        have hs : scan (ScanState.name n) (c :: cs) = n :: scan ScanState.sep cs := by
          simp [scan, ScanState.next, hc]
        rw [hs]
        refine ⟨⟨?_, ?_⟩, ?_⟩
        · intro e he
          rcases List.mem_cons.1 he with he | he
          · exact Or.inr (Or.inr (he ▸ hn))
          · exact i1 e he
        · refine List.Chain'.cons' i2 ?_
          intro y hy
          exact ⟨hn.1, (i3 y hy).2.2.1 rfl, fun h => absurd h (IsFilename.ne_root n hn)⟩
        · intro h hh
          simp only [List.head?_cons, Option.some.injEq] at hh
          subst hh
          simp [hn]
      · have hs : scan (ScanState.name n) (c :: cs) = scan (ScanState.name (n ++ [c])) cs := by
          simp [scan, ScanState.next, hc]
        rw [hs]
        obtain ⟨j1, j2⟩ := hname c hc (n ++ [c]) (isFilename_concat n c hn hc)
        refine ⟨j1, fun h hh => ⟨by simp, by simp, by simp, fun _ _ => j2 h hh⟩⟩

/-- The elements of a path are a stretch, and the first of them is not empty. -/
theorem Path.stretch_elements (A : Path) :
    Stretch A.elements ∧ A.elements.head? ≠ some [] := by
  obtain ⟨h1, h2⟩ := scan_stretch ScanState.start A.m_path (fun m hm => by cases hm)
  refine ⟨h1, fun h => ?_⟩
  exact (h2 [] h).1 rfl rfl

theorem Stretch.drop_take (es : List (List Char)) (h : Stretch es) (i n : Nat) :
    Stretch ((es.drop i).take n) :=
  ⟨fun e he => h.1 e (List.mem_of_mem_drop (List.mem_of_mem_take he)),
    (h.2.drop i).take n⟩

theorem scan_name_filename (n cs : List Char) (hcs : '/' ∉ cs) :
    scan (ScanState.name n) cs = [n ++ cs] := by
  induction cs generalizing n with
  | nil => simp [scan, ScanState.finish]
  | cons c cs ih =>
    have hc : c ≠ '/' := fun h => hcs (by simp [h])
    have hcs2 : '/' ∉ cs := fun h => hcs (List.mem_cons_of_mem _ h)
    simp only [scan, ScanState.next, hc, if_false, List.nil_append]
    rw [ih _ hcs2]
    simp

/-- A filename, taken as a path, has itself as its one element. -/
theorem Path.elements_filename (n : List Char) (hn : IsFilename n) :
    (Path.mk n).elements = [n] ∧ (Path.mk n).has_filename = true ∧
      ∃ c cs, n = c :: cs ∧ c ≠ '/' := by
  obtain ⟨hne, hno⟩ := hn
  cases n with
  | nil => exact absurd rfl hne
  | cons c cs =>
    have hc : c ≠ '/' := fun h => hno (by simp [h])
    have hcs : '/' ∉ cs := fun h => hno (List.mem_cons_of_mem _ h)
    refine ⟨?_, ?_, c, cs, rfl, hc⟩
    · simp only [Path.elements, scan, ScanState.next, hc, if_false, List.nil_append]
      rw [scan_name_filename _ _ hcs]
      simp
    · unfold Path.has_filename
      have hl : (c :: cs).getLast? = some ((c :: cs).getLast (by simp)) :=
        List.getLast?_eq_getLast _ _
      rw [hl]
      simp only [decide_eq_true_eq]
      intro h
      exact hno (h ▸ List.getLast_mem _)

theorem Path.div_filename (A : Path) (n : List Char) (hn : IsFilename n)
    (hA : A.has_filename = true ∨ A.has_relative_path = false) :
    (A.div ⟨n⟩).elements = A.elements ++ [n] ∧ (A.div ⟨n⟩).has_filename = true := by
  obtain ⟨hel, hfn, c, cs, hcs, hc⟩ := Path.elements_filename n hn
  have hd := Path.div_relative A ⟨n⟩ c cs hcs hc
  rw [hel] at hd
  constructor
  · cases hf : A.has_filename with
    | true => exact hd.1 hf
    | false =>
      rcases hA with h | h
      · rw [hf] at h; exact absurd h (by simp)
      · exact hd.2.1 hf h
  · have habs : (Path.mk n).isAbsolute = false := by simp [Path.isAbsolute, hcs, hc]
    have hlast : ∀ l : List Char, (l ++ n).getLast? = n.getLast? := by
      intro l
      rw [hcs, List.getLast?_append, List.getLast?_eq_getLast _ (List.cons_ne_nil c cs)]
      rfl
    have hfn2 : ∀ l : List Char, (Path.mk (l ++ n)).has_filename = true := by
      intro l
      unfold Path.has_filename at hfn ⊢
      simp only [hlast]
      exact hfn
    unfold Path.div
    rw [habs]
    by_cases hf : A.has_filename = true
    · simp only [hf, if_true, Bool.false_eq_true, if_false]
      have := hfn2 (A.m_path ++ ['/'])
      simpa using this
    · simp only [hf, Bool.false_eq_true, if_false]
      exact hfn2 _

/-- Composing the elements of a stretch onto a path that ends in what the stretch may
follow appends them to the path's elements. -/
theorem compose_from (S : List (List Char)) (acc : Path) (last : List Char)
    (hS : ∀ e ∈ S, e = ['/'] ∨ e = [] ∨ IsFilename e)
    (hchain : List.Chain Follows last S)
    (hacc : (last = ['/'] ∧ acc.has_filename = false ∧ acc.has_relative_path = false) ∨
      (IsFilename last ∧ acc.has_filename = true) ∨ last = []) :
    (S.foldl (fun acc e => acc.div ⟨e⟩) acc).elements = acc.elements ++ S := by
  induction S generalizing acc last with
  | nil => simp
  | cons y S ih =>
    obtain ⟨hf, hch⟩ := List.chain_cons.1 hchain
    obtain ⟨hl0, hy1, hy2⟩ := hf
    have hacc2 : acc.has_filename = true ∨ acc.has_relative_path = false := by
      rcases hacc with h | h | h
      · exact Or.inr h.2.2
      · exact Or.inl h.2
      · exact absurd h hl0
    rw [List.foldl_cons]
    rcases hS y (List.mem_cons_self _ _) with hy | hy | hy
    · exact absurd hy hy1
    · subst hy
      have hS0 : S = [] := by
        cases S with
        | nil => rfl
        | cons z zs => exact absurd rfl (List.chain_cons.1 hch).1.1
      subst hS0
      have hfn : acc.has_filename = true := by
        rcases hacc with h | h | h
        · exact absurd rfl (hy2 h.1)
        · exact h.2
        · exact absurd h hl0
      simpa using Path.div_empty_rhs_filename acc ⟨[]⟩ rfl hfn
    · obtain ⟨h1, h2⟩ := Path.div_filename acc y hy hacc2
      rw [ih (acc.div ⟨y⟩) y (fun e he => hS e (List.mem_cons_of_mem _ he)) hch
        (Or.inr (Or.inl ⟨hy, h2⟩)), h1]
      simp

/-- The path composed of a stretch of elements has these elements, unless the stretch is
the empty element alone: then it is the empty path. -/
theorem composeElements_elements (S : List (List Char)) (hS : Stretch S) :
    (composeElements S).elements = if S = [[]] then [] else S := by
  obtain ⟨h1, h2⟩ := hS
  unfold composeElements
  cases S with
  | nil => simp [Path.elements, scan, ScanState.finish]
  | cons x S =>
    have hch : List.Chain Follows x S := h2
    have hrest : ∀ e ∈ S, e = ['/'] ∨ e = [] ∨ IsFilename e :=
      fun e he => h1 e (List.mem_cons_of_mem _ he)
    rw [List.foldl_cons]
    rcases h1 x (List.mem_cons_self _ _) with hx | hx | hx
    · subst hx
      have hd : (Path.mk []).div ⟨['/']⟩ = ⟨['/']⟩ := by decide
      rw [hd, compose_from S ⟨['/']⟩ ['/'] hrest hch (Or.inl ⟨rfl, by decide, by decide⟩)]
      simp [Path.elements, scan, ScanState.next, ScanState.finish]
    · subst hx
      have hS0 : S = [] := by
        cases S with
        | nil => rfl
        | cons z zs => exact absurd rfl (List.chain_cons.1 hch).1.1
      subst hS0
      decide
    · obtain ⟨h3, h4⟩ := Path.div_filename ⟨[]⟩ x hx (Or.inr (by decide))
      rw [compose_from S _ x hrest hch (Or.inr (Or.inl ⟨hx, h4⟩)), h3]
      have hne : x ≠ [] := hx.1
      simp [Path.elements, scan, ScanState.finish, hne]

/-! ## Paths: clipping -/

/-- The components of a clipped path: the slice, unless that is the empty element alone. -/
theorem Path.hidden_clip_elements (P : Path) (index count : Nat) :
    (P.hidden_clip index count).elements =
      if (P.elements.drop index).take count = [[]] then []
      else (P.elements.drop index).take count := by
  unfold Path.hidden_clip kdl.path_clip
  by_cases h : index ≥ P.elements.length
  · rw [if_pos h, List.drop_eq_nil_of_le h]
    simp [Path.elements, scan, ScanState.finish]
  · rw [if_neg h]
    have htake : (P.elements.drop index).take (min count (P.elements.length - index)) =
        (P.elements.drop index).take count := by
      rcases Nat.le_total count (P.elements.length - index) with hle | hle
      · rw [Nat.min_eq_left hle]
      · rw [Nat.min_eq_right hle, List.take_of_length_le (by simp),
          List.take_of_length_le (by simpa using hle)]
    rw [htake]
    exact composeElements_elements _ (Stretch.drop_take _ P.stretch_elements.1 index count)

theorem Path.hidden_clip_beyond (P : Path) (index count : Nat)
    (h : P.hidden_length ≤ index) : P.hidden_clip index count = ⟨[]⟩ := by
  unfold Path.hidden_clip kdl.path_clip
  exact if_pos h

/-- The components of the first `n` components of a path, taken as a path. -/
theorem Path.elements_hidden_clip_zero (P : Path) (n : Nat) :
    (P.hidden_clip 0 n).elements = P.elements.take n := by
  rw [Path.hidden_clip_elements, List.drop_zero, if_neg]
  intro h
  apply P.stretch_elements.2
  cases hE : P.elements with
  | nil => rw [hE] at h; simp at h
  | cons x xs =>
    rw [hE] at h
    cases n with
    | zero => simp at h
    | succ m =>
      simp only [List.take_succ_cons, List.cons.injEq] at h
      rw [h.1]
      rfl

/-- C12. For every path `P` and every `n`, the components of `prefix(n)` are the first
`n` components of `P`, in order, or all of them if `P` has fewer: with `k` the number of
components of `P` there are `min(n, k)` of them. `prefix(0)` is the empty path, and
`prefix(n)` for `n` from `k` on has the components of `P`. -/
theorem path_prefix_components (P : Path) (n : Nat) :
    ( Path.prefix P n).elements = P.elements.take n ∧
    ( Path.prefix P n).hidden_length = min n P.hidden_length ∧
    Path.prefix P 0 = ⟨[]⟩ ∧
    ( Path.prefix P (P.hidden_length + n)).elements = P.elements := by
  refine ⟨P.elements_hidden_clip_zero n, ?_, ?_, ?_⟩
  · show ( Path.prefix P n).elements.length = _
    rw [show ( Path.prefix P n).elements = P.elements.take n from
      P.elements_hidden_clip_zero n, List.length_take]
    rfl
  · show kdl.path_clip P 0 0 = _
    unfold kdl.path_clip
    split
    · rfl
    · simp [composeElements]
  · rw [show ( Path.prefix P (P.hidden_length + n)).elements =
      P.elements.take (P.hidden_length + n) from P.elements_hidden_clip_zero _]
    exact List.take_of_length_le (Nat.le_add_right _ _)

/-- C13, as stated, fails for a filename followed by a separator: `a/` has two
components, `a` and the empty one, and `deleteFirstComponent` gives the empty path,
which has none. -/
theorem deleteFirstComponent_loses_empty_component :
    (Path.mk ['a', '/']).hidden_length = 2 ∧
    (Path.mk ['a', '/']).deleteFirstComponent = ⟨[]⟩ ∧
    (Path.mk ['a', '/']).deleteFirstComponent.hidden_length = 0 ∧
    (Path.mk ['a', '/']).deleteFirstComponent.hidden_length ≠
      max 0 ((Path.mk ['a', '/']).hidden_length - 1) := by
  decide

/-- C13, amended. For every path `P` the components of `deleteFirstComponent(P)` are
those of `P` after the first, so that there are `max(0, componentCount(P) - 1)` of
them, unless `P` is a filename followed by a separator, its components being the
filename and the empty component: then the result is the empty path, with no component.
`deleteFirstComponent` of the empty path is the empty path, and the unsigned
subtraction is made for non-empty paths only, which have a component, so that it does
not wrap around. The component count is taken to fit `size_t`. -/
theorem deleteFirstComponent_components (P : Path) (hfit : P.hidden_length < 2 ^ 64) :
    P.deleteFirstComponent.elements =
      (if P.elements.tail = [[]] then [] else P.elements.tail) ∧
    P.deleteFirstComponent.hidden_length =
      (if P.elements.tail = [[]] then 0 else max 0 (P.hidden_length - 1)) ∧
    (Path.mk []).deleteFirstComponent = ⟨[]⟩ ∧
    (P.empty = false →
      1 ≤ P.hidden_length ∧
      (P.hidden_length + 2 ^ 64 - 1) % 2 ^ 64 = P.hidden_length - 1 ∧
      P.deleteFirstComponent = P.hidden_clip 1 (P.hidden_length - 1)) := by
  have hsub : P.empty = false →
      1 ≤ P.hidden_length ∧ (P.hidden_length + 2 ^ 64 - 1) % 2 ^ 64 = P.hidden_length - 1 := by
    intro he
    have hne : P.m_path ≠ [] := by
      intro h0
      simp [Path.empty, h0] at he
    have hpos := P.hidden_length_pos hne
    refine ⟨hpos, ?_⟩
    omega
  have hel : P.deleteFirstComponent.elements =
      (if P.elements.tail = [[]] then [] else P.elements.tail) := by
    unfold Path.deleteFirstComponent
    cases he : P.empty with
    | true =>
      have h0 : P.m_path = [] := by simpa [Path.empty] using he
      simp [Path.elements, h0, scan, ScanState.finish]
    | false =>
      obtain ⟨-, h2⟩ := hsub he
      simp only [Bool.false_eq_true, if_false]
      rw [h2, Path.hidden_clip_elements]
      have hd : (P.elements.drop 1).take (P.hidden_length - 1) = P.elements.tail := by
        rw [List.drop_one]
        exact List.take_of_length_le (by simp [Path.hidden_length])
      rw [hd]
  refine ⟨hel, ?_, by decide, ?_⟩
  · show P.deleteFirstComponent.elements.length = _
    rw [hel]
    split
    · rfl
    · simp [Path.hidden_length]
  · intro he
    obtain ⟨h1, h2⟩ := hsub he
    refine ⟨h1, h2, ?_⟩
    unfold Path.deleteFirstComponent
    rw [he, h2]
    rfl

theorem deleteFirstComponent_components_witness :
    (Path.mk ['/', 'a', '/', 'b']).hidden_length < 2 ^ 64 ∧
    (Path.mk ['/', 'a', '/', 'b']).deleteFirstComponent.elements = [['a'], ['b']] ∧
    (Path.mk ['/', 'a', '/', 'b']).deleteFirstComponent.hidden_length = 2 := by
  have h := deleteFirstComponent_components ⟨['/', 'a', '/', 'b']⟩ (by decide)
  refine ⟨by decide, ?_, ?_⟩
  · rw [h.1]
    decide
  · rw [h.2.1]
    decide

/-- C14, as stated, fails when the slice is the empty last component alone: `a/` has the
components `a` and the empty one; position 1 is within it, and clipping one component
from there gives the empty path, with no component. No path has the empty component as
its only component, so that no result could consist of exactly this slice. -/
theorem clip_loses_empty_component :
    (Path.mk ['a', '/']).hidden_length = 2 ∧
    (Path.mk ['a', '/']).hidden_clip 1 1 = ⟨[]⟩ ∧
    ((Path.mk ['a', '/']).hidden_clip 1 1).hidden_length = 0 ∧
    ((Path.mk ['a', '/']).hidden_clip 1 1).hidden_length ≠
      min 1 ((Path.mk ['a', '/']).hidden_length - 1) ∧
    kdl.path_clip_from ⟨['a', '/']⟩ 1 = ⟨[]⟩ ∧
    ((Path.mk ['a', '/']).elements.drop 1).take 1 = [[]] ∧
    ∀ Q : Path, Q.elements ≠ ((Path.mk ['a', '/']).elements.drop 1).take 1 := by
  refine ⟨by decide, by decide, by decide, by decide, by decide, by decide, ?_⟩
  intro Q h
  apply Q.stretch_elements.2
  rw [h]
  decide

/-- C14, amended. For every path `P` with `k` components, `clip(index, count)` returns
a path for all `index` and `count`: the empty path if `index ≥ k`; otherwise the path
whose components are the `min(count, k - index)` components of `P` from position
`index` on, in order, unless these are the empty last component alone: then the empty
path. The one-argument `path_clip(P, index)` is `clip(index, k)`: its components are
those of `P` from `index` on, with the same exception. -/
theorem clip_components (P : Path) (index count : Nat) :
    kdl.path_clip_length P index count = P.hidden_clip index count ∧
    P.hidden_clip (P.hidden_length + index) count = ⟨[]⟩ ∧
    (P.hidden_clip index count).elements =
      (if (P.elements.drop index).take count = [[]] then []
        else (P.elements.drop index).take count) ∧
    (P.hidden_clip index count).hidden_length =
      (if (P.elements.drop index).take count = [[]] then 0
        else min count (P.hidden_length - index)) ∧
    kdl.path_clip_from P index = P.hidden_clip index P.hidden_length ∧
    (kdl.path_clip_from P index).elements =
      (if P.elements.drop index = [[]] then [] else P.elements.drop index) := by
  refine ⟨rfl, P.hidden_clip_beyond _ count (Nat.le_add_right _ _),
    P.hidden_clip_elements index count, ?_, rfl, ?_⟩
  · show (P.hidden_clip index count).elements.length = _
    rw [P.hidden_clip_elements index count]
    split
    · rfl
    · simp [Path.hidden_length]
  · show (P.hidden_clip index P.hidden_length).elements = _
    rw [P.hidden_clip_elements index P.hidden_length]
    have hd : (P.elements.drop index).take P.hidden_length = P.elements.drop index :=
      List.take_of_length_le (by simp [Path.hidden_length])
    rw [hd]

/-! ## Paths: equality by components -/

theorem scan_root_seps (s ys : List Char) (hs : ∀ c ∈ s, c = '/') :
    scan ScanState.root (s ++ ys) = scan ScanState.root ys := by
  induction s with
  | nil => rfl
  | cons c cs ih =>
    have hc : c = '/' := hs c (List.mem_cons_self _ _)
    have := ih (fun d hd => hs d (List.mem_cons_of_mem _ hd))
    simpa [scan, ScanState.next, hc] using this

theorem scan_sep_seps (s ys : List Char) (hs : ∀ c ∈ s, c = '/') :
    scan ScanState.sep (s ++ ys) = scan ScanState.sep ys := by
  induction s with
  | nil => rfl
  | cons c cs ih =>
    have hc : c = '/' := hs c (List.mem_cons_self _ _)
    have := ih (fun d hd => hs d (List.mem_cons_of_mem _ hd))
    simpa [scan, ScanState.next, hc] using this

theorem scan_root_dropWhile (cs : List Char) :
    scan ScanState.root cs = scan ScanState.start (cs.dropWhile (fun c => c = '/')) := by
  induction cs with
  | nil => rfl
  | cons c cs ih =>
    by_cases hc : c = '/'
    · have h1 : scan ScanState.root (c :: cs) = scan ScanState.root cs := by
        simp [scan, ScanState.next, hc]
      rw [h1, ih]
      simp [List.dropWhile_cons, hc]
    · have h2 : (c :: cs).dropWhile (fun c => c = '/') = c :: cs := by
        simp [List.dropWhile_cons, hc]
      rw [h2]
      exact scan_relative _ (Or.inr (Or.inl rfl)) c cs hc

/-- The elements of a path: the root directory, if the path is absolute, and the
elements of the relative path. -/
theorem Path.elements_split (A : Path) :
    A.elements = (if A.isAbsolute then [['/']] else []) ++ A.relative_path.elements := by
  cases hA : A.m_path with
  | nil => simp [Path.elements, Path.isAbsolute, Path.relative_path, hA]
  | cons c cs =>
    by_cases hc : c = '/'
    · have h1 : A.elements = ['/'] :: scan ScanState.root cs := by
        simp [Path.elements, hA, scan, ScanState.next, hc]
      have h2 : A.relative_path.elements =
          scan ScanState.start (cs.dropWhile (fun c => c = '/')) := by
        simp [Path.elements, Path.relative_path, hA, List.dropWhile_cons, hc]
      have h3 : A.isAbsolute = true := by simp [Path.isAbsolute, hA, hc]
      rw [h1, h2, h3, scan_root_dropWhile]
      rfl
    · have h2 : A.relative_path = A := by
        cases A with
        | mk m =>
          simp only at hA
          subst hA
          simp [Path.relative_path, List.dropWhile_cons, hc]
      have h3 : A.isAbsolute = false := by simp [Path.isAbsolute, hA, hc]
      rw [h2, h3]
      simp

theorem Path.relative_path_isAbsolute (A : Path) : A.relative_path.isAbsolute = false := by
  unfold Path.isAbsolute Path.relative_path
  cases h : (A.m_path.dropWhile (fun c => c = '/')) with
  | nil => rfl
  | cons c cs =>
    have := List.head_dropWhile_not (fun c => decide (c = '/')) A.m_path (by rw [h]; simp)
    simp only [h, List.head_cons] at this
    simpa using this

/-- A path is absolute exactly when its first element is the root directory. -/
theorem Path.isAbsolute_iff_head (A : Path) :
    A.isAbsolute = true ↔ A.elements.head? = some ['/'] := by
  cases hA : A.m_path with
  | nil => simp [Path.elements, Path.isAbsolute, hA, scan, ScanState.finish]
  | cons c cs =>
    by_cases hc : c = '/'
    · simp [Path.elements, Path.isAbsolute, hA, scan, ScanState.next, hc]
    · have h1 : A.isAbsolute = false := by simp [Path.isAbsolute, hA, hc]
      have h2 : A.elements = scan (ScanState.name [c]) cs := by
        simp [Path.elements, hA, scan, ScanState.next, hc]
      rw [h1, h2]
      constructor
      · intro h; exact absurd h (by simp)
      · intro h
        have := ((scan_stretch (ScanState.name [c]) cs
          (fun n hn => by cases hn; exact isFilename_singleton c hc)).2 _ h).2.2.2 [c] rfl
        exact absurd rfl (IsFilename.ne_root _ this)

theorem compareChar_self (a : Char) : compareChar a a = 0 := by
  simp [compareChar]

theorem lexCompare_self {α : Type} (c : α → α → Int) (hc : ∀ a, c a a = 0) (l : List α) :
    lexCompare c l l = 0 := by
  induction l with
  | nil => rfl
  | cons a as ih => simp [lexCompare, hc a, ih]

/-- Paths with the same components are equal. -/
theorem Path.eq_of_elements (A B : Path) (h : A.elements = B.elements) :
    A.eq B = true := by
  have habs : A.isAbsolute = B.isAbsolute := by
    have h1 := A.isAbsolute_iff_head
    have h2 := B.isAbsolute_iff_head
    rw [h] at h1
    cases hA : A.isAbsolute with
    | true => exact (h2.2 (h1.1 hA)).symm
    | false =>
      cases hB : B.isAbsolute with
      | false => rfl
      | true => rw [h1.2 (h2.1 hB)] at hA; exact absurd hA (by simp)
  have hrel : A.relative_path.elements = B.relative_path.elements := by
    have h1 := A.elements_split
    have h2 := B.elements_split
    rw [h, h2, habs] at h1
    exact (List.append_cancel_left h1).symm
  unfold Path.eq Path.compare
  rw [habs, hrel]
  have h0 : lexCompare compareNative B.relative_path.elements B.relative_path.elements = 0 :=
    lexCompare_self _ (fun a => lexCompare_self _ compareChar_self a) _
  cases B.isAbsolute <;> simp [h0]

theorem Path.eq_symm (A B : Path) (h : A.eq B = true) : B.eq A = true := by
  unfold Path.eq at h ⊢
  have h1 : A.compare B = 0 := by simpa using h
  have := Path.compare_anti A B
  simp [this, h1]

theorem Path.eq_trans (A B D : Path) (h1 : A.eq B = true) (h2 : B.eq D = true) :
    A.eq D = true := by
  unfold Path.eq at h1 h2 ⊢
  have e1 : A.compare B = 0 := by simpa using h1
  have e2 : B.compare D = 0 := by simpa using h2
  have a1 := Path.compare_le_trans A B D (by omega) (by omega)
  have e3 : D.compare B = 0 := by rw [Path.compare_anti B D]; omega
  have e4 : B.compare A = 0 := by rw [Path.compare_anti A B]; omega
  have a2 := Path.compare_le_trans D B A (by omega) (by omega)
  have a3 := Path.compare_anti A D
  have : A.compare D = 0 := by omega
  simp [this]

/-! ## Paths: the parent path and the last component -/

theorem rdropWhile_append_rtakeWhile {α : Type} (p : α → Bool) (l : List α) :
    l.rdropWhile p ++ l.rtakeWhile p = l := by
  unfold List.rdropWhile List.rtakeWhile
  rw [← List.reverse_append, List.takeWhile_append_dropWhile, List.reverse_reverse]

theorem Path.has_relative_path_eq_false (A : Path) :
    A.has_relative_path = false ↔ ∀ c ∈ A.m_path, c = '/' := by
  simp [Path.has_relative_path, Path.relative_path, Path.empty, List.dropWhile_eq_nil_iff]

/-- A pathname of separators only, followed by a filename. -/
theorem Path.elements_seps_filename (s f : List Char) (hs : ∀ c ∈ s, c = '/')
    (hf : IsFilename f) :
    (Path.mk (s ++ f)).elements = (Path.mk s).elements ++ [f] ∧
      (Path.mk s).has_relative_path = false := by
  obtain ⟨hel, -, c, cs, hcs, hc⟩ := Path.elements_filename f hf
  have hrel : (Path.mk s).has_relative_path = false :=
    (Path.has_relative_path_eq_false ⟨s⟩).2 hs
  refine ⟨?_, hrel⟩
  have hscan : ∀ st : ScanState,
      (st = ScanState.start ∨ st = ScanState.root ∨ st = ScanState.sep) →
      scan st f = [f] := by
    intro st hst
    rw [hcs, scan_relative st hst c cs hc, ← hcs]
    exact hel
  show scan ScanState.start (s ++ f) = _
  rw [scan_append, Path.elements_eq ⟨s⟩]
  rcases (Path.mk s).shape with ⟨-, -, -, h⟩ | ⟨-, -, -, h⟩ | ⟨-, -, h, -⟩ | ⟨-, h, -⟩
  · rw [h, hscan _ (Or.inl rfl)]; simp [ScanState.finish]
  · rw [h, hscan _ (Or.inr (Or.inl rfl))]; simp [ScanState.finish]
  · rw [hrel] at h; exact absurd h (by simp)
  · have hfn : (Path.mk s).has_filename = false := by
      unfold Path.has_filename
      cases hl : s.getLast? with
      | none => rfl
      | some d => simp [hs d (List.mem_of_getLast?_eq_some hl)]
    rw [hfn] at h; exact absurd h (by simp)

/-- A pathname that ends in a filename, followed by separators and then by a filename or
nothing. -/
theorem Path.elements_after_filename (r s f : List Char)
    (hr : (Path.mk r).has_filename = true) (hs : ∀ c ∈ s, c = '/') (hs0 : s ≠ []) :
    (Path.mk (r ++ s)).elements = (Path.mk r).elements ++ [[]] ∧
      (IsFilename f → (Path.mk (r ++ s ++ f)).elements = (Path.mk r).elements ++ [f]) := by
  obtain ⟨n, hn⟩ : ∃ n, ScanState.start.after r = ScanState.name n := by
    rcases (Path.mk r).shape with ⟨-, h, -⟩ | ⟨-, h, -⟩ | ⟨-, h, -⟩ | ⟨-, -, n, hn⟩
    · rw [h] at hr; exact absurd hr (by simp)
    · rw [h] at hr; exact absurd hr (by simp)
    · rw [h] at hr; exact absurd hr (by simp)
    · exact ⟨n, hn⟩
  have hrel : (Path.mk r).elements = ScanState.start.emitted r ++ [n] := by
    rw [Path.elements_eq ⟨r⟩, hn]
    rfl
  cases s with
  | nil => exact absurd rfl hs0
  | cons c cs =>
    have hc : c = '/' := hs c (List.mem_cons_self _ _)
    have hcs : ∀ d ∈ cs, d = '/' := fun d hd => hs d (List.mem_cons_of_mem _ hd)
    have hstep : ∀ ys : List Char,
        scan ScanState.start (r ++ c :: cs ++ ys) =
          ScanState.start.emitted r ++ n :: scan ScanState.sep ys := by
      intro ys
      rw [List.append_assoc, scan_append, hn]
      have : scan (ScanState.name n) (c :: cs ++ ys) = n :: scan ScanState.sep (cs ++ ys) := by
        simp [scan, ScanState.next, hc]
      rw [this, scan_sep_seps cs ys hcs]
    constructor
    · have := hstep []
      rw [List.append_nil] at this
      show scan ScanState.start (r ++ c :: cs) = _
      rw [this, hrel]
      simp [scan, ScanState.finish]
    · intro hf
      obtain ⟨hel, -, d, ds, hds, hd⟩ := Path.elements_filename f hf
      show scan ScanState.start (r ++ c :: cs ++ f) = _
      rw [hstep f, hrel]
      have : scan ScanState.sep f = [f] := by
        rw [hds, scan_relative _ (Or.inr (Or.inr rfl)) d ds hd, ← hds]
        exact hel
      rw [this]
      simp

/-- The parent path of a path that has a relative path: its pathname starts the pathname
of the path, and its elements are those of the path but the last, `l`. That is a filename,
and then the parent path is empty, the root directory, or ends in a filename; or it is
the empty element, and then the parent path ends in a filename. -/
theorem Path.parent_path_last (P : Path) (hrel : P.has_relative_path = true) :
    ∃ l : List Char, P.elements = P.parent_path.elements ++ [l] ∧
      P.parent_path.m_path <+: P.m_path ∧
      ((IsFilename l ∧
          (P.parent_path.has_filename = true ∨ P.parent_path.has_relative_path = false)) ∨
        (l = [] ∧ P.parent_path.has_filename = true)) := by
  have hq := rdropWhile_append_rtakeWhile (fun c => decide (c ≠ '/')) P.m_path
  have hrs := rdropWhile_append_rtakeWhile (fun c => decide (c = '/'))
    (P.m_path.rdropWhile (fun c => decide (c ≠ '/')))
  have hpar : P.parent_path =
      if ((P.m_path.rdropWhile (fun c => decide (c ≠ '/'))).rdropWhile
          (fun c => decide (c = '/'))).isEmpty
      then ⟨P.m_path.rdropWhile (fun c => decide (c ≠ '/'))⟩
      else ⟨(P.m_path.rdropWhile (fun c => decide (c ≠ '/'))).rdropWhile
          (fun c => decide (c = '/'))⟩ := by
    simp [Path.parent_path, hrel]
  have hf : '/' ∉ P.m_path.rtakeWhile (fun c => decide (c ≠ '/')) := by
    intro h
    have := List.mem_rtakeWhile_imp h
    simp at this
  have hs : ∀ c ∈ (P.m_path.rdropWhile (fun c => decide (c ≠ '/'))).rtakeWhile
      (fun c => decide (c = '/')), c = '/' := by
    intro c h
    simpa using List.mem_rtakeWhile_imp h
  have hqlast : ∀ hq0 : P.m_path.rdropWhile (fun c => decide (c ≠ '/')) ≠ [],
      (P.m_path.rdropWhile (fun c => decide (c ≠ '/'))).getLast hq0 = '/' := by
    intro hq0
    simpa using List.rdropWhile_last_not (fun c => decide (c ≠ '/')) P.m_path hq0
  have hrlast : ∀ hr0 : (P.m_path.rdropWhile (fun c => decide (c ≠ '/'))).rdropWhile
      (fun c => decide (c = '/')) ≠ [],
      ((P.m_path.rdropWhile (fun c => decide (c ≠ '/'))).rdropWhile
        (fun c => decide (c = '/'))).getLast hr0 ≠ '/' := by
    intro hr0
    simpa using List.rdropWhile_last_not (fun c => decide (c = '/')) _ hr0
  generalize P.m_path.rtakeWhile (fun c => decide (c ≠ '/')) = f at hq hf
  generalize P.m_path.rdropWhile (fun c => decide (c ≠ '/')) = q at hq hrs hpar hs hqlast hrlast
  generalize q.rtakeWhile (fun c => decide (c = '/')) = s at hrs hs
  generalize q.rdropWhile (fun c => decide (c = '/')) = r at hrs hpar hrlast
  have hPel : P.elements = (Path.mk (q ++ f)).elements := by
    rw [hq]
  by_cases hr : r = []
  · subst hr
    rw [List.nil_append] at hrs
    subst hrs
    have hpar2 : P.parent_path = ⟨s⟩ := by simpa using hpar
    have hf0 : f ≠ [] := by
      intro h0
      rw [h0, List.append_nil] at hq
      have := (Path.has_relative_path_eq_false P).2 (by rw [← hq]; exact hs)
      rw [hrel] at this
      exact absurd this (by simp)
    obtain ⟨h1, h2⟩ := Path.elements_seps_filename s f hs ⟨hf0, hf⟩
    refine ⟨f, ?_, ?_, Or.inl ⟨⟨hf0, hf⟩, Or.inr ?_⟩⟩
    · rw [hPel, h1, hpar2]
    · rw [hpar2, ← hq]
      exact List.prefix_append _ _
    · rw [hpar2]
      exact h2
  · have hpar2 : P.parent_path = ⟨r⟩ := by simpa [hr] using hpar
    have hrfn : (Path.mk r).has_filename = true := by
      unfold Path.has_filename
      rw [List.getLast?_eq_getLast _ hr]
      simpa using hrlast hr
    have hs0 : s ≠ [] := by
      intro h0
      rw [h0, List.append_nil] at hrs
      subst hrs
      exact hrlast hr (hqlast hr)
    obtain ⟨h1, h2⟩ := Path.elements_after_filename r s f hrfn hs hs0
    have hpre : P.parent_path.m_path <+: P.m_path := by
      rw [hpar2, ← hq, ← hrs, List.append_assoc]
      exact List.prefix_append _ _
    rw [← hrs] at hPel
    by_cases hf0 : f = []
    · subst hf0
      rw [List.append_nil, h1] at hPel
      refine ⟨[], ?_, hpre, Or.inr ⟨rfl, ?_⟩⟩
      · rw [hPel, hpar2]
      · rw [hpar2]
        exact hrfn
    · rw [h2 ⟨hf0, hf⟩] at hPel
      refine ⟨f, ?_, hpre, Or.inl ⟨⟨hf0, hf⟩, Or.inl ?_⟩⟩
      · rw [hPel, hpar2]
      · rw [hpar2]
        exact hrfn

/-- The parent path has one element less: the elements of the path but the last. -/
theorem Path.parent_path_elements (P : Path) (hrel : P.has_relative_path = true) :
    P.parent_path.elements = P.elements.dropLast ∧
      P.parent_path.hidden_length + 1 = P.hidden_length := by
  obtain ⟨l, h1, -, -⟩ := P.parent_path_last hrel
  constructor
  · rw [h1, List.dropLast_concat]
  · simp [Path.hidden_length, h1]

/-- The parent path of a non-empty path, composed with the last element of the path, has
the elements of the path. -/
theorem Path.parent_path_div_last (P : Path) (hne : P.m_path ≠ []) :
    (P.parent_path.div ⟨P.elements.getLastD []⟩).elements = P.elements := by
  cases hrel : P.has_relative_path with
  | false =>
    have hall := (Path.has_relative_path_eq_false P).1 hrel
    have hpar : P.parent_path = P := by simp [Path.parent_path, hrel]
    cases hP : P.m_path with
    | nil => exact absurd hP hne
    | cons c cs =>
      have hc : c = '/' := hall c (by rw [hP]; exact List.mem_cons_self _ _)
      have hcs : ∀ d ∈ cs, d = '/' :=
        fun d hd => hall d (by rw [hP]; exact List.mem_cons_of_mem _ hd)
      have hel : P.elements = [['/']] := by
        have := scan_root_seps cs [] hcs
        rw [List.append_nil] at this
        simp [Path.elements, hP, scan, ScanState.next, hc, this, ScanState.finish]
      rw [hpar, hel]
      have : P.div ⟨['/']⟩ = ⟨['/']⟩ := Path.div_absolute P _ (by decide)
      simp [List.getLastD, this, Path.elements, scan, ScanState.next, ScanState.finish]
  | true =>
    obtain ⟨l, h1, -, h3⟩ := P.parent_path_last hrel
    have hlast : P.elements.getLastD [] = l := by
      rw [h1]
      simp
    rw [hlast]
    rcases h3 with ⟨hl, hfit⟩ | ⟨hl, hfn⟩
    · rw [(Path.div_filename P.parent_path l hl hfit).1, h1]
    · subst hl
      rw [Path.div_empty_rhs_filename P.parent_path ⟨[]⟩ rfl hfn, h1]

/-- C11. For every non-empty path `P` that is canonical, `makeCanonical(P) == P`, the
path composed of `deleteLastComponent(P)` and `lastComponent(P)` is equal to
`makeCanonical(P)`. It has the components of `P`, and that for every non-empty `P`,
canonical or not: for the root directory alone, for a single filename and for a path
that ends in a separator as for any other. -/
theorem compose_parent_and_last_component (P : Path) (hne : P.empty = false)
    (hcanonical : P.makeCanonical.eq P = true) :
    (P.deleteLastComponent.div P.lastComponent).eq P.makeCanonical = true ∧
    (P.deleteLastComponent.div P.lastComponent).elements = P.elements := by
  have hP : P.m_path ≠ [] := by
    intro h0
    simp [Path.empty, h0] at hne
  have hel : (P.deleteLastComponent.div P.lastComponent).elements = P.elements := by
    unfold Path.deleteLastComponent Path.lastComponent
    rw [hne]
    exact P.parent_path_div_last hP
  exact ⟨Path.eq_trans _ P _ (Path.eq_of_elements _ _ hel) (Path.eq_symm _ _ hcanonical), hel⟩

theorem compose_parent_and_last_component_witness :
    ((Path.mk ['/']).empty = false ∧ (Path.mk ['/']).makeCanonical.eq ⟨['/']⟩ = true ∧
      ((Path.mk ['/']).deleteLastComponent.div (Path.mk ['/']).lastComponent).eq
        (Path.mk ['/']).makeCanonical = true) ∧
    ((Path.mk ['a']).empty = false ∧ (Path.mk ['a']).makeCanonical.eq ⟨['a']⟩ = true ∧
      ((Path.mk ['a']).deleteLastComponent.div (Path.mk ['a']).lastComponent).eq
        (Path.mk ['a']).makeCanonical = true) ∧
    ((Path.mk ['/', 'a', '/', 'b', '/']).empty = false ∧
      (Path.mk ['/', 'a', '/', 'b', '/']).makeCanonical.eq ⟨['/', 'a', '/', 'b', '/']⟩ = true ∧
      ((Path.mk ['/', 'a', '/', 'b', '/']).deleteLastComponent.div
        (Path.mk ['/', 'a', '/', 'b', '/']).lastComponent).eq
        (Path.mk ['/', 'a', '/', 'b', '/']).makeCanonical = true) :=
  ⟨⟨by decide, by decide,
      (compose_parent_and_last_component ⟨['/']⟩ (by decide) (by decide)).1⟩,
    ⟨by decide, by decide,
      (compose_parent_and_last_component ⟨['a']⟩ (by decide) (by decide)).1⟩,
    ⟨by decide, by decide,
      (compose_parent_and_last_component ⟨['/', 'a', '/', 'b', '/']⟩ (by decide)
        (by decide)).1⟩⟩

/-! ## Paths: the relative path -/

theorem mismatch_spec (as bs : List (List Char)) :
    ∃ c, as = c ++ (mismatch as bs).1 ∧ bs = c ++ (mismatch as bs).2 := by
  induction as generalizing bs with
  | nil => exact ⟨[], by simp [mismatch]⟩
  | cons a as ih =>
    cases bs with
    | nil => exact ⟨[], by simp [mismatch]⟩
    | cons b bs =>
      by_cases hab : a = b
      · obtain ⟨c, h1, h2⟩ := ih bs
        refine ⟨a :: c, ?_, ?_⟩
        · simp only [mismatch, hab, if_true, List.cons_append, List.cons.injEq, true_and]
          exact h1
        · simp only [mismatch, hab, if_true, List.cons_append, List.cons.injEq, true_and]
          exact h2
      · exact ⟨[], by simp [mismatch, hab]⟩

theorem chain_no_root (E : List (List Char)) (h : E.Chain' Follows) :
    ∀ e ∈ E.tail, e ≠ ['/'] := by
  induction E with
  | nil => simp
  | cons x xs ih =>
    cases xs with
    | nil => simp
    | cons y ys =>
      obtain ⟨h1, h2⟩ := List.chain'_cons.1 h
      intro e he
      rcases List.mem_cons.1 he with he | he
      · rw [he]; exact h1.2.1
      · exact ih h2 e he

/-- The root directory is no element of a relative path. -/
theorem Path.relative_no_root (A : Path) : ∀ e ∈ A.relative_path.elements, e ≠ ['/'] := by
  intro e he
  have hhead : A.relative_path.elements.head? ≠ some ['/'] := by
    intro h
    have := (A.relative_path.isAbsolute_iff_head).2 h
    rw [A.relative_path_isAbsolute] at this
    exact absurd this (by simp)
  have htail := chain_no_root _ A.relative_path.stretch_elements.1.2
  cases hE : A.relative_path.elements with
  | nil => rw [hE] at he; simp at he
  | cons x xs =>
    rw [hE] at he hhead htail
    rcases List.mem_cons.1 he with h | h
    · rw [h]
      intro hx
      exact hhead (by simp [hx])
    · exact htail e h

/-- For two paths that are both absolute or both not, the elements part where the relative
paths part. -/
theorem Path.mismatch_relative (B P : Path) (habs : P.isAbsolute = B.isAbsolute) :
    mismatch B.elements P.elements =
      mismatch B.relative_path.elements P.relative_path.elements := by
  rw [B.elements_split, P.elements_split, habs]
  cases B.isAbsolute <;> simp [mismatch]

/-- What `mismatch` leaves of the elements of two such paths: a stretch without the root
directory for the first, elements of the second for the second. -/
theorem Path.mismatch_rest (B P : Path) (habs : P.isAbsolute = B.isAbsolute) :
    Stretch (mismatch B.elements P.elements).1 ∧
    (∀ e ∈ (mismatch B.elements P.elements).1, e ≠ ['/']) ∧
    (∀ e ∈ (mismatch B.elements P.elements).2, e ≠ ['/'] ∧ e ∈ P.elements) ∧
    ∃ c, B.elements = c ++ (mismatch B.elements P.elements).1 ∧
      P.elements = c ++ (mismatch B.elements P.elements).2 := by
  obtain ⟨c, h1, h2⟩ := mismatch_spec B.relative_path.elements P.relative_path.elements
  obtain ⟨d, h3, h4⟩ := mismatch_spec B.elements P.elements
  rw [Path.mismatch_relative B P habs]
  rw [Path.mismatch_relative B P habs] at h3 h4
  refine ⟨?_, ?_, ?_, d, h3, h4⟩
  · have hs := Stretch.drop_take _ B.relative_path.stretch_elements.1 c.length
      B.relative_path.elements.length
    rw [List.take_of_length_le (by simp)] at hs
    have hd : B.relative_path.elements.drop c.length =
        (mismatch B.relative_path.elements P.relative_path.elements).1 := by
      conv_lhs => rw [h1]
      exact List.drop_left _ _
    rw [hd] at hs
    exact hs
  · intro e he
    exact B.relative_no_root e (by rw [h1]; exact List.mem_append_right _ he)
  · intro e he
    refine ⟨P.relative_no_root e (by rw [h2]; exact List.mem_append_right _ he), ?_⟩
    rw [h4]
    exact List.mem_append_right _ he

theorem isFilename_dotdot : IsFilename ['.', '.'] := by
  refine ⟨by simp, ?_⟩
  decide

/-- Dot-dots followed by a stretch without root directory are a stretch. -/
theorem stretch_dotdots (n : Nat) (a : List (List Char)) (ha : Stretch a)
    (hroot : ∀ e ∈ a, e ≠ ['/']) : Stretch (List.replicate n ['.', '.'] ++ a) := by
  induction n with
  | zero => simpa using ha
  | succ m ih =>
    rw [List.replicate_succ, List.cons_append]
    refine ⟨?_, List.Chain'.cons' ih.2 ?_⟩
    · intro e he
      rcases List.mem_cons.1 he with h | h
      · exact Or.inr (Or.inr (h ▸ isFilename_dotdot))
      · exact ih.1 e h
    · intro y hy
      have hmem : y ∈ List.replicate m ['.', '.'] ++ a := List.mem_of_mem_head? hy
      refine ⟨by simp, ?_, fun h => absurd h (by decide)⟩
      rcases List.mem_append.1 hmem with h | h
      · rw [(List.mem_replicate.1 h).2]
        decide
      · exact hroot y h

/-! ## Paths: the normal form -/

theorem scan_name_append (n cs X : List Char) (hcs : '/' ∉ cs) :
    scan (ScanState.name n) (cs ++ X) = scan (ScanState.name (n ++ cs)) X := by
  induction cs generalizing n with
  | nil => simp
  | cons c cs ih =>
    have hc : c ≠ '/' := fun h => hcs (by simp [h])
    have hcs2 : '/' ∉ cs := fun h => hcs (List.mem_cons_of_mem _ h)
    have : scan (ScanState.name n) (c :: cs ++ X) = scan (ScanState.name (n ++ [c])) (cs ++ X) := by
      simp [scan, ScanState.next, hc]
    rw [this, ih _ hcs2]
    simp

/-- Reading a filename from the start, the root directory or a separator. -/
theorem scan_filename_append (st : ScanState)
    (hst : st = ScanState.start ∨ st = ScanState.root ∨ st = ScanState.sep)
    (k X : List Char) (hk : IsFilename k) :
    scan st (k ++ X) = scan (ScanState.name k) X := by
  obtain ⟨hne, hno⟩ := hk
  cases k with
  | nil => exact absurd rfl hne
  | cons c cs =>
    have hc : c ≠ '/' := fun h => hno (by simp [h])
    have hcs : '/' ∉ cs := fun h => hno (List.mem_cons_of_mem _ h)
    have : scan st (c :: cs ++ X) = scan (ScanState.name [c]) (cs ++ X) := by
      rcases hst with h | h | h <;> subst h <;> simp [scan, ScanState.next, hc]
    rw [this, scan_name_append _ _ _ hcs]
    rfl

theorem intercalate_cons_cons (k k2 : List Char) (ks : List (List Char)) :
    ['/'].intercalate (k :: k2 :: ks) = k ++ '/' :: ['/'].intercalate (k2 :: ks) := by
  simp [List.intercalate, List.intersperse]

/-- The elements of filenames written one after the other with a separator between them,
and one after them or not. -/
theorem scan_intercalate (ks : List (List Char)) (hks : ∀ k ∈ ks, IsFilename k)
    (hne : ks ≠ []) (closed : Bool) (st : ScanState)
    (hst : st = ScanState.start ∨ st = ScanState.root ∨ st = ScanState.sep) :
    scan st (['/'].intercalate ks ++ (if closed then ['/'] else [])) =
      ks ++ (if closed then [[]] else []) := by
  induction ks generalizing st with
  | nil => exact absurd rfl hne
  | cons k ks ih =>
    have hk := hks k (List.mem_cons_self _ _)
    cases ks with
    | nil =>
      have h1 : ['/'].intercalate [k] = k := by simp [List.intercalate, List.intersperse]
      rw [h1, scan_filename_append st hst k _ hk]
      cases closed <;> simp [scan, ScanState.next, ScanState.finish]
    | cons k2 ks =>
      rw [intercalate_cons_cons, List.append_assoc, scan_filename_append st hst k _ hk]
      have := ih (fun x hx => hks x (List.mem_cons_of_mem _ hx)) (by simp) ScanState.sep
        (Or.inr (Or.inr rfl))
      have hstep : ∀ Y : List Char,
          scan (ScanState.name k) ('/' :: Y) = k :: scan ScanState.sep Y := by
        intro Y
        simp [scan, ScanState.next]
      rw [List.cons_append, hstep, this]
      rfl

/-- The filenames of a path are filenames. -/
theorem Path.isFilename_of_mem_filenames (p : Path) : ∀ n ∈ p.filenames, IsFilename n := by
  intro n hn
  unfold Path.filenames at hn
  rw [List.mem_filter] at hn
  obtain ⟨hmem, hne⟩ := hn
  rcases p.relative_path.stretch_elements.1.1 n hmem with h | h | h
  · exact absurd h (p.relative_no_root n hmem)
  · simp [h] at hne
  · exact h

/-- The filenames of a path are its elements but the root directory and the empty
element. -/
theorem Path.filenames_eq (p : Path) :
    p.filenames = p.elements.filter (fun e => e ≠ [] ∧ e ≠ ['/']) := by
  have hrel : p.relative_path.elements.filter (fun e => e ≠ [] ∧ e ≠ ['/']) =
      p.relative_path.elements.filter (fun e => e ≠ []) := by
    apply List.filter_congr
    intro e he
    simp [p.relative_no_root e he]
  rw [p.elements_split, List.filter_append, hrel]
  cases p.isAbsolute <;> simp [Path.filenames]

theorem mem_foldl_normalStep (rooted : Bool) (xs st : List (List Char)) :
    ∀ n ∈ xs.foldl (normalStep rooted) st, n ∈ st ∨ n ∈ xs := by
  induction xs generalizing st with
  | nil => intro n hn; exact Or.inl hn
  | cons x xs ih =>
    intro n hn
    rw [List.foldl_cons] at hn
    rcases ih _ n hn with h | h
    · unfold normalStep at h
      split at h
      · exact Or.inl h
      · split at h
        · cases st with
          | nil =>
            simp only at h
            split at h
            · exact Or.inl h
            · exact Or.inr (by simp at h; simp [h])
          | cons top rest =>
            simp only at h
            split at h
            · rcases List.mem_cons.1 h with h | h
              · exact Or.inr (by simp [h])
              · exact Or.inl h
            · exact Or.inl (List.mem_cons_of_mem _ h)
        · rcases List.mem_cons.1 h with h | h
          · exact Or.inr (by simp [h])
          · exact Or.inl h
    · exact Or.inr (List.mem_cons_of_mem _ h)

/-- The normal form of an absolute path is absolute, and its filenames are the filenames
of the path the normalization keeps. -/
theorem Path.filenames_lexically_normal (p : Path) (habs : p.isAbsolute = true) :
    p.lexically_normal.filenames = (p.filenames.foldl (normalStep true) []).reverse ∧
      p.lexically_normal.isAbsolute = true := by
  have hne : p.empty = false := by
    cases h : p.m_path with
    | nil => simp [Path.isAbsolute, h] at habs
    | cons c cs => simp [Path.empty, h]
  have hk : ∀ k ∈ (p.filenames.foldl (normalStep true) []).reverse, IsFilename k := by
    intro k hk
    rcases mem_foldl_normalStep true _ [] k (List.mem_reverse.1 hk) with h | h
    · simp at h
    · exact p.isFilename_of_mem_filenames k h
  unfold Path.lexically_normal
  rw [hne, habs]
  simp only [Bool.false_eq_true, if_false, if_true]
  generalize (p.filenames.foldl (normalStep true) []).reverse = kept at hk
  generalize (!p.has_filename || p.filenames.getLast? = some ['.']
      || p.filenames.getLast? = some ['.', '.']) = cut
  have htext : (['/'] ++ ['/'].intercalate kept ++
      (if (cut && kept.getLast?.isSome && kept.getLast? != some ['.', '.']) = true
        then ['/'] else [])).isEmpty = false := by simp
  rw [htext]
  simp only [Bool.false_eq_true, if_false]
  refine ⟨?_, by simp [Path.isAbsolute]⟩
  rw [Path.filenames_eq]
  cases kept with
  | nil => simp [Path.elements, scan, ScanState.next, ScanState.finish, List.intercalate]
  | cons k ks =>
    have hscan := scan_intercalate (k :: ks) hk (by simp)
      (cut && (k :: ks).getLast?.isSome && (k :: ks).getLast? != some ['.', '.'])
      ScanState.root (Or.inr (Or.inl rfl))
    have hel : (Path.mk (['/'] ++ ['/'].intercalate (k :: ks) ++
        (if (cut && (k :: ks).getLast?.isSome && (k :: ks).getLast? != some ['.', '.']) = true
          then ['/'] else []))).elements =
        ['/'] :: ((k :: ks) ++ (if (cut && (k :: ks).getLast?.isSome &&
          (k :: ks).getLast? != some ['.', '.']) = true then [[]] else [])) := by
      rw [← hscan]
      simp [Path.elements, scan, ScanState.next]
    rw [hel]
    have hfilter : (k :: ks).filter (fun e => e ≠ [] ∧ e ≠ ['/']) = k :: ks := by
      rw [List.filter_eq_self]
      intro e he
      have := hk e he
      simp [this.1, IsFilename.ne_root e this]
    rw [List.filter_cons_of_neg (by simp), List.filter_append, hfilter]
    split <;> simp

theorem foldl_normalStep_names (rooted : Bool) (xs st : List (List Char))
    (hdd : ['.', '.'] ∉ xs) :
    xs.foldl (normalStep rooted) st = (xs.filter (fun n => n ≠ ['.'])).reverse ++ st := by
  induction xs generalizing st with
  | nil => rfl
  | cons x xs ih =>
    have hx : x ≠ ['.', '.'] := fun h => hdd (by simp [h])
    have hxs : ['.', '.'] ∉ xs := fun h => hdd (List.mem_cons_of_mem _ h)
    rw [List.foldl_cons, ih _ hxs]
    by_cases hdot : x = ['.']
    · simp [normalStep, hdot]
    · simp [normalStep, hdot, hx, List.filter_cons]

theorem foldl_normalStep_dotdots (rooted : Bool) (r st : List (List Char))
    (hdd : ['.', '.'] ∉ r) :
    (List.replicate r.length ['.', '.']).foldl (normalStep rooted) (r ++ st) = st := by
  induction r with
  | nil => rfl
  | cons top r ih =>
    have htop : top ≠ ['.', '.'] := fun h => hdd (by simp [h])
    have hr : ['.', '.'] ∉ r := fun h => hdd (List.mem_cons_of_mem _ h)
    rw [List.length_cons, List.replicate_succ, List.foldl_cons]
    have : normalStep rooted (top :: r ++ st) ['.', '.'] = r ++ st := by
      simp [normalStep, htop]
    rw [this, ih hr]

/-- A stretch that starts with the empty element is the empty element alone. -/
theorem Stretch.eq_of_head_empty (a : List (List Char)) (ha : Stretch a)
    (h : a.head? = some []) : a = [[]] := by
  cases a with
  | nil => simp at h
  | cons x xs =>
    simp only [List.head?_cons, Option.some.injEq] at h
    subst h
    cases xs with
    | nil => rfl
    | cons y ys => exact absurd rfl (List.chain'_cons.1 ha.2).1.1

/-- Composing a relative, non-empty path onto a path: the filenames are those of the one
followed by those of the other, and the pathname ends as that of the other. -/
theorem Path.filenames_div (P R : Path) (hR : R.isAbsolute = false) (hRne : R.empty = false) :
    (P.div R).filenames = P.filenames ++ R.filenames ∧
    (P.div R).has_filename = R.has_filename ∧
    (P.div R).elements.getLast? = R.elements.getLast? ∧
    (P.isAbsolute = true → (P.div R).isAbsolute = true) := by
  cases hm : R.m_path with
  | nil => simp [Path.empty, hm] at hRne
  | cons c cs =>
    have hc : c ≠ '/' := by
      intro h
      simp [Path.isAbsolute, hm, h] at hR
    have hRel : R.elements ≠ [] := by
      intro h
      have := R.hidden_length_pos (by rw [hm]; simp)
      simp [Path.hidden_length, h] at this
    obtain ⟨d1, d2, d3⟩ := Path.div_relative P R c cs hm hc
    have hlastm : ∀ l : List Char, (l ++ R.m_path).getLast? = R.m_path.getLast? := by
      intro l
      rw [hm, List.getLast?_append, List.getLast?_eq_getLast _ (List.cons_ne_nil c cs)]
      rfl
    refine ⟨?_, ?_, ?_, ?_⟩
    · rw [Path.filenames_eq, Path.filenames_eq P, Path.filenames_eq R]
      cases hf : P.has_filename with
      | true => rw [d1 hf, List.filter_append]
      | false =>
        cases hr : P.has_relative_path with
        | false => rw [d2 hf hr, List.filter_append]
        | true =>
          obtain ⟨E, hE1, hE2⟩ := d3 hf hr
          rw [hE1, hE2]
          simp [List.filter_append]
    · have key : ∀ l : List Char, (Path.mk (l ++ R.m_path)).has_filename = R.has_filename := by
        intro l
        unfold Path.has_filename
        simp only [hlastm]
      unfold Path.div
      rw [hR]
      simp only [Bool.false_eq_true, if_false]
      by_cases hf : P.has_filename = true
      · rw [if_pos hf]
        have := key (P.m_path ++ ['/'])
        simpa using this
      · rw [if_neg hf]
        exact key _
    · have hl : ∀ E : List (List Char), (E ++ R.elements).getLast? = R.elements.getLast? := by
        intro E
        rw [List.getLast?_append, List.getLast?_eq_getLast _ hRel]
        rfl
      cases hf : P.has_filename with
      | true => rw [d1 hf, hl]
      | false =>
        cases hr : P.has_relative_path with
        | false => rw [d2 hf hr, hl]
        | true =>
          obtain ⟨E, -, hE2⟩ := d3 hf hr
          rw [hE2, hl]
    · intro hP
      unfold Path.div
      rw [hR]
      simp only [Bool.false_eq_true, if_false]
      unfold Path.isAbsolute at hP ⊢
      cases hp : P.m_path with
      | nil => simp [hp] at hP
      | cons x xs =>
        rw [hp] at hP
        by_cases hf : P.has_filename = true
        · rw [if_pos hf]
          simpa using hP
        · rw [if_neg hf]
          simpa using hP

/-- The relative path from a base without dot-dot component, both paths being absolute or
both not. With `a` and `b` what `mismatch` leaves of the elements of the path and of the
base, and `up` the number of elements of `b` that are no dot and not empty: either it is
a dot, `up` is 0 and `a` is used up or starts with the empty element; or its elements are
`up` dot-dots followed by `a`, and there is one of them at least. -/
theorem Path.lexically_relative_cases (B P : Path) (habs : P.isAbsolute = B.isAbsolute)
    (hdd : ['.', '.'] ∉ P.elements) :
    (B.lexically_relative P = ⟨['.']⟩ ∧
      ((mismatch B.elements P.elements).2.filter (fun e => e ≠ ['.'] ∧ e ≠ [])).length = 0 ∧
      ((mismatch B.elements P.elements).1 = [] ∨
        (mismatch B.elements P.elements).1.head? = some [])) ∨
    ((B.lexically_relative P).elements =
        List.replicate
          ((mismatch B.elements P.elements).2.filter (fun e => e ≠ ['.'] ∧ e ≠ [])).length
          ['.', '.'] ++ (mismatch B.elements P.elements).1 ∧
      (0 < ((mismatch B.elements P.elements).2.filter
          (fun e => e ≠ ['.'] ∧ e ≠ [])).length ∨
        ((mismatch B.elements P.elements).1 ≠ [] ∧
          (mismatch B.elements P.elements).1.head? ≠ some []))) := by
  obtain ⟨hstretch, hroot, hb, -⟩ := Path.mismatch_rest B P habs
  unfold Path.lexically_relative
  have h0 : (B.isAbsolute != P.isAbsolute) = false := by simp [habs]
  rw [h0]
  simp only [Bool.false_eq_true, if_false]
  generalize mismatch B.elements P.elements = ab at hstretch hroot hb
  obtain ⟨a, b⟩ := ab
  simp only at hstretch hroot hb ⊢
  have hup : (b.filter (fun e => e ≠ ['/'] ∧ e ≠ ['.'] ∧ e ≠ ['.', '.'] ∧ e ≠ [])).length =
      (b.filter (fun e => e ≠ ['.'] ∧ e ≠ [])).length := by
    congr 1
    apply List.filter_congr
    intro e he
    have h1 := hb e he
    have h2 : e ≠ ['.', '.'] := fun h => hdd (h ▸ h1.2)
    simp [h1.1, h2]
  have hdown : (b.filter (fun e => e = ['.', '.'])).length = 0 := by
    rw [List.length_eq_zero, List.filter_eq_nil_iff]
    intro e he
    have h2 : e ≠ ['.', '.'] := fun h => hdd (h ▸ (hb e he).2)
    simpa using h2
  rw [hup, hdown]
  generalize hu : (b.filter (fun e => e ≠ ['.'] ∧ e ≠ [])).length = up
  simp only [Nat.not_lt_zero, if_false, Nat.sub_zero]
  by_cases h1 : a = [] ∧ b = []
  · obtain ⟨ha, hb0⟩ := h1
    subst ha
    subst hb0
    simp only [List.filter_nil, List.length_nil] at hu
    subst hu
    exact Or.inl ⟨by simp, rfl, Or.inl rfl⟩
  · have hne : (a.isEmpty && b.isEmpty) = false := by
      cases a with
      | nil =>
        cases b with
        | nil => exact absurd ⟨rfl, rfl⟩ h1
        | cons y ys => rfl
      | cons x xs => rfl
    rw [hne]
    simp only [Bool.false_eq_true, if_false]
    by_cases h2 : up = 0 ∧ (a.isEmpty = true ∨ a.head? = some [])
    · rw [if_pos h2]
      refine Or.inl ⟨rfl, h2.1, ?_⟩
      rcases h2.2 with h | h
      · exact Or.inl (List.isEmpty_iff.1 h)
      · exact Or.inr h
    · rw [if_neg h2]
      have hcond : 0 < up ∨ (a ≠ [] ∧ a.head? ≠ some []) := by
        by_cases hz : up = 0
        · refine Or.inr ⟨fun h => h2 ⟨hz, Or.inl (by simp [h])⟩,
            fun h => h2 ⟨hz, Or.inr h⟩⟩
        · exact Or.inl (Nat.pos_of_ne_zero hz)
      refine Or.inr ⟨?_, hcond⟩
      rw [composeElements_elements _ (stretch_dotdots _ _ hstretch hroot), if_neg]
      intro h
      rcases hcond with hpos | ⟨-, hhead⟩
      · obtain ⟨n, rfl⟩ := Nat.exists_eq_succ_of_ne_zero (Nat.pos_iff_ne_zero.1 hpos)
        simp [List.replicate_succ] at h
      · by_cases hz : up = 0
        · subst hz
          simp only [List.replicate_zero, List.nil_append] at h
          exact hhead (by rw [h]; rfl)
        · obtain ⟨n, rfl⟩ := Nat.exists_eq_succ_of_ne_zero hz
          simp [List.replicate_succ] at h

theorem ScanState.after_name (st : ScanState) (xs : List Char)
    (hst : ∀ n, st = ScanState.name n → IsFilename n) :
    ∀ n, st.after xs = ScanState.name n → IsFilename n := by
  induction xs generalizing st with
  | nil => exact hst
  | cons c cs ih =>
    apply ih
    intro n hn
    cases st with
    | start =>
      by_cases hc : c = '/'
      · simp [ScanState.next, hc] at hn
      · simp only [ScanState.next, hc, if_false, ScanState.name.injEq] at hn
        exact hn ▸ isFilename_singleton c hc
    | root =>
      by_cases hc : c = '/'
      · simp [ScanState.next, hc] at hn
      · simp only [ScanState.next, hc, if_false, ScanState.name.injEq] at hn
        exact hn ▸ isFilename_singleton c hc
    | sep =>
      by_cases hc : c = '/'
      · simp [ScanState.next, hc] at hn
      · simp only [ScanState.next, hc, if_false, ScanState.name.injEq] at hn
        exact hn ▸ isFilename_singleton c hc
    | name m =>
      by_cases hc : c = '/'
      · simp [ScanState.next, hc] at hn
      · simp only [ScanState.next, hc, if_false, ScanState.name.injEq] at hn
        exact hn ▸ isFilename_concat m c (hst m rfl) hc

/-- A non-empty path without relative path has the root directory as its one element. -/
theorem Path.elements_of_no_relative_path (P : Path) (hne : P.m_path ≠ [])
    (hrel : P.has_relative_path = false) : P.elements = [['/']] := by
  have hall := (Path.has_relative_path_eq_false P).1 hrel
  cases hP : P.m_path with
  | nil => exact absurd hP hne
  | cons c cs =>
    have hc : c = '/' := hall c (by rw [hP]; exact List.mem_cons_self _ _)
    have hcs : ∀ d ∈ cs, d = '/' :=
      fun d hd => hall d (by rw [hP]; exact List.mem_cons_of_mem _ hd)
    have := scan_root_seps cs [] hcs
    rw [List.append_nil] at this
    simp [Path.elements, hP, scan, ScanState.next, hc, this, ScanState.finish]

/-- A path has a filename exactly when its last element is one. -/
theorem Path.has_filename_iff (p : Path) :
    p.has_filename = true ↔ ∃ e, p.elements.getLast? = some e ∧ IsFilename e := by
  rcases p.shape with ⟨h0, h1, -, -⟩ | ⟨h0, h1, h2, -⟩ | ⟨-, h1, -, h3⟩ | ⟨-, h1, n, hn⟩
  · rw [h1, Path.elements_of_empty p h0]
    simp
  · rw [h1, Path.elements_of_no_relative_path p h0 h2]
    constructor
    · intro h; exact absurd h (by simp)
    · rintro ⟨e, he, hf⟩
      simp only [List.getLast?_singleton, Option.some.injEq] at he
      exact absurd he.symm (IsFilename.ne_root e hf)
  · rw [h1, p.elements_eq, h3]
    constructor
    · intro h; exact absurd h (by simp)
    · rintro ⟨e, he, hf⟩
      have hl : (ScanState.start.emitted p.m_path ++ ScanState.sep.finish).getLast? =
          some [] := by
        simp [ScanState.finish]
      rw [hl] at he
      exact absurd (Option.some.inj he).symm hf.1
  · rw [h1, p.elements_eq, hn]
    refine ⟨fun _ => ⟨n, by simp [ScanState.finish], ?_⟩, fun _ => rfl⟩
    exact ScanState.after_name ScanState.start p.m_path (fun m hm => by cases hm) n hn

theorem Path.has_filename_congr (p q : Path) (h : p.elements.getLast? = q.elements.getLast?) :
    p.has_filename = q.has_filename := by
  have hp := p.has_filename_iff
  have hq := q.has_filename_iff
  rw [h] at hp
  cases h1 : p.has_filename with
  | true => exact (hq.2 (hp.1 h1)).symm
  | false =>
    cases h2 : q.has_filename with
    | false => rfl
    | true => rw [hp.2 (hq.1 h2)] at h1; exact absurd h1 (by simp)

/-- The normal form is fixed by these: whether the path is absolute, what the
normalization keeps of its filenames, whether it ends in a filename, and its last
filename. -/
theorem Path.lexically_normal_congr (p q : Path) (hp : p.empty = false) (hq : q.empty = false)
    (habs : p.isAbsolute = q.isAbsolute)
    (hkept : p.filenames.foldl (normalStep p.isAbsolute) [] =
      q.filenames.foldl (normalStep q.isAbsolute) [])
    (hfn : p.has_filename = q.has_filename)
    (hlast : p.filenames.getLast? = q.filenames.getLast?) :
    p.lexically_normal = q.lexically_normal := by
  unfold Path.lexically_normal
  rw [hp, hq]
  simp only [Bool.false_eq_true, if_false]
  rw [hkept, hfn, hlast, habs]

/-- The relative path of an absolute path `B` from an absolute base `P` without dot-dot
component, composed onto `P`: the normalization keeps of its filenames what it keeps of
those of `B`; and if a filename of `B` is left after the elements the two start with in
common, it ends as `B` ends. -/
theorem Path.div_lexically_relative_kept (B P : Path) (hB : B.isAbsolute = true)
    (hP : P.isAbsolute = true) (hdd : ['.', '.'] ∉ P.elements) :
    (P.div (B.lexically_relative P)).isAbsolute = true ∧
    (P.div (B.lexically_relative P)).filenames.foldl (normalStep true) [] =
      B.filenames.foldl (normalStep true) [] ∧
    ((∃ e ∈ (mismatch B.elements P.elements).1, e ≠ []) →
      (P.div (B.lexically_relative P)).has_filename = B.has_filename ∧
      (P.div (B.lexically_relative P)).filenames.getLast? = B.filenames.getLast?) := by
  have habs : P.isAbsolute = B.isAbsolute := by rw [hP, hB]
  obtain ⟨hstretch, hroot, hb, c, hc1, hc2⟩ := Path.mismatch_rest B P habs
  have hcases := Path.lexically_relative_cases B P habs hdd
  generalize mismatch B.elements P.elements = ab at hstretch hroot hb hc1 hc2 hcases
  obtain ⟨a, b⟩ := ab
  simp only at hstretch hroot hb hc1 hc2 hcases ⊢
  have hBf : B.filenames = c.filter (fun e => e ≠ [] ∧ e ≠ ['/']) ++
      a.filter (fun e => e ≠ [] ∧ e ≠ ['/']) := by
    rw [Path.filenames_eq, hc1, List.filter_append]
  have hPf : P.filenames = c.filter (fun e => e ≠ [] ∧ e ≠ ['/']) ++
      b.filter (fun e => e ≠ [] ∧ e ≠ ['/']) := by
    rw [Path.filenames_eq, hc2, List.filter_append]
  have hddc : ['.', '.'] ∉ c.filter (fun e => e ≠ [] ∧ e ≠ ['/']) := by
    intro h
    exact hdd (by rw [hc2]; exact List.mem_append_left _ (List.mem_filter.1 h).1)
  have hddb : ['.', '.'] ∉ b.filter (fun e => e ≠ [] ∧ e ≠ ['/']) := by
    intro h
    exact hdd (by rw [hc2]; exact List.mem_append_right _ (List.mem_filter.1 h).1)
  have hreg : (b.filter (fun e => e ≠ [] ∧ e ≠ ['/'])).filter (fun n => n ≠ ['.']) =
      b.filter (fun e => e ≠ ['.'] ∧ e ≠ []) := by
    rw [List.filter_filter]
    apply List.filter_congr
    intro e he
    have := (hb e he).1
    simp [this]
  have hddreg : ['.', '.'] ∉ (b.filter (fun e => e ≠ ['.'] ∧ e ≠ [])).reverse := by
    intro h
    exact hdd (by
      rw [hc2]
      exact List.mem_append_right _ (List.mem_filter.1 (List.mem_reverse.1 h)).1)
  have hstackP : ∀ st : List (List Char),
      (b.filter (fun e => e ≠ [] ∧ e ≠ ['/'])).foldl (normalStep true) st =
        (b.filter (fun e => e ≠ ['.'] ∧ e ≠ [])).reverse ++ st := by
    intro st
    rw [foldl_normalStep_names true _ st hddb, hreg]
  rcases hcases with ⟨hR, hup, ha⟩ | ⟨hRel, hcond⟩
  · -- the relative path is a dot
    have hfa : a.filter (fun e => e ≠ [] ∧ e ≠ ['/']) = [] := by
      rcases ha with h | h
      · rw [h]; rfl
      · rw [Stretch.eq_of_head_empty a hstretch h]; rfl
    obtain ⟨f1, -, -, f4⟩ := Path.filenames_div P (B.lexically_relative P)
      (by rw [hR]; decide) (by rw [hR]; decide)
    have hRf : (B.lexically_relative P).filenames = [['.']] := by rw [hR]; decide
    refine ⟨f4 hP, ?_, ?_⟩
    · rw [f1, hRf, hPf, hBf, hfa, List.append_nil, List.foldl_append, List.foldl_append,
        hstackP, List.eq_nil_of_length_eq_zero hup]
      simp [normalStep]
    · rintro ⟨e, he, hne⟩
      have : e ∈ a.filter (fun e => e ≠ [] ∧ e ≠ ['/']) :=
        List.mem_filter.2 ⟨he, by simp [hne, hroot e he]⟩
      rw [hfa] at this
      simp at this
  · -- the relative path is dot-dots followed by what is left of `B`
    have hRne : (B.lexically_relative P).elements ≠ [] := by
      rw [hRel]
      rcases hcond with h | h
      · obtain ⟨n, hn⟩ := Nat.exists_eq_succ_of_ne_zero (Nat.pos_iff_ne_zero.1 h)
        rw [hn]
        simp [List.replicate_succ]
      · simp [h.1]
    have hRempty : (B.lexically_relative P).empty = false := by
      cases h : (B.lexically_relative P).empty with
      | false => rfl
      | true =>
        rw [Path.empty, List.isEmpty_iff] at h
        exact absurd (Path.elements_of_empty _ h) hRne
    have hRabs : (B.lexically_relative P).isAbsolute = false := by
      cases h : (B.lexically_relative P).isAbsolute with
      | false => rfl
      | true =>
        have hh := (Path.isAbsolute_iff_head _).1 h
        rw [hRel] at hh
        have hmem := List.mem_of_mem_head? hh
        rcases List.mem_append.1 hmem with h1 | h1
        · exact absurd (List.mem_replicate.1 h1).2 (by decide)
        · exact absurd rfl (hroot _ h1)
    obtain ⟨f1, f2, f3, f4⟩ := Path.filenames_div P (B.lexically_relative P) hRabs hRempty
    have hRf : (B.lexically_relative P).filenames =
        List.replicate (b.filter (fun e => e ≠ ['.'] ∧ e ≠ [])).reverse.length ['.', '.'] ++
          a.filter (fun e => e ≠ [] ∧ e ≠ ['/']) := by
      rw [Path.filenames_eq, hRel, List.filter_append, List.length_reverse]
      congr 1
      rw [List.filter_eq_self]
      intro e he
      rw [(List.mem_replicate.1 he).2]
      decide
    refine ⟨f4 hP, ?_, ?_⟩
    · rw [f1, hRf, hPf, hBf]
      simp only [List.foldl_append]
      rw [hstackP, foldl_normalStep_dotdots true _ _ hddreg]
    · rintro ⟨e, he, hne⟩
      have hfa : a.filter (fun e => e ≠ [] ∧ e ≠ ['/']) ≠ [] := by
        intro h
        have : e ∈ a.filter (fun e => e ≠ [] ∧ e ≠ ['/']) :=
          List.mem_filter.2 ⟨he, by simp [hne, hroot e he]⟩
        rw [h] at this
        simp at this
      have ha0 : a ≠ [] := by
        intro h
        rw [h] at he
        simp at he
      have hl : ∀ E : List (List Char), (E ++ a).getLast? = a.getLast? := by
        intro E
        rw [List.getLast?_append, List.getLast?_eq_getLast _ ha0]
        rfl
      have hlf : ∀ E : List (List Char),
          (E ++ a.filter (fun e => e ≠ [] ∧ e ≠ ['/'])).getLast? =
            (a.filter (fun e => e ≠ [] ∧ e ≠ ['/'])).getLast? := by
        intro E
        rw [List.getLast?_append, List.getLast?_eq_getLast _ hfa]
        rfl
      constructor
      · apply Path.has_filename_congr
        rw [f3, hRel, hc1, hl, hl]
      · rw [f1, hRf, hBf, ← List.append_assoc, hlf, hlf]

/-- C15, as stated, fails on its own example: with `P = /a/b/c` and the absolute
`B = /a`, `P.makeRelative(B)` is `../..`; the relative path of `P` with respect to the
base `B` is `b/c`. With the roles the other way round it still fails for a relative
`P`, where the result is the empty path (`P = a`, `B = /b`), and for a `P` with a dot-dot
component: with `P = /a/../c` and `B = /a` the result is a dot, which leads from `P` to
`/c/`, not to `/a`. -/
theorem makeRelative_not_relative_to_argument :
    ((Path.mk ['/', 'a']).isAbsolute = true ∧
      (Path.mk ['/', 'a', '/', 'b', '/', 'c']).makeRelative ⟨['/', 'a']⟩ =
        ⟨['.', '.', '/', '.', '.']⟩ ∧
      (Path.mk ['/', 'a', '/', 'b', '/', 'c']).lexically_relative ⟨['/', 'a']⟩ =
        ⟨['b', '/', 'c']⟩ ∧
      ((Path.mk ['/', 'a', '/', 'b', '/', 'c']).makeRelative ⟨['/', 'a']⟩).eq
        ⟨['b', '/', 'c']⟩ = false) ∧
    ((Path.mk ['/', 'b']).isAbsolute = true ∧
      (Path.mk ['a']).makeRelative ⟨['/', 'b']⟩ = ⟨[]⟩) ∧
    ((Path.mk ['/', 'a', '/', '.', '.', '/', 'c']).makeRelative ⟨['/', 'a']⟩ = ⟨['.']⟩ ∧
      ((Path.mk ['/', 'a', '/', '.', '.', '/', 'c']).div
        ((Path.mk ['/', 'a', '/', '.', '.', '/', 'c']).makeRelative
          ⟨['/', 'a']⟩)).makeCanonical = ⟨['/', 'c', '/']⟩ ∧
      (Path.mk ['/', 'a']).makeCanonical = ⟨['/', 'a']⟩) := by
  decide

/-- C15, amended. For every path `P` and absolute path `B`, `P.makeRelative(B)` is the
lexical relative path of `B` with respect to the base `P`. If `P` is relative, it is the
empty path. If `P` is absolute and has no dot-dot component, it is a dot, or a dot-dot
for each component of `P` that is no dot and not empty after those the two paths start
with in common, followed by the components of `B` after these; and it leads from `P` to
`B`: the canonical form of `P / P.makeRelative(B)` is absolute and has the filenames of
the canonical form of `B`, and is the canonical form of `B` when `B` has a filename
after the components it has in common with `P`. -/
theorem makeRelative_relative_to_receiver (P B : Path) (hB : B.isAbsolute = true) :
    P.makeRelative B = B.lexically_relative P ∧
    (P.isAbsolute = false → P.makeRelative B = ⟨[]⟩) ∧
    (P.isAbsolute = true → ['.', '.'] ∉ P.elements →
      (P.makeRelative B = ⟨['.']⟩ ∨
        (P.makeRelative B).elements =
          List.replicate
            ((mismatch B.elements P.elements).2.filter
              (fun e => e ≠ ['.'] ∧ e ≠ [])).length ['.', '.'] ++
            (mismatch B.elements P.elements).1) ∧
      (P.div (P.makeRelative B)).makeCanonical.isAbsolute = true ∧
      (P.div (P.makeRelative B)).makeCanonical.filenames = B.makeCanonical.filenames ∧
      ((∃ e ∈ (mismatch B.elements P.elements).1, e ≠ []) →
        (P.div (P.makeRelative B)).makeCanonical = B.makeCanonical)) := by
  refine ⟨rfl, ?_, ?_⟩
  · intro hP
    simp [Path.makeRelative, Path.lexically_relative, hP, hB]
  · intro hP hdd
    obtain ⟨k1, k2, k3⟩ := Path.div_lexically_relative_kept B P hB hP hdd
    have n1 := Path.filenames_lexically_normal _ k1
    have n2 := Path.filenames_lexically_normal B hB
    refine ⟨?_, n1.2, ?_, ?_⟩
    · rcases Path.lexically_relative_cases B P (by rw [hP, hB]) hdd with h | h
      · exact Or.inl h.1
      · exact Or.inr h.1
    · show (P.div (B.lexically_relative P)).lexically_normal.filenames =
        B.lexically_normal.filenames
      rw [n1.1, n2.1, k2]
    · intro ha
      obtain ⟨h1, h2⟩ := k3 ha
      have hne : ∀ p : Path, p.isAbsolute = true → p.empty = false := by
        intro p hp
        cases h : p.m_path with
        | nil => simp [Path.isAbsolute, h] at hp
        | cons c cs => simp [Path.empty, h]
      show (P.div (B.lexically_relative P)).lexically_normal = B.lexically_normal
      exact Path.lexically_normal_congr (P.div (B.lexically_relative P)) B (hne _ k1)
        (hne _ hB) (k1.trans hB.symm) (by rw [k1, hB]; exact k2) h1 h2

theorem makeRelative_relative_to_receiver_witness :
    (Path.mk ['/', 'a', '/', 'b', '/', 'c']).isAbsolute = true ∧
    (Path.mk ['/', 'a']).makeRelative ⟨['/', 'a', '/', 'b', '/', 'c']⟩ = ⟨['b', '/', 'c']⟩ ∧
    ((Path.mk ['/', 'a']).div
      ((Path.mk ['/', 'a']).makeRelative ⟨['/', 'a', '/', 'b', '/', 'c']⟩)).makeCanonical =
      (Path.mk ['/', 'a', '/', 'b', '/', 'c']).makeCanonical ∧
    (Path.mk ['a']).makeRelative ⟨['/', 'a', '/', 'b', '/', 'c']⟩ = ⟨[]⟩ :=
  ⟨by decide, by decide,
    ((makeRelative_relative_to_receiver ⟨['/', 'a']⟩ ⟨['/', 'a', '/', 'b', '/', 'c']⟩
      (by decide)).2.2 (by decide) (by decide)).2.2.2 ⟨['b'], by decide, by decide⟩,
    (makeRelative_relative_to_receiver ⟨['a']⟩ ⟨['/', 'a', '/', 'b', '/', 'c']⟩
      (by decide)).2.1 (by decide)⟩

end TrenchBroom
